import Mathlib

/-! # Flare: the code generator `visitors/compiler.cpp`

A shallow embedding of the LLVM code generator of the Flare compiler.  The generator walks an
abstract syntax tree and drives an `llvm::IRBuilder`; here the builder, the module and the fields
of the `Compiler` object are an explicit state that every `visit` function threads through.

Conventions of the embedding:

* `llvm::Value *` is `Value`; the null pointer is `Value.null`.
* LLVM is the library as it runs in a build without assertions: a precondition that LLVM states
  only as an `assert` does not stop the generator.  An integer type of width zero is created, the
  bit width of a type that is not an integer type is the zero found in its width field, and an
  integer cast of such an operand is created as requested.
* Every instruction the builder creates is recorded in the block the builder points at, in the
  order of the requests.  The constant folder of the builder is part of the model: an arithmetic
  operation, a comparison or an integer cast whose operands are constants creates no instruction,
  the builder answers the constant it computes (`foldBinOp`, `foldICmp`, `foldCast`).
* A call into LLVM that dereferences a null pointer is `Err.NullDeref`; this includes the calls
  that read the data layout of the module through the function that owns the insertion block
  (`State.getModule`).  `Err.NotAPointer` is the one question without an answer, the pointee
  type of a type that is not a pointer; names are bound to allocas and functions only, whose
  types are pointers.
-/

namespace Flare

/-! ## Tokens, types and values -/

/-- Modelled from the spec: the `TokenTypes` enumeration of `ir/token.hpp`, which is not among the
sources at hand.  The operator tokens and the eight integer type tags are the ones `compiler.cpp`
names; `OTHER` stands for every remaining token of the enumeration. -/
inductive TokenTypes where
  | PLUS | MINUS | STAR | SLASH
  | EQUAL_EQUAL | NOT_EQUAL | LESS | LESS_EQUAL | GREATER | GREATER_EQUAL
  | I8 | I16 | I32 | I64 | U8 | U16 | U32 | U64
  | OTHER (code : Nat)
  deriving DecidableEq, Repr

/-- The LLVM types the generator meets: `iN`, `void` (the type of a store), pointers (allocas,
functions, the format string) and function types. -/
inductive Ty where
  | int (width : Nat)
  | void
  | ptr (elem : Ty)
  | fn
  deriving DecidableEq, Repr

/-- An `llvm::Value *`. Instruction results carry the number of the instruction that defines
them and their type; `poison` is the constant the folder answers for an operation on constants
that has no value. -/
inductive Value where
  | null
  | constInt (width : Nat) (bits : Nat)
  | poison (ty : Ty)
  | inst (id : Nat) (ty : Ty)
  | arg (fn : Nat) (idx : Nat) (ty : Ty)
  | func (fn : Nat)
  | globalString (s : String)
  deriving DecidableEq, Repr

/-- Result of `v->getType()`: `none` when `v` is the null pointer. -/
def Value.getType : Value → Option Ty
  | .null => none
  | .constInt w _ => some (.int w)
  | .poison ty => some ty
  | .inst _ ty => some ty
  | .arg _ _ ty => some ty
  | .func _ => some (.ptr .fn)
  | .globalString _ => some (.ptr (.int 8))

/-- Result of `isa<Constant>(v)`: integer constants, `poison`, functions and global strings are
constants; instruction results and arguments are not. -/
def Value.isConstant : Value → Bool
  | .constInt _ _ => true
  | .poison _ => true
  | .func _ => true
  | .globalString _ => true
  | _ => false

/-- The values an expression can have: the null pointer, an integer constant, `poison`, or the
result of an instruction. -/
def Value.isOperand : Value → Bool
  | .null => true
  | .constInt _ _ => true
  | .poison _ => true
  | .inst _ _ => true
  | _ => false

/-- Failures of a generator run. `UndefinedSymbol` is the failure of `Environment::get`,
`NullDeref` the dereference of a null pointer, `NotAPointer` the request for the pointee type of
a type that is not a pointer. -/
inductive Err where
  | UndefinedSymbol
  | NullDeref
  | NotAPointer
  deriving DecidableEq, Repr

/-- The call `v->getType()` as a step that may fail: it dereferences `v`. -/
def Value.typeOf (v : Value) : Except Err Ty :=
  match v.getType with
  | some t => .ok t
  | none => .error .NullDeref

/-- Result of `Type::getIntegerBitWidth`, which reads the width field of the type as if it were
an `IntegerType`: the width of an integer type, and the zero that `void`, a pointer in address
space 0 and the type of a function without variable arguments hold in that field. -/
def Ty.getIntegerBitWidth : Ty → Nat
  | .int w => w
  | _ => 0

/-- Result of `Type::getScalarSizeInBits`: the width of an integer type, zero for the other
types of the generator. -/
def Ty.getScalarSizeInBits : Ty → Nat
  | .int w => w
  | _ => 0

/-- Result of `Type::getPointerElementType`: the pointee type of a pointer type; asked of a type
that is not a pointer it has no answer. -/
def Ty.getPointerElementType : Ty → Except Err Ty
  | .ptr t => .ok t
  | _ => .error .NotAPointer

/-- Result of `Type::isIntegerTy`. -/
def Ty.isIntegerTy : Ty → Bool
  | .int _ => true
  | _ => false

/-- Result of `llvm::Type::getIntNTy(context, bitWidth)`: the integer type of that width, also
for width 0. -/
def getIntNTy (bitWidth : Nat) : Ty :=
  .int bitWidth

/-! ## Instructions, blocks, functions -/

/-- The opcodes `CastInst::CreateIntegerCast` chooses from. -/
inductive CastOp where
  | BitCast | Trunc | SExt | ZExt
  deriving DecidableEq, Repr

/-- The arithmetic opcodes of `visit(BinaryExpression&)`. -/
inductive BinOp where
  | Add | Sub | Mul | SDiv
  deriving DecidableEq, Repr

/-- The comparison predicates of `visit(BinaryExpression&)`. -/
inductive Pred where
  | EQ | NE | SLT | SLE | SGT | SGE
  deriving DecidableEq, Repr

/-- The instructions the generator creates. The first field of a value producing instruction is
its number; `Value.inst` with that number is its result. -/
inductive Inst where
  | alloca (id : Nat) (ty : Ty) (name : String)
  | store (id : Nat) (val : Value) (ptr : Value)
  | load (id : Nat) (ty : Ty) (ptr : Value)
  | binop (id : Nat) (op : BinOp) (lhs rhs : Value)
  | icmp (id : Nat) (pred : Pred) (lhs rhs : Value)
  | cast (id : Nat) (op : CastOp) (val : Value) (ty : Ty)
  | call (id : Nat) (callee : Nat) (args : List Value)
  | br (target : Nat)
  | condBr (cond : Value) (ifTrue ifFalse : Nat)
  | ret (val : Value)
  | retVoid
  deriving DecidableEq, Repr

/-- Terminator instructions: branches and returns. -/
def Inst.isTerminator : Inst → Bool
  | .br _ => true
  | .condBr _ _ _ => true
  | .ret _ => true
  | .retVoid => true
  | _ => false

/-- The blocks an instruction may transfer control to. -/
def Inst.targets : Inst → List Nat
  | .br t => [t]
  | .condBr _ t f => [t, f]
  | _ => []

/-- An `llvm::BasicBlock`: `parent` is the function it has been inserted into, if any. -/
structure BasicBlock where
  name : String
  parent : Option Nat
  insts : List Inst
  deriving DecidableEq, Repr

/-- An `llvm::Function` of the module, by signature. -/
structure Function where
  name : String
  retTy : Ty
  argTys : List Ty
  isVarArg : Bool
  deriving DecidableEq, Repr

/-! ## The scope environment -/

/-- Modelled from the spec: one scope frame of `Environment` (`environment.hpp` is not among the
sources at hand), a mapping from names to storage locations. -/
abbrev Frame : Type := List (String × Value)

/-- Modelled from the spec: lookup of a name in one frame. -/
def Frame.find (f : Frame) (name : String) : Option Value :=
  (List.find? (fun p => p.1 == name) f).map Prod.snd

/-- Modelled from the spec: `define` on one frame "inserts or overwrites `name`". -/
def Frame.define (f : Frame) (name : String) (storage : Value) : Frame :=
  (name, storage) :: List.filter (fun p => !(p.1 == name)) f

/-- Modelled from the spec: the search of `Environment::get`, "innermost-to-outermost", over the
chain of `enclosing` back-references; the list holds the current frame first and the root last. -/
def lookupChain : List Frame → String → Option Value
  | [], _ => none
  | f :: rest, name =>
    match f.find name with
    | some v => some v
    | none => lookupChain rest name

/-- Modelled from the spec: `Environment::get(name)`, which "fails with `UndefinedSymbol` if
exhausted". The empty list is the null `env` pointer. -/
def Environment.get (env : List Frame) (name : String) : Except Err Value :=
  match env with
  | [] => .error .NullDeref
  | _ :: _ =>
    match lookupChain env name with
    | some v => .ok v
    | none => .error .UndefinedSymbol

/-- Modelled from the spec: `Environment::define(name, storage)`, which "inserts or overwrites
`name` in the current (innermost) frame only". -/
def Environment.define (env : List Frame) (name : String) (storage : Value) :
    Except Err (List Frame) :=
  match env with
  | [] => .error .NullDeref
  | f :: rest => .ok (f.define name storage :: rest)

/-! ## The generator state -/

/-- The `typeMap` global of `compiler.cpp`, a `std::map` from type tag to (width, signedness). -/
abbrev TypeMap : Type := List (TokenTypes × (Nat × Bool))

/-- The initial contents of `typeMap`. -/
def typeMap : TypeMap :=
  [ (.I8, (8, true)), (.I16, (16, true)), (.I32, (32, true)), (.I64, (64, true)),
    (.U8, (8, false)), (.U16, (16, false)), (.U32, (32, false)), (.U64, (64, false)) ]

/-- The effect of `typeMap[tag]` (`std::map::operator[]`): the mapped pair when the key is
present; otherwise a value-initialised pair `(0, false)` is inserted under the key and
returned. -/
def TypeMap.index (m : TypeMap) (tag : TokenTypes) : (Nat × Bool) × TypeMap :=
  match List.lookup tag m with
  | some p => (p, m)
  | none => ((0, false), m ++ [(tag, (0, false))])

/-- The fields of `Compiler` together with what hangs off them: the module's function list, the
basic blocks created so far (a block is named by its position in `blocks`), the builder's
insertion block (the builder always appends at its end), the current function, the current scope
(see `lookupChain`), the table `typeMap`, and the number of the next instruction. -/
structure State where
  typeMap : TypeMap
  functions : List Function
  blocks : List BasicBlock
  insertPoint : Option Nat
  mainFunction : Option Nat
  env : List Frame
  nextId : Nat
  deriving DecidableEq, Repr

/-- Instructions of block `b`, empty when there is no such block. -/
def instsAt (blocks : List BasicBlock) (b : Nat) : List Inst :=
  match blocks[b]? with
  | some bb => bb.insts
  | none => []

/-- The block list with `f` applied to block `b`; unchanged when there is no such block. -/
def updateBlock (f : BasicBlock → BasicBlock) : Nat → List BasicBlock → List BasicBlock
  | _, [] => []
  | 0, bb :: rest => f bb :: rest
  | b + 1, bb :: rest => bb :: updateBlock f b rest

/-- The state after `code` has been appended to the insertion block; without an insertion block
instructions are created but placed nowhere. -/
def State.appendCode (σ : State) (code : List Inst) : State :=
  match σ.insertPoint with
  | none => σ
  | some b =>
    { σ with blocks := updateBlock (fun bb => { bb with insts := bb.insts ++ code }) b σ.blocks }

/-- Effect of `IRBuilder::Insert`: the instruction is appended to the insertion block. -/
def State.insert (σ : State) (i : Inst) : State :=
  σ.appendCode [i]

/-- Creation of a value producing instruction: it takes the next instruction number. -/
def State.emit (σ : State) (mk : Nat → Inst) (ty : Ty) : Value × State :=
  (.inst σ.nextId ty, { (σ.insert (mk σ.nextId)) with nextId := σ.nextId + 1 })

/-- Effect of `llvm::BasicBlock::Create(context, name, parent)`. -/
def State.createBlock (σ : State) (name : String) (parent : Option Nat) : Nat × State :=
  (σ.blocks.length, { σ with blocks := σ.blocks ++ [{ name := name, parent := parent, insts := [] }] })

/-- Effect of `builder->SetInsertPoint(block)`. -/
def State.setInsertPoint (σ : State) (b : Nat) : State :=
  { σ with insertPoint := some b }

/-- Effect of `block->insertInto(mainFunction)`, which dereferences the function. -/
def State.insertInto (σ : State) (b : Nat) : Except Err State :=
  match σ.mainFunction with
  | none => .error .NullDeref
  | some f => .ok { σ with blocks := updateBlock (fun bb => { bb with parent := some f }) b σ.blocks }

/-- Effect of `llvm::Function::Create(type, ExternalLinkage, name, module)`. -/
def State.createFunction (σ : State) (f : Function) : Nat × State :=
  (σ.functions.length, { σ with functions := σ.functions ++ [f] })

/-- The pointer `mainFunction` as an `llvm::Value *`. -/
def State.currentFunction (σ : State) : Value :=
  match σ.mainFunction with
  | some f => .func f
  | none => .null

/-- Result of `module->getFunction(name)`: `none` is the null pointer. -/
def State.getFunction (σ : State) (name : String) : Option Nat :=
  let i := List.findIdx (fun f => f.name == name) σ.functions
  if i < σ.functions.length then some i else none

/-! ## The abstract syntax tree (`ir/expressions.hpp`, `ir/statements.hpp`) -/

mutual
/-- The expression nodes, one constructor per class that `ir/expressions.cpp` gives an `accept`
method. -/
inductive Expression where
  | IntExpression (value : Int)
  | VarExpression (name : String)
  | BinaryExpression (left : Expression) (op : TokenTypes) (right : Expression)
  | AssignmentExpression (name : String) (value : Expression)
  | CallExpression (name : String) (args : ExprList)
/-- The vector `args` of a `CallExpression`. -/
inductive ExprList where
  | nil
  | cons (head : Expression) (tail : ExprList)
end

mutual
/-- The statement nodes, one constructor per `visit` overload of `compiler.cpp`. -/
inductive Statement where
  | ExpressionStatement (expression : Expression)
  | PrintStatement (expression : Expression)
  | LetStatement (name : String) (type : TokenTypes) (expression : Expression)
  | BlockStatement (statements : StmtList)
  | IfStatement (condition : Expression) (thenBranch : Statement) (elifBranches : ElifList)
      (elseBranch : OptStatement)
  | FnStatement (name : String) (args : List (String × TokenTypes)) (returnType : TokenTypes)
      (body : Statement)
  | ReturnStatement (expression : Expression)
  | WhileStatement (condition : Expression) (branch : Statement)
/-- A vector of statements. -/
inductive StmtList where
  | nil
  | cons (head : Statement) (tail : StmtList)
/-- The vector `elifBranches`: each `ElifStatement` has a condition and a branch. -/
inductive ElifList where
  | nil
  | cons (condition : Expression) (branch : Statement) (tail : ElifList)
/-- The pointer `elseBranch`, which may be null. -/
inductive OptStatement where
  | none
  | some (s : Statement)
end

/-- Number of `ElifStatement`s. -/
def ElifList.size : ElifList → Nat
  | .nil => 0
  | .cons _ _ t => t.size + 1

/-- Whether the pointer `elseBranch` is set. -/
def OptStatement.isSome : OptStatement → Bool
  | .none => false
  | .some _ => true

/-! ## Meaning of the integer operations -/

/-- Signed reading of the low `w` bits of `n`. -/
def toSigned (w n : Nat) : Int :=
  if 2 * (n % 2 ^ w) < 2 ^ w then ((n % 2 ^ w : Nat) : Int) else ((n % 2 ^ w : Nat) : Int) - 2 ^ w

/-- The bit pattern of width `w` of an integer (two's complement). -/
def ofInt (w : Nat) (z : Int) : Nat :=
  (z % 2 ^ w).toNat

/-- LLVM's meaning of the integer casts from width `sw` to width `dw`: `trunc` keeps the low `dw`
bits, `zext` fills with zeros, `sext` fills with copies of the sign bit, `bitcast` keeps the
bits. -/
def evalCast (op : CastOp) (sw dw n : Nat) : Nat :=
  match op with
  | .BitCast => n
  | .Trunc => n % 2 ^ dw
  | .ZExt => n % 2 ^ sw
  | .SExt => ofInt dw (toSigned sw n)

/-- LLVM's meaning of `add`, `sub`, `mul` and `sdiv` at width `w`; `sdiv` has no value when the
divisor is zero or the quotient overflows. -/
def evalBinOp (op : BinOp) (w x y : Nat) : Option Nat :=
  match op with
  | .Add => some ((x + y) % 2 ^ w)
  | .Sub => some (ofInt w ((x : Int) - (y : Int)))
  | .Mul => some ((x * y) % 2 ^ w)
  | .SDiv =>
    if toSigned w y = 0 then none
    else if toSigned w x = -(2 ^ (w - 1)) ∧ toSigned w y = -1 then none
    else some (ofInt w (Int.tdiv (toSigned w x) (toSigned w y)))

/-- LLVM's meaning of the signed comparisons at width `w`. -/
def evalPred (p : Pred) (w x y : Nat) : Bool :=
  match p with
  | .EQ => decide (x % 2 ^ w = y % 2 ^ w)
  | .NE => decide (x % 2 ^ w ≠ y % 2 ^ w)
  | .SLT => decide (toSigned w x < toSigned w y)
  | .SLE => decide (toSigned w x ≤ toSigned w y)
  | .SGT => decide (toSigned w x > toSigned w y)
  | .SGE => decide (toSigned w x ≥ toSigned w y)

/-! ## Builder calls -/

/-- Result of `BB->getModule()` on the insertion block `BB` of the builder, which is
`BB->getParent()->getParent()`: it dereferences the insertion block and the function that owns it,
so both must exist. -/
def State.getModule (σ : State) : Except Err Unit :=
  match σ.insertPoint with
  | none => .error .NullDeref
  | some b =>
    match σ.blocks[b]? with
    | none => .error .NullDeref
    | some bb =>
      match bb.parent with
      | none => .error .NullDeref
      | some _ => .ok ()

/-- The opcode `CastInst::CreateIntegerCast` and `ConstantExpr::getIntegerCast` pick for a source
of `src` bits and a destination of `dst` bits. -/
def castOpcode (src dst : Nat) (isSigned : Bool) : CastOp :=
  if src = dst then .BitCast else if src > dst then .Trunc else if isSigned then .SExt else .ZExt

/-- The constant folder on an integer cast: the cast of an integer constant to an integer type is
the constant with the cast bits, the cast of `poison` is `poison`; `none` when the operand is not
such a constant, in which case the builder creates an instruction. The other constants,
functions and strings, are never the operand of a cast (`Value.isOperand`). -/
def foldCast (op : CastOp) (v : Value) (dest : Ty) : Option Value :=
  match v, dest with
  | .constInt sw n, .int dw => some (.constInt dw (evalCast op sw dw n))
  | .poison _, _ => some (.poison dest)
  | _, _ => none

/-- Effect of `Insert` on what the folder has answered: a folded constant is the result and
nothing is inserted; without one the instruction is created and appended at the insertion
point. -/
def State.insertFolded (σ : State) (folded : Option Value) (mk : Nat → Inst) (ty : Ty) :
    Value × State :=
  match folded with
  | some c => (c, σ)
  | none => σ.emit mk ty

/-- Effect of `Insert` on a cast with opcode `op`: the folded constant when `v` is a constant,
the cast instruction otherwise. -/
def insertCast (op : CastOp) (v : Value) (dest : Ty) (σ : State) : Value × State :=
  σ.insertFolded (foldCast op v dest) (fun id => .cast id op v dest) dest

/-- Effect of `builder->CreateIntCast(v, dest, isSigned)`: `v` itself when it already has the
type; otherwise the cast whose opcode follows from the sizes of the two types. -/
def createIntCast (v : Value) (dest : Ty) (isSigned : Bool) (σ : State) :
    Except Err (Value × State) :=
  match v.getType with
  | none => .error .NullDeref
  | some src =>
    if src = dest then .ok (v, σ)
    else .ok (insertCast (castOpcode src.getScalarSizeInBits dest.getScalarSizeInBits isSigned)
      v dest σ)

/-- Effect of `builder->CreateLoad(ptr)`: the loaded type is the pointee type of `ptr`, and its
alignment is read from the data layout of the module. -/
def createLoad (ptr : Value) (σ : State) : Except Err (Value × State) :=
  match ptr.getType with
  | none => .error .NullDeref
  | some t =>
    match t.getPointerElementType with
    | .error e => .error e
    | .ok elem =>
      match σ.getModule with
      | .error e => .error e
      | .ok _ => .ok (σ.emit (fun id => .load id elem ptr) elem)

/-- Effect of `builder->CreateStore(val, ptr)`: the alignment of the type of `val` is read from
the data layout of the module; the result is the store instruction, of type `void`. -/
def createStore (val ptr : Value) (σ : State) : Except Err (Value × State) :=
  match σ.getModule with
  | .error e => .error e
  | .ok _ =>
    match val.getType with
    | none => .error .NullDeref
    | some _ => .ok (σ.emit (fun id => .store id val ptr) .void)

/-- Effect of `builder->CreateAlloca(ty, 0, name)`: the address space of the alloca is read from
the data layout of the module. -/
def createAlloca (ty : Ty) (name : String) (σ : State) : Except Err (Value × State) :=
  match σ.getModule with
  | .error e => .error e
  | .ok _ => .ok (σ.emit (fun id => .alloca id ty name) (.ptr ty))

/-- The constant folder on `add`, `sub`, `mul` and `sdiv`: on two integer constants the constant
LLVM's meaning of the operation gives, `poison` when the operation has no value or an operand is
`poison`; `none` when an operand is not such a constant, in which case the builder creates an
instruction. The other constants, functions and strings, are never operands of an operation or
a comparison (`Value.isOperand`). -/
def foldBinOp (op : BinOp) (lhs rhs : Value) : Option Value :=
  match lhs, rhs with
  | .constInt w x, .constInt _ y =>
    match evalBinOp op w x y with
    | some z => some (.constInt w z)
    | none => some (.poison (.int w))
  | .constInt w _, .poison _ => some (.poison (.int w))
  | .poison t, .constInt _ _ => some (.poison t)
  | .poison t, .poison _ => some (.poison t)
  | _, _ => none

/-- The constant folder on a comparison: on two integer constants the `i1` constant of its truth
value, `poison` when an operand is `poison`; `none` when an operand is not such a constant. -/
def foldICmp (p : Pred) (lhs rhs : Value) : Option Value :=
  match lhs, rhs with
  | .constInt w x, .constInt _ y => some (.constInt 1 (if evalPred p w x y then 1 else 0))
  | .constInt _ _, .poison _ => some (.poison (.int 1))
  | .poison _, .constInt _ _ => some (.poison (.int 1))
  | .poison _, .poison _ => some (.poison (.int 1))
  | _, _ => none

/-- Effect of `CreateAdd`, `CreateSub`, `CreateMul`, `CreateSDiv`: the builder looks at both
operands to see whether they are constants; if so it answers the folded constant, otherwise it
creates the instruction, whose type is the type of the left operand. The generator passes
operands whose types `CastValuesToBiggestType` has read, so neither is null there. -/
def createBinOp (op : BinOp) (lhs rhs : Value) (σ : State) : Except Err (Value × State) :=
  match lhs.getType, rhs.getType with
  | some t, some _ =>
    .ok (σ.insertFolded (foldBinOp op lhs rhs) (fun id => .binop id op lhs rhs) t)
  | _, _ => .error .NullDeref

/-- Effect of `CreateICmpEQ` and its siblings: the folded constant on constant operands, otherwise
a comparison instruction; the result is an `i1`. -/
def createICmp (p : Pred) (lhs rhs : Value) (σ : State) : Except Err (Value × State) :=
  match lhs.getType, rhs.getType with
  | some _, some _ =>
    .ok (σ.insertFolded (foldICmp p lhs rhs) (fun id => .icmp id p lhs rhs) (.int 1))
  | _, _ => .error .NullDeref

/-- Effect of `builder->CreateCall(func, args, name)`, which reads the function type of `func`;
the result has the function's return type. -/
def createCall (func : Option Nat) (args : List Value) (σ : State) : Except Err (Value × State) :=
  match func with
  | none => .error .NullDeref
  | some f =>
    match σ.functions[f]? with
    | none => .error .NullDeref
    | some fn => .ok (σ.emit (fun id => .call id f args) fn.retTy)

/-- Effect of `builder->CreateGlobalStringPtr(s)`: the global is added to the module that owns
the function that owns the insertion block, which must therefore exist. -/
def createGlobalStringPtr (s : String) (σ : State) : Except Err Value :=
  match σ.insertPoint with
  | none => .error .NullDeref
  | some b =>
    match σ.blocks[b]? with
    | none => .error .NullDeref
    | some bb =>
      match bb.parent with
      | none => .error .NullDeref
      | some _ => .ok (.globalString s)

/-- Transcription of `Compiler::CastValuesToBiggestType(left, right)`; the two references are
returned. -/
def CastValuesToBiggestType (left right : Value) (σ : State) :
    Except Err (Value × Value × State) :=
  match left.getType, right.getType with
  | some leftType, some rightType =>
    if leftType = rightType then .ok (left, right, σ)
    else
      let leftSize := leftType.getIntegerBitWidth
      let rightSize := rightType.getIntegerBitWidth
      if leftSize > rightSize then do
        let (r, σ1) ← createIntCast right leftType true σ
        pure (left, r, σ1)
      else do
        let (l, σ1) ← createIntCast left rightType true σ
        pure (l, right, σ1)
  | _, _ => .error .NullDeref

/-- The `switch` of `visit(BinaryExpression&)` on the operator token; `default` returns the null
pointer. -/
def emitOperator (op : TokenTypes) (left right : Value) (σ : State) :
    Except Err (Value × State) :=
  match op with
  | .PLUS => createBinOp .Add left right σ
  | .MINUS => createBinOp .Sub left right σ
  | .STAR => createBinOp .Mul left right σ
  | .SLASH => createBinOp .SDiv left right σ
  | .EQUAL_EQUAL => createICmp .EQ left right σ
  | .NOT_EQUAL => createICmp .NE left right σ
  | .LESS => createICmp .SLT left right σ
  | .LESS_EQUAL => createICmp .SLE left right σ
  | .GREATER => createICmp .SGT left right σ
  | .GREATER_EQUAL => createICmp .SGE left right σ
  | _ => .ok (.null, σ)

/-! ## The expression visitors -/

mutual
/-- Transcription of the five `Compiler::visit` overloads on expressions. -/
def visitExpr : Expression → State → Except Err (Value × State)
  | .IntExpression value, σ =>
    .ok (.constInt 64 (value % 2 ^ 64).toNat, σ)
  | .VarExpression name, σ => do
    let var ← Environment.get σ.env name
    createLoad var σ
  | .BinaryExpression l op r, σ => do
    let (left, σ1) ← visitExpr l σ
    let (right, σ2) ← visitExpr r σ1
    let (left, right, σ3) ← CastValuesToBiggestType left right σ2
    emitOperator op left right σ3
  | .AssignmentExpression name e, σ => do
    let (value, σ1) ← visitExpr e σ
    let var ← Environment.get σ1.env name
    let varType ← var.typeOf
    let elemType ← varType.getPointerElementType
    let isSigned := elemType.isIntegerTy
    let (value, σ2) ← createIntCast value elemType isSigned σ1
    createStore value var σ2
  | .CallExpression name args, σ => do
    let func := σ.getFunction name
    let (vals, σ1) ← visitArgs args σ
    createCall func vals σ1
/-- The argument loop of `visit(CallExpression&)`. -/
def visitArgs : ExprList → State → Except Err (List Value × State)
  | .nil, σ => .ok ([], σ)
  | .cons e rest, σ => do
    let (v, σ1) ← visitExpr e σ
    let (vs, σ2) ← visitArgs rest σ1
    pure (v :: vs, σ2)
end

/-! ## The statement visitors -/

/-- Effect of `new Environment(env)` followed by `env = newEnv`: a fresh frame whose enclosing
frame is the current one becomes current. -/
def State.pushEnv (σ : State) : State :=
  { σ with env := [] :: σ.env }

/-- Effect of `env = env->enclosing`, which dereferences `env`. -/
def State.popEnv (σ : State) : Except Err State :=
  match σ.env with
  | [] => .error .NullDeref
  | _ :: enclosing => .ok { σ with env := enclosing }

/-- Effect of `env->define(name, storage)` on the state. -/
def State.define (σ : State) (name : String) (storage : Value) : Except Err State := do
  let env ← Environment.define σ.env name storage
  pure { σ with env := env }

/-- Effect of `std::tie(bitWidth, isSigned) = typeMap[tag]` on the state. -/
def State.typeOf (σ : State) (tag : TokenTypes) : (Nat × Bool) × State :=
  ((σ.typeMap.index tag).1, { σ with typeMap := (σ.typeMap.index tag).2 })

/-- The first loop of `visit(IfStatement&)`: two fresh blocks, `elif` and `elifcont`, for every
`ElifStatement`; the result lists the pairs `(elif.block, elif.codeBlock)` in order. -/
def createElifBlocks : ElifList → State → List (Nat × Nat) × State
  | .nil, σ => ([], σ)
  | .cons _ _ rest, σ =>
    let (block, σ1) := σ.createBlock "elif" none
    let (codeBlock, σ2) := σ1.createBlock "elifcont" none
    let (bs, σ3) := createElifBlocks rest σ2
    ((block, codeBlock) :: bs, σ3)

/-- The first loop of `visit(FnStatement&)`: the LLVM type of every parameter. -/
def fnArgTypes : List (String × TokenTypes) → State → List Ty × State
  | [], σ => ([], σ)
  | (_, type) :: rest, σ =>
    let ((bitWidth, _), σ1) := σ.typeOf type
    let (tys, σ2) := fnArgTypes rest σ1
    (getIntNTy bitWidth :: tys, σ2)

/-- The second loop of `visit(FnStatement&)`: every argument of function `f`, from number `i` on,
is copied into an alloca of its type that is bound to the parameter's name. -/
def bindArgs (f : Nat) : Nat → List (String × Ty) → State → Except Err State
  | _, [], σ => .ok σ
  | i, (name, ty) :: rest, σ => do
    let (alloca, σ1) ← createAlloca ty name σ
    let (_, σ2) ← createStore (.arg f i ty) alloca σ1
    let σ3 ← σ2.define name alloca
    bindArgs f (i + 1) rest σ3

mutual
/-- Transcription of the eight `Compiler::visit` overloads on statements. -/
def visitStmt : Statement → State → Except Err (Value × State)
  | .ExpressionStatement e, σ => visitExpr e σ
  | .PrintStatement e, σ => do
    let printFunc := σ.getFunction "printf"
    let (value, σ1) ← visitExpr e σ
    let fmt ← createGlobalStringPtr "%d\n" σ1
    let (_, σ2) ← createCall printFunc [fmt, value] σ1
    pure (.null, σ2)
  | .LetStatement name type e, σ => do
    let ((bitWidth, isSigned), σ0) := σ.typeOf type
    let (value, σ1) ← visitExpr e σ0
    let (newValue, σ2) ← createIntCast value (getIntNTy bitWidth) isSigned σ1
    let (alloca, σ3) ← createAlloca (getIntNTy bitWidth) name σ2
    let (_, σ4) ← createStore newValue alloca σ3
    let σ5 ← σ4.define name alloca
    pure (newValue, σ5)
  | .BlockStatement statements, σ => do
    let σ1 ← visitStmts statements σ.pushEnv
    let σ2 ← σ1.popEnv
    pure (.null, σ2)
  | .IfStatement cond thenBranch elifBranches elseBranch, σ => do
    let (condition, σ1) ← visitExpr cond σ
    let (thenBlock, σ2) := σ1.createBlock "then" σ1.mainFunction
    let (elseBlock, σ3) := σ2.createBlock "else" none
    let (mergeBlock, σ4) := σ3.createBlock "ifcont" none
    let (elifBlocks, σ5) := createElifBlocks elifBranches σ4
    let lastBlock := if elseBranch.isSome then elseBlock else mergeBlock
    let nextBlock := match elifBlocks with
      | (block, _) :: _ => block
      | [] => lastBlock
    let σ6 := σ5.insert (.condBr condition thenBlock nextBlock)
    let (_, σ7) ← visitStmt thenBranch (σ6.setInsertPoint thenBlock)
    let σ8 := σ7.insert (.br mergeBlock)
    let σ9 ← visitElifs elifBranches elifBlocks lastBlock mergeBlock σ8
    let σ10 ← visitElse elseBranch elseBlock mergeBlock σ9
    let σ11 ← σ10.insertInto mergeBlock
    pure (.null, σ11.setInsertPoint mergeBlock)
  | .FnStatement name args returnType body, σ => do
    let (argTypes, σ1) := fnArgTypes args σ
    let ((bitWidth, _), σ2) := σ1.typeOf returnType
    let (f, σ3) := σ2.createFunction
      { name := name, retTy := getIntNTy bitWidth, argTys := argTypes, isVarArg := false }
    let σ4 := { σ3 with mainFunction := some f }
    let σ5 ← σ4.define name (.func f)
    let (block, σ6) := σ5.createBlock "entry" (some f)
    let σ7 := (σ6.setInsertPoint block).pushEnv
    let σ8 ← bindArgs f 0 (List.zip (args.map Prod.fst) argTypes) σ7
    let (_, σ9) ← visitStmt body σ8
    let σ10 ← σ9.popEnv
    pure (σ10.currentFunction, σ10)
  | .ReturnStatement e, σ => do
    let (value, σ1) ← visitExpr e σ
    pure (.null, σ1.insert (.ret value))
  | .WhileStatement cond branch, σ => do
    let (loopBlock, σ1) := σ.createBlock "loop" σ.mainFunction
    let (loopBody, σ2) := σ1.createBlock "loopBody" none
    let (afterBlock, σ3) := σ2.createBlock "afterloop" none
    let σ4 := σ3.insert (.br loopBlock)
    let (condition, σ5) ← visitExpr cond (σ4.setInsertPoint loopBlock)
    let σ6 := σ5.insert (.condBr condition loopBody afterBlock)
    let σ7 ← σ6.insertInto loopBody
    let (_, σ8) ← visitStmt branch (σ7.setInsertPoint loopBody)
    let σ9 := σ8.insert (.br loopBlock)
    let σ10 ← σ9.insertInto afterBlock
    pure (.null, σ10.setInsertPoint afterBlock)
/-- The loop `for (auto &stmt : statements) stmt->accept(*this)` of `visit(BlockStatement&)` and
of `compile`. -/
def visitStmts : StmtList → State → Except Err State
  | .nil, σ => .ok σ
  | .cons s rest, σ => do
    let (_, σ1) ← visitStmt s σ
    visitStmts rest σ1
/-- The second loop of `visit(IfStatement&)`, from one `ElifStatement` on; `blocks` lists the
block pairs of the remaining `ElifStatement`s, `lastBlock` is the else block when there is an else
branch and the merge block otherwise. -/
def visitElifs : ElifList → List (Nat × Nat) → Nat → Nat → State → Except Err State
  | .nil, _, _, _, σ => .ok σ
  | .cons _ _ _, [], _, _, _ => .error .NullDeref
  | .cons cond branch rest, (block, codeBlock) :: blocks, lastBlock, mergeBlock, σ => do
    let nextBlock := match blocks with
      | (next, _) :: _ => next
      | [] => lastBlock
    let σ1 ← σ.insertInto block
    let (elifCondition, σ2) ← visitExpr cond (σ1.setInsertPoint block)
    let σ3 := σ2.insert (.condBr elifCondition codeBlock nextBlock)
    let σ4 ← σ3.insertInto codeBlock
    let (_, σ5) ← visitStmt branch (σ4.setInsertPoint codeBlock)
    let σ6 := σ5.insert (.br mergeBlock)
    visitElifs rest blocks lastBlock mergeBlock σ6
/-- The `if (statement.elseBranch)` part of `visit(IfStatement&)`. -/
def visitElse : OptStatement → Nat → Nat → State → Except Err State
  | .none, _, _, σ => .ok σ
  | .some s, elseBlock, mergeBlock, σ => do
    let σ1 ← σ.insertInto elseBlock
    let (_, σ2) ← visitStmt s (σ1.setInsertPoint elseBlock)
    pure (σ2.insert (.br mergeBlock))
end

/-- Transcription of `Compiler::setup`: `printf` is declared and the builder is pointed at a
fresh block `entry`, created without a parent function. -/
def setup (σ : State) : State :=
  let (_, σ1) := σ.createFunction
    { name := "printf", retTy := .int 32, argTys := [.ptr (.int 8)], isVarArg := true }
  let (block, σ2) := σ1.createBlock "entry" none
  σ2.setInsertPoint block

/-- Transcription of `Compiler::compile` up to the hand-off: the state in which
`createObjectFile` is called. The parameter `c` is the `Compiler` object as constructed. -/
def compile (c : State) (statements : StmtList) : Except Err State := do
  let σ1 ← visitStmts statements (setup c)
  pure (σ1.insert .retVoid)

/-- A `Compiler` object before `compile`: an empty module, no current function, a root scope
without bindings. -/
def State.initial : State :=
  { typeMap := Flare.typeMap, functions := [], blocks := [], insertPoint := none,
    mainFunction := none, env := [[]], nextId := 0 }

/-! ## Vocabulary of the statements below -/

/-- Type of the value a visit returns, `none` when the visit fails or returns the null pointer. -/
def resultType (r : Except Err (Value × State)) : Option Ty :=
  match r with
  | .ok (v, _) => v.getType
  | .error _ => none

/-- The operators whose case of the `switch` creates an arithmetic instruction. -/
def isArithmetic : TokenTypes → Bool
  | .PLUS | .MINUS | .STAR | .SLASH => true
  | _ => false

/-- The operators whose case of the `switch` creates a comparison. -/
def isRelational : TokenTypes → Bool
  | .EQUAL_EQUAL | .NOT_EQUAL | .LESS | .LESS_EQUAL | .GREATER | .GREATER_EQUAL => true
  | _ => false

/-- The expression `1 < 2`. -/
def ltOneTwo : Expression :=
  .BinaryExpression (.IntExpression 1) .LESS (.IntExpression 2)

/-! ## Meaning of the straight-line instructions -/

/-- A machine state for one activation of a function: the values of the instruction results
computed so far, the memory cells (a cell is addressed by the number of the `alloca` that created
it), and the values of the arguments. -/
structure Machine where
  regs : Nat → Option Nat
  mem : Nat → Option Nat
  args : List Nat

/-- Value of an operand in a machine state. -/
def Machine.eval (m : Machine) : Value → Option Nat
  | .constInt _ bits => some bits
  | .inst id _ => m.regs id
  | .arg _ idx _ => m.args[idx]?
  | _ => none

/-- Width of an integer type. -/
def Ty.intWidth : Ty → Option Nat
  | .int w => some w
  | _ => none

/-- Width of an operand of integer type. -/
def Value.width (v : Value) : Option Nat :=
  match v.getType with
  | some t => t.intWidth
  | none => none

/-- Execution of one instruction that is neither a call nor a terminator. -/
def execInst (i : Inst) (m : Machine) : Option Machine :=
  match i with
  | .alloca id _ _ =>
    some { m with regs := Function.update m.regs id (some id),
                  mem := Function.update m.mem id none }
  | .store _ val ptr => do
    let a ← m.eval ptr
    let x ← m.eval val
    some { m with mem := Function.update m.mem a (some x) }
  | .load id _ ptr => do
    let a ← m.eval ptr
    let x ← m.mem a
    some { m with regs := Function.update m.regs id (some x) }
  | .binop id op lhs rhs => do
    let w ← lhs.width
    let x ← m.eval lhs
    let y ← m.eval rhs
    let z ← evalBinOp op w x y
    some { m with regs := Function.update m.regs id (some z) }
  | .icmp id p lhs rhs => do
    let w ← lhs.width
    let x ← m.eval lhs
    let y ← m.eval rhs
    some { m with regs := Function.update m.regs id (some (if evalPred p w x y then 1 else 0)) }
  | .cast id op val ty => do
    let sw ← val.width
    let dw ← ty.intWidth
    let x ← m.eval val
    some { m with regs := Function.update m.regs id (some (evalCast op sw dw x)) }
  | _ => none

/-- Execution of a sequence of such instructions, in order. -/
def execInsts : List Inst → Machine → Option Machine
  | [], m => some m
  | i :: rest, m =>
    match execInst i m with
    | some m1 => execInsts rest m1
    | none => none

/-! ## What a visit does to the generated code -/

/-- State `σ1` is `σ` with `code` appended at the insertion point and an instruction counter
that has not decreased. -/
def Emits (σ : State) (code : List Inst) (σ1 : State) : Prop :=
  σ1 = { σ.appendCode code with nextId := σ1.nextId } ∧ σ.nextId ≤ σ1.nextId

/-- Code without terminators. -/
def Plain (code : List Inst) : Prop :=
  ∀ i ∈ code, i.isTerminator = false

/-- What an expression visit does to the state: it appends terminator free code at the insertion
point. -/
def ExprStep (σ σ1 : State) : Prop :=
  ∃ code, Emits σ code σ1 ∧ Plain code

/-- The contents of `typeMap` read as a function of the tag. -/
def widthOf : TokenTypes → Option (Nat × Bool)
  | .I8 => some (8, true)
  | .I16 => some (16, true)
  | .I32 => some (32, true)
  | .I64 => some (64, true)
  | .U8 => some (8, false)
  | .U16 => some (16, false)
  | .U32 => some (32, false)
  | .U64 => some (64, false)
  | _ => none

/-! ## Concrete programs and how they are run -/

/-- The generator state in which `compile` starts to visit the statements: `setup` has run on a
freshly constructed `Compiler`. -/
def State.start : State := setup State.initial

/-- A machine state in which nothing has been computed. -/
def Machine.empty : Machine := { regs := fun _ => none, mem := fun _ => none, args := [] }

/-- Code of block `b` after the statements have been visited from `σ`; empty when the visit
fails. -/
def codeAfter (stmts : StmtList) (σ : State) (b : Nat) : List Inst :=
  match visitStmts stmts σ with
  | .ok σ1 => instsAt σ1.blocks b
  | .error _ => []

/-- Contents of memory cell `a` after the code has run from the empty machine state. -/
def cellAfter (code : List Inst) (a : Nat) : Option Nat :=
  match execInsts code Machine.empty with
  | some m => m.mem a
  | none => none

/-- Visit of expression `e` in the state the statements leave behind. -/
def exprAfter (stmts : StmtList) (e : Expression) (σ : State) : Except Err (Value × State) :=
  visitStmts stmts σ >>= visitExpr e

/-- The error of a failed run. -/
def failureOf {α : Type} (r : Except Err α) : Option Err :=
  match r with
  | .ok _ => none
  | .error e => some e

/-- The function definition `fn main() -> i32 { ss }`. -/
def mainWith (ss : StmtList) : Statement :=
  .FnStatement "main" [] .I32 (.BlockStatement ss)

/-- The statement `let a: i64 = 1;`. -/
def declareA : Statement := .LetStatement "a" .I64 (.IntExpression 1)

/-- The expression `a < 2`. -/
def ltATwo : Expression := .BinaryExpression (.VarExpression "a") .LESS (.IntExpression 2)

/-- The statement `let x: u8 = 0;`. -/
def declareU8 : Statement := .LetStatement "x" .U8 (.IntExpression 0)

/-- The expression `x = 1 < 2`. -/
def assignLt : Expression := .AssignmentExpression "x" ltOneTwo

/-- The statement `let y: u8 = 1 < 2;`. -/
def letLt : Statement := .LetStatement "y" .U8 ltOneTwo

/-- The statement `let x: i64 = 0;`. -/
def declareI64 : Statement := .LetStatement "x" .I64 (.IntExpression 0)

/-- The expression `x = 1`. -/
def assignOne : Expression := .AssignmentExpression "x" (.IntExpression 1)

/-- The insertion block, if any, exists. -/
def IPValid (blocks : List BasicBlock) (ip : Option Nat) : Prop :=
  ∀ b, ip = some b → b < blocks.length

/-- State `σ` extends the code `B0` that was generated while the insertion block was `ip0`:
no block has been removed; the blocks of `B0` other than `ip0` hold the same code; every block
holds its old code followed by new code; the insertion block is `ip0` or a block that is not in
`B0`; every new instruction branches only to blocks that are not in `B0`; and the insertion block
exists if it did. -/
structure Extends (B0 : List BasicBlock) (ip0 : Option Nat) (σ : State) : Prop where
  len : B0.length ≤ σ.blocks.length
  frame : ∀ i, i < B0.length → ip0 ≠ some i → instsAt σ.blocks i = instsAt B0 i
  grow : ∀ i, ∃ code, instsAt σ.blocks i = instsAt B0 i ++ code
  ip : σ.insertPoint = ip0 ∨ ∃ b, σ.insertPoint = some b ∧ B0.length ≤ b
  targets : ∀ i inst t, inst ∈ instsAt σ.blocks i → t ∈ inst.targets →
    inst ∈ instsAt B0 i ∨ B0.length ≤ t
  valid : IPValid B0 ip0 → IPValid σ.blocks σ.insertPoint

/-- The current frame of `env1` is the current frame of `env`, possibly with more bindings: the
enclosing frames are the same, and every name bound in the current frame is still bound. -/
def FrameKept (env env1 : List Frame) : Prop :=
  (env = [] ∧ env1 = []) ∨
  ∃ f f1 rest, env = f :: rest ∧ env1 = f1 :: rest ∧
    ∀ name, f.find name ≠ none → f1.find name ≠ none

/-- What a statement visit does to the state, as far as scopes, generated code and instruction
numbers go. -/
structure StmtStep (σ σ1 : State) : Prop where
  frames : FrameKept σ.env σ1.env
  code : Extends σ.blocks σ.insertPoint σ1
  ids : σ.nextId ≤ σ1.nextId

/-! ## Names for the intermediate states of the control-flow visits -/

/-- The ids `(elif.block, elif.codeBlock)` that the first loop of `visit(IfStatement&)` hands
out to `n` `ElifStatement`s when `L` blocks exist already. -/
def elifIds : Nat → Nat → List (Nat × Nat)
  | _, 0 => []
  | L, n + 1 => (L, L + 1) :: elifIds (L + 2) n

/-- The state of `visit(WhileStatement&)` when the condition is about to be visited: the three
blocks exist, the branch to the test block has been emitted and the builder points at the test
block. -/
def whileHead (σ : State) : State :=
  ((((σ.createBlock "loop" σ.mainFunction).2.createBlock "loopBody" none).2.createBlock
    "afterloop" none).2.insert (.br σ.blocks.length)).setInsertPoint σ.blocks.length

/-- The state of `visit(IfStatement&)` when all its blocks have been created; `σ1` is the state
after the condition. -/
def ifBlocks (σ1 : State) (elifBranches : ElifList) : State :=
  (createElifBlocks elifBranches
    (((σ1.createBlock "then" σ1.mainFunction).2.createBlock "else" none).2.createBlock
      "ifcont" none).2).2

/-- The block the entry test of an `if` falls through to, and more generally the `nextBlock` of
the unit in front of the `ElifStatement`s with block pairs `ids`. -/
def nextBlockOf (ids : List (Nat × Nat)) (lastBlock : Nat) : Nat :=
  match ids with
  | (block, _) :: _ => block
  | [] => lastBlock

/-- The block after the last `ElifStatement`: the else block when there is an else branch, the
merge block otherwise. -/
def lastBlockOf (elseBranch : OptStatement) (elseBlock mergeBlock : Nat) : Nat :=
  if elseBranch.isSome then elseBlock else mergeBlock

/-- Concatenation of two statement vectors. -/
def StmtList.append : StmtList → StmtList → StmtList
  | .nil, l => l
  | .cons s rest, l => .cons s (rest.append l)

/-- The value of a successful run, `d` for a failed one. -/
def okOr {α : Type} (r : Except Err α) (d : α) : α :=
  match r with
  | .ok a => a
  | .error _ => d

/-- The function definition `fn main() -> i32 { }`. -/
def emptyMain : Statement := .FnStatement "main" [] .I32 (.BlockStatement .nil)

/-- The state after `fn main() -> i32 { }` has been visited at the start of `compile`: the
builder points into the entry block of `main`. -/
def State.inMain : State :=
  okOr (visitStmts (.cons emptyMain .nil) State.start) State.start

/-- The block `{ let x: i32 = 1; return x; }`. -/
def letReturnBlock : Statement :=
  .BlockStatement (.cons (.LetStatement "x" .I32 (.IntExpression 1))
    (.cons (.ReturnStatement (.VarExpression "x")) .nil))

/-- The one statement `let x: i64 = 1;`. -/
def shadowPrelude : StmtList :=
  .cons (.LetStatement "x" .I64 (.IntExpression 1)) .nil

/-- The state in which `x` is already bound by `let x: i64 = 1;`, visited after
`fn main() -> i32 { }`, that is with the builder in the entry block of `main`. -/
def State.withOuterX : State :=
  okOr (visitStmts shadowPrelude State.inMain) State.inMain

/-- The loop `while 1 < 2 { }`. -/
def loopForever : Statement := .WhileStatement ltOneTwo (.BlockStatement .nil)

/-- The function definition `fn f() -> i32 { return 1; }`. -/
def returnOne : Statement :=
  .FnStatement "f" [] .I32 (.BlockStatement (.cons (.ReturnStatement (.IntExpression 1)) .nil))

/-- A block ends with exactly one terminator: its last instruction is a terminator and no
earlier one is. -/
def endsWithOneTerminator (code : List Inst) : Bool :=
  match code.reverse with
  | [] => false
  | last :: before => last.isTerminator && before.all (fun i => !i.isTerminator)

/-- Every branch target of the block is a block inserted into the same function. -/
def targetsInFunction (blocks : List BasicBlock) (bb : BasicBlock) : Bool :=
  bb.insts.all fun i => i.targets.all fun t =>
    match blocks[t]? with
    | some tb => tb.parent == bb.parent
    | none => false

/-- Well-formedness of the generated module: a block that holds instructions belongs to a
function, and a block of a function ends with exactly one terminator and branches only to
blocks of that function. -/
def moduleWellFormed (σ : State) : Bool :=
  σ.blocks.all fun bb =>
    (bb.insts.isEmpty || bb.parent.isSome) &&
    (bb.parent.isNone || (endsWithOneTerminator bb.insts && targetsInFunction σ.blocks bb))

/-! ## Following the branches of the generated code -/

/-- A point of execution in the generated code: a block, a position in the block, and the
watched blocks that have been entered so far, in order. -/
structure Config where
  block : Nat
  pos : Nat
  entered : List Nat
  deriving DecidableEq, Repr

/-- Entering block `d`: it is recorded when it is one of the watched blocks. -/
def enter (watch : List Nat) (d : Nat) (entered : List Nat) : Config :=
  { block := d, pos := 0, entered := if d ∈ watch then entered ++ [d] else entered }

/-- One step of control flow. An instruction that is not a terminator passes control to the next
position; `br` enters its target; `condBr` enters its first target when the condition is true
under `truth` and its second target otherwise; a return ends the walk, and so does the end of a
block without terminator. -/
def stepCfg (blocks : List BasicBlock) (truth : Value → Bool) (watch : List Nat)
    (c : Config) : Option Config :=
  match (instsAt blocks c.block)[c.pos]? with
  | none => none
  | some (.br t) => some (enter watch t c.entered)
  | some (.condBr v t f) => some (enter watch (if truth v then t else f) c.entered)
  | some (.ret _) => none
  | some .retVoid => none
  | some _ => some { c with pos := c.pos + 1 }

/-- The point reached after `n` steps, if the walk lasts that long. -/
def runCfg (blocks : List BasicBlock) (truth : Value → Bool) (watch : List Nat) :
    Nat → Config → Option Config
  | 0, c => some c
  | n + 1, c =>
    match stepCfg blocks truth watch c with
    | some c1 => runCfg blocks truth watch n c1
    | none => none

/-- Control passes from position `p` of block `b` to position `p1` of block `b1`, entering the
watched blocks `new` on the way. -/
def Runs (blocks : List BasicBlock) (truth : Value → Bool) (watch : List Nat)
    (b p b1 p1 : Nat) (new : List Nat) : Prop :=
  ∀ entered, ∃ n, runCfg blocks truth watch n ⟨b, p, entered⟩ = some ⟨b1, p1, entered ++ new⟩

/-- Every block of `B1` holds the code it holds in `B`, possibly followed by more. -/
def Grows (B B1 : List BasicBlock) : Prop :=
  ∀ i, ∃ code, instsAt B1 i = instsAt B i ++ code

/-- The body that an `if` chain selects: the first body whose condition is true, otherwise the
fallback (the else body if there is one). -/
def selectBody : List Nat → List Nat → List Bool → List Nat
  | [], fallback, _ => fallback
  | _ :: _, fallback, [] => fallback
  | body :: _, _, true :: _ => [body]
  | _ :: bodies, fallback, false :: ts => selectBody bodies fallback ts

mutual
/-- Statements that generate neither a return, nor a loop, nor a function. -/
def Statement.straight : Statement → Bool
  | .ExpressionStatement _ => true
  | .PrintStatement _ => true
  | .LetStatement _ _ _ => true
  | .BlockStatement ss => ss.straight
  | .IfStatement _ t el e => t.straight && el.straight && e.straight
  | .FnStatement _ _ _ _ => false
  | .ReturnStatement _ => false
  | .WhileStatement _ _ => false
/-- All statements of the vector are straight. -/
def StmtList.straight : StmtList → Bool
  | .nil => true
  | .cons s rest => s.straight && rest.straight
/-- All branches of the `ElifStatement`s are straight. -/
def ElifList.straight : ElifList → Bool
  | .nil => true
  | .cons _ b rest => b.straight && rest.straight
/-- The else branch, if any, is straight. -/
def OptStatement.straight : OptStatement → Bool
  | .none => true
  | .some s => s.straight
end

/-- The code generated between state `σ` and state `σ1` passes control from the end of block
`b`, the insertion block of `σ`, to the end of the insertion block of `σ1`, whatever the truth
values, and enters no watched block on the way. -/
def RunsThrough (σ σ1 : State) (b : Nat) (watch : List Nat) : Prop :=
  ∃ b1, σ1.insertPoint = some b1 ∧ b1 < σ1.blocks.length ∧
    ∀ truth, Runs σ1.blocks truth watch b (instsAt σ.blocks b).length
      b1 (instsAt σ1.blocks b1).length []

/-- The walk property of a straight statement: its code runs through, from any state whose
insertion block exists, for any watch list of blocks that exist already. -/
def StmtRuns (s : Statement) : Prop :=
  ∀ (σ σ1 : State) (v : Value) (b : Nat) (w : List Nat),
    visitStmt s σ = .ok (v, σ1) → s.straight = true →
    σ.insertPoint = some b → b < σ.blocks.length → (∀ x ∈ w, x < σ.blocks.length) →
    RunsThrough σ σ1 b w

/-- The walk property of a vector of straight statements. -/
def StmtsRuns (ss : StmtList) : Prop :=
  ∀ (σ σ1 : State) (b : Nat) (w : List Nat),
    visitStmts ss σ = .ok σ1 → ss.straight = true →
    σ.insertPoint = some b → b < σ.blocks.length → (∀ x ∈ w, x < σ.blocks.length) →
    RunsThrough σ σ1 b w

/-- The walk property of the `ElifStatement`s whose blocks are `K, K + 1, ...`, all still empty:
there is a list of condition values, one per `ElifStatement`, each tested by the conditional
branch of its test block, such that from the first test block control reaches the merge block
through the code block of the first true condition, or reaches `last` when no condition is
true. -/
def ElifsRuns (el : ElifList) : Prop :=
  ∀ (K last merge : Nat) (σ σ1 : State) (w : List Nat),
    visitElifs el (elifIds K el.size) last merge σ = .ok σ1 → el.straight = true →
    K + 2 * el.size ≤ σ.blocks.length →
    (∀ m, K ≤ m → m < K + 2 * el.size → instsAt σ.blocks m = [] ∧ σ.insertPoint ≠ some m) →
    (∀ x ∈ w, x < σ.blocks.length) → (∀ p ∈ elifIds K el.size, p.1 ∉ w) → merge ∉ w →
    ∃ conds : List Value, conds.length = el.size ∧
      (∀ i, i < el.size → ∃ (p next : Nat), (instsAt σ1.blocks (K + 2 * i))[p]? =
        some (.condBr (conds.getD i Value.null) (K + 2 * i + 1) next)) ∧
      ∀ truth, 0 < el.size →
        Runs σ1.blocks truth w K 0
          (if (conds.map truth).any id then merge else last) 0
          ((selectBody ((elifIds K el.size).map Prod.snd) [last] (conds.map truth)).filter
            (fun x => decide (x ∈ w)))

/-- The walk property of an else branch generated into the empty block `elseBlock`. -/
def ElseRuns (e : OptStatement) : Prop :=
  ∀ (elseBlock merge : Nat) (σ σ1 : State) (w : List Nat),
    visitElse e elseBlock merge σ = .ok σ1 → e.straight = true →
    elseBlock < σ.blocks.length → instsAt σ.blocks elseBlock = [] →
    (∀ x ∈ w, x < σ.blocks.length) → merge ∉ w → e.isSome = true →
    ∀ truth, Runs σ1.blocks truth w elseBlock 0 merge 0 []

/-- The block in which the else body starts, if there is an else branch. -/
def elseBody (elseBranch : OptStatement) (L : Nat) : List Nat :=
  if elseBranch.isSome then [L + 1] else []

/-- The blocks in which the branch bodies of an `if` start, when `L` blocks exist at the time
its blocks are created: the then block, the code blocks of the `ElifStatement`s, and the else
block if there is an else branch. -/
def bodyBlocks (L : Nat) (el : ElifList) (elseBranch : OptStatement) : List Nat :=
  L :: (elifIds (L + 3) el.size).map Prod.snd ++ elseBody elseBranch L

/-- The expression `2 < 1`. -/
def ltTwoOne : Expression :=
  .BinaryExpression (.IntExpression 2) .LESS (.IntExpression 1)

/-- The statement `if 2 < 1 { } elif 1 < 2 { print(1); } else { print(2); }`. -/
def ifElifElse : Statement :=
  .IfStatement ltTwoOne (.BlockStatement .nil)
    (.cons ltOneTwo (.BlockStatement (.cons (.PrintStatement (.IntExpression 1)) .nil)) .nil)
    (.some (.BlockStatement (.cons (.PrintStatement (.IntExpression 2)) .nil)))

/-- The statement `if 1 < 2 { return 1; }`. -/
def ifReturn : Statement :=
  .IfStatement ltOneTwo (.BlockStatement (.cons (.ReturnStatement (.IntExpression 1)) .nil))
    .nil .none

/-- A table that `typeMap` can have become: every one of the eight tags has its initial entry,
and any other tag has no entry or the value-initialised entry `(0, false)` that an earlier
`typeMap[tag]` left behind. -/
def TableSound (m : TypeMap) : Prop :=
  ∀ T, List.lookup T m = widthOf T ∨ (widthOf T = none ∧ List.lookup T m = some (0, false))

/-- The arguments `args` are evaluated from left to right, starting in state `σ`: every argument
is visited in the state that the visit of the argument to its left has produced; `vals` lists
the values of the arguments in that order and `σ1` is the state after the last one. -/
inductive EvaluatedInOrder : ExprList → State → List Value → State → Prop where
  | done (σ : State) : EvaluatedInOrder .nil σ [] σ
  | next {e : Expression} {rest : ExprList} {σ σ1 σ2 : State} {v : Value} {vs : List Value}
      (first : visitExpr e σ = .ok (v, σ1)) (others : EvaluatedInOrder rest σ1 vs σ2) :
      EvaluatedInOrder (.cons e rest) σ (v :: vs) σ2

/-- The statement `let x: T = 1;` whose type tag `T` is a token that is not one of the eight
integer type tags. -/
def letOther : Statement := .LetStatement "x" (.OTHER 0) (.IntExpression 1)

/-- The function definition `fn g(a: T) -> T { }` whose parameter and return type tag `T` is a
token that is not one of the eight integer type tags. -/
def fnOther : Statement := .FnStatement "g" [("a", .OTHER 0)] (.OTHER 0) (.BlockStatement .nil)

/-- The function definition `fn f(a: i8, b: i32) -> i32 { return a + b; }`. -/
def fnAddAB : Statement :=
  .FnStatement "f" [("a", .I8), ("b", .I32)] .I32
    (.BlockStatement (.cons (.ReturnStatement
      (.BinaryExpression (.VarExpression "a") .PLUS (.VarExpression "b"))) .nil))

/-- The state after `fn f(a: i8, b: i32) -> i32 { return a + b; }` has been visited at the start
of `compile`. -/
def State.afterF : State :=
  okOr (visitStmts (.cons fnAddAB .nil) State.start) State.start

/-- The call `f(x, y)` on two integer literals. -/
def callF (x y : Int) : Expression :=
  .CallExpression "f" (.cons (.IntExpression x) (.cons (.IntExpression y) .nil))

/-- The expression `a + b` on two integer literals. -/
def addLiterals (a b : Int) : Expression :=
  .BinaryExpression (.IntExpression a) .PLUS (.IntExpression b)

/-- The statement `let x: i32 = a + b;`. -/
def letSum (a b : Int) : Statement :=
  .LetStatement "x" .I32 (addLiterals a b)

/-! ## The hand-off to the backend -/

/-- The answers of the native backend that decide the control flow of `createObjectFile`: the
host's target triple, whether `TargetRegistry::lookupTarget` finds the target (and the text it
leaves in `Error` when it does not), the error code left by the constructor of the destination
stream (`none` when the file has been opened), and the answer of `addPassesToEmitFile`, which is
true when the target machine cannot emit an object file. -/
structure Backend where
  targetTriple : String
  targetFound : Bool
  lookupError : String
  openError : Option String
  cannotEmit : Bool
  deriving DecidableEq, Repr

/-- The effects of `createObjectFile` on the world outside the generator, one per call into the
backend; `openFile` records whether the destination has been opened. -/
inductive Effect where
  | initializeAll
  | setTargetTriple (triple : String)
  | lookupTarget (triple : String)
  | report (message : String)
  | createTargetMachine (triple cpu features : String)
  | setDataLayout
  | openFile (fileName : String) (opened : Bool)
  | addPassesToEmitFile
  | runPasses
  | flush
  deriving DecidableEq, Repr

/-- Transcription of `Compiler::createObjectFile` as the trace of its effects under the answers
`b` of the backend. -/
def createObjectFile (b : Backend) : List Effect :=
  let start := [Effect.initializeAll, .setTargetTriple b.targetTriple,
    .lookupTarget b.targetTriple]
  if !b.targetFound then
    start ++ [.report b.lookupError]
  else
    let opened := start ++ [.createTargetMachine b.targetTriple "generic" "", .setDataLayout,
      .openFile "output.o" b.openError.isNone]
    match b.openError with
    | some message => opened ++ [.report ("Could not open file: " ++ message)]
    | none =>
      let added := opened ++ [.addPassesToEmitFile]
      if b.cannotEmit then
        added ++ [.report "TheTargetMachine can't emit a file of this type"]
      else
        added ++ [.runPasses, .flush]

/-- The effects that open the destination file. -/
def Effect.opensFile : Effect → Bool
  | .openFile _ opened => opened
  | _ => false

/-- The effects that attempt to open the destination file. -/
def Effect.isOpen : Effect → Bool
  | .openFile _ _ => true
  | _ => false

/-- The effects through which object code reaches the destination file: the emission pass and
the flush of the stream. -/
def Effect.writesFile : Effect → Bool
  | .runPasses => true
  | .flush => true
  | _ => false

/-- The effects that report an error on `llvm::errs()`. -/
def Effect.isReport : Effect → Bool
  | .report _ => true
  | _ => false

/-! ## Vocabulary for the wiring of an `if` -/

/-- Wiring of one branch body in the generated code `B`: the body `s` has been generated starting
in the empty block `start`, and the block in which its generation ended holds in `B` what that
generation left in it, followed by `br mergeBlock`. -/
def BodyWired (B : List BasicBlock) (s : Statement) (start mergeBlock : Nat) : Prop :=
  ∃ (σa σb : State) (r : Value) (e : Nat),
    σa.insertPoint = some start ∧ instsAt σa.blocks start = [] ∧
    visitStmt s σa = .ok (r, σb) ∧ σb.insertPoint = some e ∧
    instsAt B e = instsAt σb.blocks e ++ [.br mergeBlock]

/-- Wiring of the `ElifStatement`s in the generated code `B`, the first of which has test block
`K` and body block `K + 1`: every test block holds the code of its condition followed by the
conditional branch on the condition's value to its own body block and, on false, to the test
block of the next `ElifStatement` or, after the last one, to `lastBlock`; and every body is
wired to `mergeBlock`. -/
def ElifsWired (B : List BasicBlock) : ElifList → Nat → Nat → Nat → Prop
  | .nil, _, _, _ => True
  | .cons cond branch rest, K, lastBlock, mergeBlock =>
    (∃ (σa σb : State) (c : Value),
      σa.insertPoint = some K ∧ instsAt σa.blocks K = [] ∧
      visitExpr cond σa = .ok (c, σb) ∧
      instsAt B K = instsAt σb.blocks K ++
        [.condBr c (K + 1) (if 0 < rest.size then K + 2 else lastBlock)]) ∧
    BodyWired B branch (K + 1) mergeBlock ∧
    ElifsWired B rest (K + 2) lastBlock mergeBlock

/-! ## Vocabulary for function definitions -/

/-- The function block `b` has been inserted into: `none` when there is no block `b`,
`some none` when block `b` belongs to no function. -/
def parentAt (blocks : List BasicBlock) (b : Nat) : Option (Option Nat) :=
  (blocks[b]?).map (fun bb => bb.parent)

/-- The insertion block exists and belongs to the current function. -/
def Owned (σ : State) : Prop :=
  ∃ b, σ.insertPoint = some b ∧ parentAt σ.blocks b = some σ.mainFunction

mutual
/-- Whether a `FnStatement` occurs in the statement, at any depth. -/
def Statement.definesFn : Statement → Bool
  | .ExpressionStatement _ => false
  | .PrintStatement _ => false
  | .LetStatement _ _ _ => false
  | .BlockStatement ss => ss.definesFn
  | .IfStatement _ t el e => t.definesFn || el.definesFn || e.definesFn
  | .FnStatement _ _ _ _ => true
  | .ReturnStatement _ => false
  | .WhileStatement _ b => b.definesFn
/-- Whether a `FnStatement` occurs in one of the statements. -/
def StmtList.definesFn : StmtList → Bool
  | .nil => false
  | .cons s rest => s.definesFn || rest.definesFn
/-- Whether a `FnStatement` occurs in the branch of one of the `ElifStatement`s. -/
def ElifList.definesFn : ElifList → Bool
  | .nil => false
  | .cons _ b rest => b.definesFn || rest.definesFn
/-- Whether a `FnStatement` occurs in the else branch. -/
def OptStatement.definesFn : OptStatement → Bool
  | .none => false
  | .some s => s.definesFn
end

/-- The current function and the functions of the module are the same in both states. -/
def SameFns (σ σ1 : State) : Prop :=
  σ1.mainFunction = σ.mainFunction ∧ σ1.functions = σ.functions

/-- The functions of the module in `σ` are still in the module in `σ1`, at the same positions,
possibly followed by more. -/
def FnsGrow (σ σ1 : State) : Prop :=
  ∃ more, σ1.functions = σ.functions ++ more

/-- The function definition `fn f() -> i32 { fn g() -> i32 { } }`. -/
def nestedFn : Statement :=
  .FnStatement "f" [] .I32
    (.BlockStatement (.cons (.FnStatement "g" [] .I32 (.BlockStatement .nil)) .nil))

/-- The expression `(a < b) + c` on three integer literals. -/
def ltPlus (a b c : Int) : Expression :=
  .BinaryExpression (.BinaryExpression (.IntExpression a) .LESS (.IntExpression b)) .PLUS
    (.IntExpression c)

/-- The code of `(l < r) + c` on operand values `l`, `r` and `c`, of which `l` or `r` is not a
constant, when the next instruction number is `k`: the comparison, the sign extension of its one
bit result to 64 bits, and the add. -/
def ltPlusCode (l r c : Value) (k : Nat) : List Inst :=
  [.icmp k .SLT l r,
   .cast (k + 1) .SExt (.inst k (.int 1)) (.int 64),
   .binop (k + 2) .Add (.inst (k + 1) (.int 64)) c]

/-! ## The visits inside the visit of an expression -/

mutual
/-- The visits that `visitExpr e σ` is made of, in the order in which they begin: the visit of
`e` itself in `σ`, and the visits of its sub-expressions, each with the state in which it
starts. A sub-expression is visited in the state its left neighbour has left; nothing is listed
behind a visit that fails. -/
def subVisits : Expression → State → List (Expression × State)
  | .IntExpression value, σ => [(.IntExpression value, σ)]
  | .VarExpression name, σ => [(.VarExpression name, σ)]
  | .BinaryExpression l op r, σ =>
    (.BinaryExpression l op r, σ) :: (subVisits l σ ++
      match visitExpr l σ with
      | .ok (_, σ1) => subVisits r σ1
      | .error _ => [])
  | .AssignmentExpression name e, σ => (.AssignmentExpression name e, σ) :: subVisits e σ
  | .CallExpression name args, σ => (.CallExpression name args, σ) :: subVisitsArgs args σ
/-- The visits that the argument loop of a call is made of. -/
def subVisitsArgs : ExprList → State → List (Expression × State)
  | .nil, _ => []
  | .cons e rest, σ =>
    subVisits e σ ++
      match visitExpr e σ with
      | .ok (_, σ1) => subVisitsArgs rest σ1
      | .error _ => []
end

/-- Number of bindings of `name` in a frame. -/
def Frame.count (f : Frame) (name : String) : Nat :=
  (List.filter (fun p => p.1 == name) f).length

/-- The statement `let x: i32 = x + 1;`. -/
def letXPlusOne : Statement :=
  .LetStatement "x" .I32 (.BinaryExpression (.VarExpression "x") .PLUS (.IntExpression 1))

/-! # Properties of the generator -/

/-! ## Basic facts about the builder calls -/

theorem emit_fst (σ : State) (mk : Nat → Inst) (ty : Ty) :
    (σ.emit mk ty).1 = .inst σ.nextId ty := rfl

theorem getType_inst (i : Nat) (t : Ty) : (Value.inst i t).getType = some t := rfl

theorem insertFolded_type (σ : State) (f : Option Value) (mk : Nat → Inst) (ty : Ty)
    (h : ∀ c, f = some c → c.getType = some ty) :
    (σ.insertFolded f mk ty).1.getType = some ty := by
  cases f with
  | some c => exact h c rfl
  | none => rfl

theorem foldCast_type {op : CastOp} {v c : Value} {dest : Ty}
    (h : foldCast op v dest = some c) : c.getType = some dest := by
  unfold foldCast at h
  split at h
  · cases h; rfl
  · cases h; rfl
  · cases h

theorem foldCast_none {v : Value} (op : CastOp) (dest : Ty) (h : v.isConstant = false) :
    foldCast op v dest = none := by
  cases v <;> first | rfl | cases h

theorem foldBinOp_type {op : BinOp} {l r c : Value} {t : Ty} (hl : l.getType = some t)
    (h : foldBinOp op l r = some c) : c.getType = some t := by
  unfold foldBinOp at h
  split at h
  · split at h <;> (cases h; exact hl)
  · cases h; exact hl
  · cases h; exact hl
  · cases h; exact hl
  · cases h

theorem foldBinOp_none_left {l : Value} (op : BinOp) (r : Value) (h : l.isConstant = false) :
    foldBinOp op l r = none := by
  cases l <;> first | rfl | cases h

theorem foldBinOp_none_right {r : Value} (op : BinOp) (l : Value) (h : r.isConstant = false) :
    foldBinOp op l r = none := by
  cases r <;> cases l <;> first | rfl | cases h

theorem foldICmp_type {p : Pred} {l r c : Value} (h : foldICmp p l r = some c) :
    c.getType = some (.int 1) := by
  unfold foldICmp at h
  split at h <;> first | (cases h; rfl) | cases h

theorem foldICmp_none_left {l : Value} (p : Pred) (r : Value) (h : l.isConstant = false) :
    foldICmp p l r = none := by
  cases l <;> first | rfl | cases h

theorem foldICmp_none_right {r : Value} (p : Pred) (l : Value) (h : r.isConstant = false) :
    foldICmp p l r = none := by
  cases r <;> cases l <;> first | rfl | cases h

theorem insertCast_type (op : CastOp) (v : Value) (dest : Ty) (σ : State) :
    (insertCast op v dest σ).1.getType = some dest :=
  insertFolded_type _ _ _ _ (fun _ h => foldCast_type h)

theorem insertCast_plain {v : Value} (op : CastOp) (dest : Ty) (σ : State)
    (h : v.isConstant = false) :
    insertCast op v dest σ = σ.emit (fun id => .cast id op v dest) dest := by
  simp [insertCast, foldCast_none op dest h, State.insertFolded]

theorem insertCast_const (op : CastOp) (sw dw n : Nat) (σ : State) :
    insertCast op (.constInt sw n) (.int dw) σ = (.constInt dw (evalCast op sw dw n), σ) := rfl

theorem insertCast_poison (op : CastOp) (t dest : Ty) (σ : State) :
    insertCast op (.poison t) dest σ = (.poison dest, σ) := rfl

theorem createIntCast_same {v : Value} {w : Nat} (sg : Bool) (σ : State)
    (hv : v.getType = some (.int w)) : createIntCast v (.int w) sg σ = .ok (v, σ) := by
  simp [createIntCast, hv]

theorem createIntCast_diff {v : Value} {wv w : Nat} (sg : Bool) (σ : State)
    (hv : v.getType = some (.int wv)) (hne : wv ≠ w) :
    createIntCast v (.int w) sg σ = .ok (insertCast (castOpcode wv w sg) v (.int w) σ) := by
  simp [createIntCast, hv, hne, Ty.getScalarSizeInBits]

theorem castOpcode_sext {src dst : Nat} (h : src < dst) : castOpcode src dst true = .SExt := by
  have h1 : src ≠ dst := by omega
  have h2 : ¬ src > dst := by omega
  simp [castOpcode, h1, h2]

theorem castValues_int (left right : Value) (σ : State) (wl wr : Nat)
    (hl : left.getType = some (.int wl)) (hr : right.getType = some (.int wr)) :
    CastValuesToBiggestType left right σ =
      if wl = wr then .ok (left, right, σ)
      else if wr < wl then
        .ok (left, (insertCast .SExt right (.int wl) σ).1, (insertCast .SExt right (.int wl) σ).2)
      else
        .ok ((insertCast .SExt left (.int wr) σ).1, right, (insertCast .SExt left (.int wr) σ).2) := by
  by_cases h : wl = wr
  · subst h
    simp [CastValuesToBiggestType, hl, hr]
  · by_cases h2 : wr < wl
    · have hne : wr ≠ wl := by omega
      simp [CastValuesToBiggestType, hl, hr, h, h2, Ty.getIntegerBitWidth,
        createIntCast_diff true σ hr hne, castOpcode_sext h2, bind, Except.bind, pure, Except.pure]
    · have h3 : wl < wr := by omega
      simp [CastValuesToBiggestType, hl, hr, h, h2, Ty.getIntegerBitWidth,
        createIntCast_diff true σ hl h, castOpcode_sext h3, bind, Except.bind, pure, Except.pure]

theorem castValues_types (left right : Value) (σ : State) (wl wr : Nat)
    (hl : left.getType = some (.int wl)) (hr : right.getType = some (.int wr)) :
    ∃ l r σ1, CastValuesToBiggestType left right σ = .ok (l, r, σ1) ∧
      l.getType = some (.int (max wl wr)) ∧ r.getType = some (.int (max wl wr)) := by
  rw [castValues_int left right σ wl wr hl hr]
  by_cases h : wl = wr
  · subst h
    exact ⟨left, right, σ, by simp, by simp [hl], by simp [hr]⟩
  · by_cases h2 : wr < wl
    · refine ⟨left, (insertCast .SExt right (.int wl) σ).1, (insertCast .SExt right (.int wl) σ).2,
        by simp only [h, h2, if_false, if_true], ?_, ?_⟩
      · simp [hl, Nat.max_eq_left (Nat.le_of_lt h2)]
      · rw [insertCast_type, Nat.max_eq_left (Nat.le_of_lt h2)]
    · have h3 : wl < wr := by omega
      refine ⟨(insertCast .SExt left (.int wr) σ).1, right, (insertCast .SExt left (.int wr) σ).2,
        by simp only [h, h2, if_false], ?_, ?_⟩
      · rw [insertCast_type, Nat.max_eq_right (Nat.le_of_lt h3)]
      · simp [hr, Nat.max_eq_right (Nat.le_of_lt h3)]

theorem createBinOp_typed (op : BinOp) {l r : Value} {t t2 : Ty} (σ : State)
    (hl : l.getType = some t) (hr : r.getType = some t2) :
    createBinOp op l r σ =
      .ok (σ.insertFolded (foldBinOp op l r) (fun id => .binop id op l r) t) := by
  simp [createBinOp, hl, hr]

theorem createICmp_typed (p : Pred) {l r : Value} {t t2 : Ty} (σ : State)
    (hl : l.getType = some t) (hr : r.getType = some t2) :
    createICmp p l r σ =
      .ok (σ.insertFolded (foldICmp p l r) (fun id => .icmp id p l r) (.int 1)) := by
  simp [createICmp, hl, hr]

theorem visitExpr_binary (l r : Expression) (op : TokenTypes) (σ : State) :
    visitExpr (.BinaryExpression l op r) σ =
      (visitExpr l σ >>= fun p1 => visitExpr r p1.2 >>= fun p2 =>
        CastValuesToBiggestType p1.1 p2.1 p2.2 >>= fun p3 =>
          emitOperator op p3.1 p3.2.1 p3.2.2) := by
  rw [visitExpr]

/-! ## C1: the promotion rule -/

/-- C1. Promotion rule of `CastValuesToBiggestType` on two operands of integer type: with equal
widths neither operand changes and nothing is emitted; with different widths the narrower operand
is replaced by its sign extension to the wider operand's type and the wider operand is returned
unchanged. The sign extension of an operand that is not a constant is the result of a `sext`
instruction appended at the insertion point; that of an integer constant is the constant with the
sign-extended bits, and that of `poison` is `poison`, for both of which nothing is emitted. No
`trunc` is ever created. -/
theorem C1_promotion_rule (left right : Value) (σ : State) (wl wr : Nat)
    (hl : left.getType = some (.int wl)) (hr : right.getType = some (.int wr)) :
    (wl = wr → CastValuesToBiggestType left right σ = .ok (left, right, σ)) ∧
    (wr < wl →
      (right.isConstant = false → CastValuesToBiggestType left right σ =
        .ok (left, (σ.emit (fun id => .cast id .SExt right (.int wl)) (.int wl)).1,
                   (σ.emit (fun id => .cast id .SExt right (.int wl)) (.int wl)).2)) ∧
      (∀ n, right = .constInt wr n → CastValuesToBiggestType left right σ =
        .ok (left, .constInt wl (ofInt wl (toSigned wr n)), σ)) ∧
      (right = .poison (.int wr) → CastValuesToBiggestType left right σ =
        .ok (left, .poison (.int wl), σ))) ∧
    (wl < wr →
      (left.isConstant = false → CastValuesToBiggestType left right σ =
        .ok ((σ.emit (fun id => .cast id .SExt left (.int wr)) (.int wr)).1, right,
             (σ.emit (fun id => .cast id .SExt left (.int wr)) (.int wr)).2)) ∧
      (∀ n, left = .constInt wl n → CastValuesToBiggestType left right σ =
        .ok (.constInt wr (ofInt wr (toSigned wl n)), right, σ)) ∧
      (left = .poison (.int wl) → CastValuesToBiggestType left right σ =
        .ok (.poison (.int wr), right, σ))) := by
  rw [castValues_int left right σ wl wr hl hr]
  refine ⟨?_, ?_, ?_⟩
  · intro h
    simp [h]
  · intro h
    have hne : wl ≠ wr := by omega
    simp only [hne, h, if_false, if_true]
    refine ⟨?_, ?_, ?_⟩
    · intro hc
      rw [insertCast_plain _ _ _ hc]
    · intro n hn
      subst hn
      rfl
    · intro hp
      subst hp
      rfl
  · intro h
    have hne : wl ≠ wr := by omega
    have h2 : ¬ wr < wl := by omega
    simp only [hne, h2, if_false]
    refine ⟨?_, ?_, ?_⟩
    · intro hc
      rw [insertCast_plain _ _ _ hc]
    · intro n hn
      subst hn
      rfl
    · intro hp
      subst hp
      rfl

/-- Witness of C1: a 64 bit constant on the left, an 8 bit instruction result on the right. -/
theorem C1_promotion_rule_witness :
    (Value.constInt 64 5).getType = some (.int 64) ∧
    (Value.inst 0 (.int 8)).getType = some (.int 8) ∧
    CastValuesToBiggestType (.constInt 64 5) (.inst 0 (.int 8)) State.initial =
      .ok (.constInt 64 5,
        (State.initial.emit (fun id => .cast id .SExt (.inst 0 (.int 8)) (.int 64)) (.int 64)).1,
        (State.initial.emit (fun id => .cast id .SExt (.inst 0 (.int 8)) (.int 64)) (.int 64)).2) :=
  ⟨rfl, rfl, ((C1_promotion_rule (.constInt 64 5) (.inst 0 (.int 8)) State.initial 64 8 rfl
    rfl).2.1 (by decide)).1 rfl⟩

/-! ## C2: width of the result of a binary expression -/

/-- C2, counterexample. In `(1 < 2) < 3` the left operand has width 1 and the right operand has
width 64, yet the value `visit(BinaryExpression&)` returns has width 1, not 64. -/
theorem C2_relational_width_counterexample :
    resultType (visitExpr ltOneTwo State.initial) = some (.int 1) ∧
    resultType (visitExpr (.IntExpression 3) State.initial) = some (.int 64) ∧
    resultType (visitExpr (.BinaryExpression ltOneTwo .LESS (.IntExpression 3)) State.initial)
      = some (.int 1) :=
  ⟨rfl, rfl, rfl⟩

/-- C2, amended. When both operands evaluate to values of integer type, the value returned for an
arithmetic operator has the width of the wider operand, and the value returned for a relational
operator has width 1. -/
theorem C2_result_width (l r : Expression) (op : TokenTypes) (σ σ1 σ2 : State) (vl vr : Value)
    (wl wr : Nat) (h1 : visitExpr l σ = .ok (vl, σ1)) (h2 : visitExpr r σ1 = .ok (vr, σ2))
    (hl : vl.getType = some (.int wl)) (hr : vr.getType = some (.int wr)) :
    (isArithmetic op = true →
      resultType (visitExpr (.BinaryExpression l op r) σ) = some (.int (max wl wr))) ∧
    (isRelational op = true →
      resultType (visitExpr (.BinaryExpression l op r) σ) = some (.int 1)) := by
  obtain ⟨l', r', σ3, hc, hl', hr'⟩ := castValues_types vl vr σ2 wl wr hl hr
  have hv : visitExpr (.BinaryExpression l op r) σ = emitOperator op l' r' σ3 := by
    rw [visitExpr_binary, h1]
    simp [bind, Except.bind, h2, hc]
  rw [hv]
  constructor
  · intro ha
    cases op <;> simp [isArithmetic] at ha <;>
      (simp only [emitOperator, createBinOp_typed _ σ3 hl' hr', resultType]
       exact insertFolded_type _ _ _ _ (fun _ h => foldBinOp_type hl' h))
  · intro ha
    cases op <;> simp [isRelational] at ha <;>
      (simp only [emitOperator, createICmp_typed _ σ3 hl' hr', resultType]
       exact insertFolded_type _ _ _ _ (fun _ h => foldICmp_type h))

/-- Witness of C2 (amended): `(1 < 2) + 3` has width 64. -/
theorem C2_result_width_witness :
    visitExpr ltOneTwo State.initial = .ok (.constInt 1 1, State.initial) ∧
    resultType (visitExpr (.BinaryExpression ltOneTwo .PLUS (.IntExpression 3)) State.initial)
      = some (.int 64) :=
  ⟨rfl, (C2_result_width ltOneTwo (.IntExpression 3) .PLUS State.initial _ _
    (.constInt 1 1) (.constInt 64 3) 1 64 rfl rfl rfl rfl).1 rfl⟩

/-! ## Expression visits only append terminator free code -/

theorem updateBlock_length (f : BasicBlock → BasicBlock) (n : Nat) (l : List BasicBlock) :
    (updateBlock f n l).length = l.length := by
  induction l generalizing n with
  | nil => cases n <;> simp [updateBlock]
  | cons a t ih => cases n <;> simp [updateBlock, ih]

theorem updateBlock_getElem? (f : BasicBlock → BasicBlock) (n m : Nat) (l : List BasicBlock) :
    (updateBlock f n l)[m]? = if n = m then l[m]?.map f else l[m]? := by
  induction l generalizing n m with
  | nil => cases n <;> simp [updateBlock]
  | cons a t ih =>
    cases n with
    | zero => cases m <;> simp [updateBlock]
    | succ k =>
      cases m with
      | zero => simp [updateBlock]
      | succ j => simp [updateBlock, ih]

theorem updateBlock_updateBlock (f g : BasicBlock → BasicBlock) (n : Nat) (l : List BasicBlock) :
    updateBlock g n (updateBlock f n l) = updateBlock (fun bb => g (f bb)) n l := by
  induction l generalizing n with
  | nil => cases n <;> simp [updateBlock]
  | cons a t ih => cases n <;> simp [updateBlock, ih]

theorem updateBlock_id (f : BasicBlock → BasicBlock) (hf : ∀ bb, f bb = bb) (n : Nat)
    (l : List BasicBlock) : updateBlock f n l = l := by
  induction l generalizing n with
  | nil => cases n <;> simp [updateBlock]
  | cons a t ih => cases n <;> simp [updateBlock, ih, hf]

theorem appendCode_nil (σ : State) : σ.appendCode [] = σ := by
  obtain ⟨tm, fs, bs, ip, mf, env, nid⟩ := σ
  cases ip with
  | none => rfl
  | some b =>
    simp only [State.appendCode]
    rw [updateBlock_id _ (by intro bb; simp)]

theorem appendCode_append (σ : State) (c1 c2 : List Inst) :
    (σ.appendCode c1).appendCode c2 = σ.appendCode (c1 ++ c2) := by
  unfold State.appendCode
  cases h : σ.insertPoint with
  | none => simp [h]
  | some b => simp [h, updateBlock_updateBlock, List.append_assoc]

theorem Emits.refl_emits (σ : State) : Emits σ [] σ := by
  simp [Emits, appendCode_nil]

theorem appendCode_nextId (σ : State) (c : List Inst) (n : Nat) :
    ({ σ with nextId := n } : State).appendCode c = { σ.appendCode c with nextId := n } := by
  unfold State.appendCode
  cases h : σ.insertPoint <;> simp [h]

theorem Emits.trans_emits {σ σ1 σ2 : State} {c1 c2 : List Inst}
    (h1 : Emits σ c1 σ1) (h2 : Emits σ1 c2 σ2) : Emits σ (c1 ++ c2) σ2 := by
  obtain ⟨e1, l1⟩ := h1
  obtain ⟨e2, l2⟩ := h2
  refine ⟨?_, Nat.le_trans l1 l2⟩
  rw [e2, e1, appendCode_nextId, appendCode_append]

theorem emit_Emits (σ : State) (mk : Nat → Inst) (ty : Ty) :
    Emits σ [mk σ.nextId] (σ.emit mk ty).2 := by
  simp [Emits, State.emit, State.insert]


theorem Plain.nil : Plain [] := by intro i hi; cases hi

theorem Plain.append {c1 c2 : List Inst} (h1 : Plain c1) (h2 : Plain c2) : Plain (c1 ++ c2) := by
  intro i hi
  rcases List.mem_append.mp hi with h | h
  · exact h1 i h
  · exact h2 i h

theorem bind_ok {α β : Type} {x : Except Err α} {f : α → Except Err β} {b : β} :
    (x >>= f) = .ok b ↔ ∃ a, x = .ok a ∧ f a = .ok b := by
  cases x <;> simp [bind, Except.bind]

theorem ok_pair_inj {α β : Type} {a : α × β} {b : α} {c : β}
    (h : (Except.ok a : Except Err (α × β)) = .ok (b, c)) : a.1 = b ∧ a.2 = c := by
  cases h; exact ⟨rfl, rfl⟩


theorem ExprStep.refl_expr (σ : State) : ExprStep σ σ := ⟨[], Emits.refl_emits σ, Plain.nil⟩

theorem ExprStep.trans_expr {σ σ1 σ2 : State} (h1 : ExprStep σ σ1) (h2 : ExprStep σ1 σ2) :
    ExprStep σ σ2 := by
  obtain ⟨c1, e1, p1⟩ := h1
  obtain ⟨c2, e2, p2⟩ := h2
  exact ⟨c1 ++ c2, e1.trans_emits e2, p1.append p2⟩

theorem emit_step (σ : State) (mk : Nat → Inst) (ty : Ty)
    (h : ∀ id, (mk id).isTerminator = false) : ExprStep σ (σ.emit mk ty).2 :=
  ⟨[mk σ.nextId], emit_Emits σ mk ty, by intro i hi; simp at hi; subst hi; exact h _⟩

theorem insertFolded_step (σ : State) (f : Option Value) (mk : Nat → Inst) (ty : Ty)
    (h : ∀ id, (mk id).isTerminator = false) : ExprStep σ (σ.insertFolded f mk ty).2 := by
  cases f with
  | some c => exact ExprStep.refl_expr _
  | none => exact emit_step σ mk ty h

theorem createIntCast_step {v : Value} {dest : Ty} {sg : Bool} {σ σ1 : State} {r : Value}
    (h : createIntCast v dest sg σ = .ok (r, σ1)) : ExprStep σ σ1 := by
  unfold createIntCast at h
  split at h
  · cases h
  · split at h
    · cases h; exact ExprStep.refl_expr _
    · obtain ⟨rfl, rfl⟩ := ok_pair_inj h
      exact insertFolded_step _ _ _ _ (fun _ => rfl)

theorem createLoad_ok {p : Value} {σ σ1 : State} {r : Value}
    (h : createLoad p σ = .ok (r, σ1)) :
    ∃ elem, p.getType = some (.ptr elem) ∧ σ.getModule = .ok () ∧
      (r, σ1) = σ.emit (fun id => .load id elem p) elem := by
  unfold createLoad at h
  split at h
  · cases h
  · rename_i t ht
    split at h
    · cases h
    · rename_i elem he
      split at h
      · cases h
      · rename_i u hm
        cases t <;> simp [Ty.getPointerElementType] at he
        subst he
        exact ⟨_, ht, hm, by cases h; rfl⟩

theorem createLoad_step {p : Value} {σ σ1 : State} {r : Value}
    (h : createLoad p σ = .ok (r, σ1)) : ExprStep σ σ1 := by
  obtain ⟨elem, _, _, he⟩ := createLoad_ok h
  have he2 : σ1 = (σ.emit (fun id => .load id elem p) elem).2 := congrArg Prod.snd he
  rw [he2]
  exact emit_step σ (fun id => .load id elem p) elem (fun _ => rfl)

theorem createStore_ok {v p : Value} {σ σ1 : State} {r : Value}
    (h : createStore v p σ = .ok (r, σ1)) :
    σ.getModule = .ok () ∧ v ≠ .null ∧ (r, σ1) = σ.emit (fun id => .store id v p) .void := by
  unfold createStore at h
  split at h
  · cases h
  · rename_i u hm
    split at h
    · cases h
    · rename_i t ht
      refine ⟨hm, ?_, by cases h; rfl⟩
      intro hn
      subst hn
      cases ht

theorem createStore_step {v p : Value} {σ σ1 : State} {r : Value}
    (h : createStore v p σ = .ok (r, σ1)) : ExprStep σ σ1 := by
  obtain ⟨_, _, he⟩ := createStore_ok h
  have he2 : σ1 = (σ.emit (fun id => .store id v p) .void).2 := congrArg Prod.snd he
  rw [he2]
  exact emit_step σ (fun id => .store id v p) .void (fun _ => rfl)

theorem createAlloca_ok {ty : Ty} {n : String} {σ σ1 : State} {r : Value}
    (h : createAlloca ty n σ = .ok (r, σ1)) :
    σ.getModule = .ok () ∧ (r, σ1) = σ.emit (fun id => .alloca id ty n) (.ptr ty) := by
  unfold createAlloca at h
  split at h
  · cases h
  · rename_i u hm
    exact ⟨hm, by cases h; rfl⟩

theorem createAlloca_step {ty : Ty} {n : String} {σ σ1 : State} {r : Value}
    (h : createAlloca ty n σ = .ok (r, σ1)) : ExprStep σ σ1 := by
  obtain ⟨_, he⟩ := createAlloca_ok h
  have he2 : σ1 = (σ.emit (fun id => .alloca id ty n) (.ptr ty)).2 := congrArg Prod.snd he
  rw [he2]
  exact emit_step σ (fun id => .alloca id ty n) (.ptr ty) (fun _ => rfl)

theorem createBinOp_step {op : BinOp} {l r : Value} {σ σ1 : State} {v : Value}
    (h : createBinOp op l r σ = .ok (v, σ1)) : ExprStep σ σ1 := by
  unfold createBinOp at h
  split at h
  · obtain ⟨rfl, rfl⟩ := ok_pair_inj h
    exact insertFolded_step _ _ _ _ (fun _ => rfl)
  · cases h

theorem createICmp_step {p : Pred} {l r : Value} {σ σ1 : State} {v : Value}
    (h : createICmp p l r σ = .ok (v, σ1)) : ExprStep σ σ1 := by
  unfold createICmp at h
  split at h
  · obtain ⟨rfl, rfl⟩ := ok_pair_inj h
    exact insertFolded_step _ _ _ _ (fun _ => rfl)
  · cases h

theorem createCall_step {f : Option Nat} {args : List Value} {σ σ1 : State} {v : Value}
    (h : createCall f args σ = .ok (v, σ1)) : ExprStep σ σ1 := by
  unfold createCall at h
  split at h
  · cases h
  · split at h
    · cases h
    · obtain ⟨rfl, rfl⟩ := ok_pair_inj h; refine emit_step _ _ _ ?_; intro _; rfl

theorem castValues_step {l r l1 r1 : Value} {σ σ1 : State}
    (h : CastValuesToBiggestType l r σ = .ok (l1, r1, σ1)) : ExprStep σ σ1 := by
  unfold CastValuesToBiggestType at h
  split at h
  · split at h
    · cases h; exact ExprStep.refl_expr _
    · simp only at h
      split at h
      · simp only [bind_ok] at h
        obtain ⟨⟨r2, σ2⟩, hc, h⟩ := h
        cases h
        exact createIntCast_step hc
      · simp only [bind_ok] at h
        obtain ⟨⟨r2, σ2⟩, hc, h⟩ := h
        cases h
        exact createIntCast_step hc
  · cases h

theorem emitOperator_step {op : TokenTypes} {l r v : Value} {σ σ1 : State}
    (h : emitOperator op l r σ = .ok (v, σ1)) : ExprStep σ σ1 := by
  unfold emitOperator at h
  split at h
  all_goals first
    | exact createBinOp_step h
    | exact createICmp_step h
    | (cases h; exact ExprStep.refl_expr _)

mutual
theorem visitExpr_step : ∀ (e : Expression) (σ σ1 : State) (v : Value),
    visitExpr e σ = .ok (v, σ1) → ExprStep σ σ1
  | .IntExpression value, σ, σ1, v, h => by
    rw [visitExpr] at h
    cases h
    exact ExprStep.refl_expr _
  | .VarExpression name, σ, σ1, v, h => by
    rw [visitExpr] at h
    simp only [bind_ok] at h
    obtain ⟨var, _, h⟩ := h
    exact createLoad_step h
  | .BinaryExpression l op r, σ, σ1, v, h => by
    rw [visitExpr] at h
    simp only [bind_ok] at h
    obtain ⟨⟨vl, s1⟩, h1, ⟨vr, s2⟩, h2, ⟨l1, r1, s3⟩, h3, h4⟩ := h
    exact ((visitExpr_step l _ _ _ h1).trans_expr (visitExpr_step r _ _ _ h2)).trans_expr
      ((castValues_step h3).trans_expr (emitOperator_step h4))
  | .AssignmentExpression name e, σ, σ1, v, h => by
    rw [visitExpr] at h
    simp only [bind_ok] at h
    obtain ⟨⟨val, s1⟩, h1, var, _, ty, _, elem, _, ⟨nv, s2⟩, h2, h3⟩ := h
    exact ((visitExpr_step e _ _ _ h1).trans_expr (createIntCast_step h2)).trans_expr
      (createStore_step h3)
  | .CallExpression name args, σ, σ1, v, h => by
    rw [visitExpr] at h
    simp only [bind_ok] at h
    obtain ⟨⟨vals, s1⟩, h1, h2⟩ := h
    exact (visitArgs_step args _ _ _ h1).trans_expr (createCall_step h2)
theorem visitArgs_step : ∀ (es : ExprList) (σ σ1 : State) (vs : List Value),
    visitArgs es σ = .ok (vs, σ1) → ExprStep σ σ1
  | .nil, σ, σ1, vs, h => by
    rw [visitArgs] at h
    cases h
    exact ExprStep.refl_expr _
  | .cons e rest, σ, σ1, vs, h => by
    rw [visitArgs] at h
    simp only [bind_ok] at h
    obtain ⟨⟨v, s1⟩, h1, ⟨vs2, s2⟩, h2, h3⟩ := h
    cases h3
    exact (visitExpr_step e _ _ _ h1).trans_expr (visitArgs_step rest _ _ _ h2)
end

theorem appendCode_env (σ : State) (c : List Inst) : (σ.appendCode c).env = σ.env := by
  unfold State.appendCode; cases σ.insertPoint <;> rfl
theorem appendCode_insertPoint (σ : State) (c : List Inst) :
    (σ.appendCode c).insertPoint = σ.insertPoint := by
  unfold State.appendCode; cases h : σ.insertPoint <;> simp [h]
theorem appendCode_mainFunction (σ : State) (c : List Inst) :
    (σ.appendCode c).mainFunction = σ.mainFunction := by
  unfold State.appendCode; cases σ.insertPoint <;> rfl
theorem appendCode_typeMap (σ : State) (c : List Inst) :
    (σ.appendCode c).typeMap = σ.typeMap := by
  unfold State.appendCode; cases σ.insertPoint <;> rfl
theorem appendCode_functions (σ : State) (c : List Inst) :
    (σ.appendCode c).functions = σ.functions := by
  unfold State.appendCode; cases σ.insertPoint <;> rfl
theorem appendCode_nextId' (σ : State) (c : List Inst) :
    (σ.appendCode c).nextId = σ.nextId := by
  unfold State.appendCode; cases σ.insertPoint <;> rfl
theorem appendCode_length (σ : State) (c : List Inst) :
    (σ.appendCode c).blocks.length = σ.blocks.length := by
  unfold State.appendCode; cases σ.insertPoint <;> simp [updateBlock_length]

theorem instsAt_updateBlock (f : BasicBlock → BasicBlock) (n m : Nat) (l : List BasicBlock) :
    instsAt (updateBlock f n l) m =
      if n = m then (match l[m]? with | some bb => (f bb).insts | none => []) else instsAt l m := by
  unfold instsAt
  rw [updateBlock_getElem?]
  by_cases h : n = m
  · simp only [h, if_true]
    cases l[m]? <;> rfl
  · simp only [h, if_false]

theorem instsAt_appendCode (σ : State) (c : List Inst) (b : Nat)
    (hb : σ.insertPoint = some b) (hl : b < σ.blocks.length) :
    instsAt (σ.appendCode c).blocks b = instsAt σ.blocks b ++ c := by
  unfold State.appendCode
  simp only [hb, instsAt_updateBlock]
  simp [instsAt, List.getElem?_eq_getElem hl]

theorem instsAt_appendCode_other (σ : State) (c : List Inst) (i : Nat)
    (hb : σ.insertPoint ≠ some i) :
    instsAt (σ.appendCode c).blocks i = instsAt σ.blocks i := by
  unfold State.appendCode
  cases h : σ.insertPoint with
  | none => rfl
  | some b =>
    have : b ≠ i := by intro e; apply hb; rw [h, e]
    simp [instsAt_updateBlock, this]

theorem Emits.env_emits {σ σ1 : State} {c : List Inst} (h : Emits σ c σ1) : σ1.env = σ.env := by
  rw [h.1]; exact appendCode_env σ c
theorem Emits.insertPoint_emits {σ σ1 : State} {c : List Inst} (h : Emits σ c σ1) :
    σ1.insertPoint = σ.insertPoint := by
  rw [h.1]; exact appendCode_insertPoint σ c
theorem Emits.mainFunction {σ σ1 : State} {c : List Inst} (h : Emits σ c σ1) :
    σ1.mainFunction = σ.mainFunction := by
  rw [h.1]; exact appendCode_mainFunction σ c
theorem Emits.typeMap {σ σ1 : State} {c : List Inst} (h : Emits σ c σ1) :
    σ1.typeMap = σ.typeMap := by
  rw [h.1]; exact appendCode_typeMap σ c
theorem Emits.functions {σ σ1 : State} {c : List Inst} (h : Emits σ c σ1) :
    σ1.functions = σ.functions := by
  rw [h.1]; exact appendCode_functions σ c
theorem Emits.length_emits {σ σ1 : State} {c : List Inst} (h : Emits σ c σ1) :
    σ1.blocks.length = σ.blocks.length := by
  rw [h.1]; exact appendCode_length σ c
theorem Emits.blocks {σ σ1 : State} {c : List Inst} (h : Emits σ c σ1) :
    σ1.blocks = (σ.appendCode c).blocks := by
  rw [h.1]
theorem Emits.code_at {σ σ1 : State} {c : List Inst} (h : Emits σ c σ1) {b : Nat}
    (hb : σ.insertPoint = some b) (hl : b < σ.blocks.length) :
    instsAt σ1.blocks b = instsAt σ.blocks b ++ c := by
  rw [h.blocks]; exact instsAt_appendCode σ c b hb hl
theorem Emits.code_other {σ σ1 : State} {c : List Inst} (h : Emits σ c σ1) {i : Nat}
    (hb : σ.insertPoint ≠ some i) :
    instsAt σ1.blocks i = instsAt σ.blocks i := by
  rw [h.blocks]; exact instsAt_appendCode_other σ c i hb

/-! ## Facts used for `let` and assignment -/

theorem lookup_typeMap (T : TokenTypes) : List.lookup T typeMap = widthOf T := by
  cases T <;> rfl

theorem typeMap_width_pos {T : TokenTypes} {w : Nat} {sg : Bool}
    (h : List.lookup T typeMap = some (w, sg)) : w ≠ 0 := by
  rw [lookup_typeMap] at h
  cases T <;> simp [widthOf] at h <;> omega

theorem typeOf_of_lookup {σ : State} {T : TokenTypes} {p : Nat × Bool}
    (h : List.lookup T σ.typeMap = some p) : σ.typeOf T = (p, σ) := by
  simp [State.typeOf, TypeMap.index, h]

theorem find_define (f : Frame) (name : String) (x : Value) :
    (f.define name x).find name = some x := by
  simp [Frame.define, Frame.find]

theorem get_define (f : Frame) (rest : List Frame) (name : String) (x : Value) :
    Environment.get (f.define name x :: rest) name = .ok x := by
  simp [Environment.get, lookupChain, find_define]

theorem getModule_appendCode (σ : State) (c : List Inst) :
    (σ.appendCode c).getModule = σ.getModule := by
  unfold State.appendCode
  cases h : σ.insertPoint with
  | none => simp [h]
  | some b =>
    simp only [State.getModule, h, updateBlock_getElem?, if_true]
    cases σ.blocks[b]? <;> rfl

theorem getModule_nextId (σ : State) (n : Nat) :
    ({ σ with nextId := n } : State).getModule = σ.getModule := rfl

theorem Emits.getModule_emits {σ σ1 : State} {c : List Inst} (h : Emits σ c σ1) :
    σ1.getModule = σ.getModule := by
  rw [h.1, getModule_nextId, getModule_appendCode]

theorem getModule_ok {σ : State} (h : σ.getModule = .ok ()) :
    ∃ b f, σ.insertPoint = some b ∧ b < σ.blocks.length ∧
      (σ.blocks[b]?).map (fun bb => bb.parent) = some (some f) := by
  unfold State.getModule at h
  split at h
  · cases h
  · rename_i b hb
    split at h
    · cases h
    · rename_i bb hbb
      split at h
      · cases h
      · rename_i f hf
        refine ⟨b, f, hb, ?_, by simp [hbb, hf]⟩
        by_contra hlt
        rw [List.getElem?_eq_none (by omega)] at hbb
        cases hbb

theorem getModule_of_parent {σ : State} {b f : Nat} (hb : σ.insertPoint = some b)
    (hp : (σ.blocks[b]?).map (fun bb => bb.parent) = some (some f)) : σ.getModule = .ok () := by
  unfold State.getModule
  rw [hb]
  cases hbb : σ.blocks[b]? with
  | none => simp [hbb] at hp
  | some bb =>
    simp only [hbb, Option.map_some', Option.some.injEq] at hp
    simp only [hbb, hp]

theorem createAlloca_eq {σ : State} (ty : Ty) (name : String) (h : σ.getModule = .ok ()) :
    createAlloca ty name σ = .ok (σ.emit (fun id => .alloca id ty name) (.ptr ty)) := by
  simp [createAlloca, h]

theorem createStore_eq {σ : State} {v : Value} {t : Ty} (p : Value) (h : σ.getModule = .ok ())
    (hv : v.getType = some t) :
    createStore v p σ = .ok (σ.emit (fun id => .store id v p) .void) := by
  simp [createStore, h, hv]

theorem createLoad_eq {σ : State} {p : Value} {t : Ty} (h : σ.getModule = .ok ())
    (hp : p.getType = some (.ptr t)) :
    createLoad p σ = .ok (σ.emit (fun id => .load id t p) t) := by
  simp [createLoad, h, hp, Ty.getPointerElementType]

theorem foldCast_const {op : CastOp} {v c : Value} {dest : Ty}
    (h : foldCast op v dest = some c) : c.isConstant = true := by
  unfold foldCast at h
  split at h <;> first | (cases h; rfl) | cases h

theorem foldBinOp_const {op : BinOp} {l r c : Value}
    (h : foldBinOp op l r = some c) : c.isConstant = true := by
  unfold foldBinOp at h
  split at h
  · split at h <;> (cases h; rfl)
  · cases h; rfl
  · cases h; rfl
  · cases h; rfl
  · cases h

theorem foldICmp_const {p : Pred} {l r c : Value}
    (h : foldICmp p l r = some c) : c.isConstant = true := by
  unfold foldICmp at h
  split at h <;> first | (cases h; rfl) | cases h

theorem emit_fresh {σ σ1 : State} {mk : Nat → Inst} {t : Ty} {v : Value}
    (h : (v, σ1) = σ.emit mk t) : ∀ k ty, v = .inst k ty → k < σ1.nextId := by
  intro k ty hk
  simp only [State.emit, Prod.mk.injEq] at h
  rw [h.1] at hk
  simp only [Value.inst.injEq] at hk
  rw [h.2]
  simp [← hk.1]

theorem insertFolded_fresh {σ σ1 : State} {f : Option Value} {mk : Nat → Inst} {t : Ty}
    {v : Value} (hf : ∀ c, f = some c → c.isConstant = true)
    (h : σ.insertFolded f mk t = (v, σ1)) : ∀ k ty, v = .inst k ty → k < σ1.nextId := by
  cases f with
  | some c =>
    intro k ty hk
    have hc := hf c rfl
    simp only [State.insertFolded, Prod.mk.injEq] at h
    rw [h.1, hk] at hc
    cases hc
  | none => exact emit_fresh h.symm

theorem createIntCast_fresh {v nv : Value} {dest : Ty} {sg : Bool} {σ σ1 : State}
    (h : createIntCast v dest sg σ = .ok (nv, σ1))
    (hv : ∀ k ty, v = .inst k ty → k < σ.nextId) : ∀ k ty, nv = .inst k ty → k < σ1.nextId := by
  unfold createIntCast at h
  split at h
  · cases h
  · split at h
    · obtain ⟨rfl, rfl⟩ := ok_pair_inj h
      exact hv
    · exact insertFolded_fresh (fun _ hc => foldCast_const hc) (Except.ok.inj h)

theorem emitOperator_fresh {op : TokenTypes} {l r v : Value} {σ σ1 : State}
    (h : emitOperator op l r σ = .ok (v, σ1)) : ∀ k ty, v = .inst k ty → k < σ1.nextId := by
  unfold emitOperator at h
  split at h
  all_goals first
    | (unfold createBinOp at h
       split at h
       · exact insertFolded_fresh (fun _ hc => foldBinOp_const hc) (Except.ok.inj h)
       · cases h)
    | (unfold createICmp at h
       split at h
       · exact insertFolded_fresh (fun _ hc => foldICmp_const hc) (Except.ok.inj h)
       · cases h)
    | (obtain ⟨rfl, rfl⟩ := ok_pair_inj h; intro k ty hk; cases hk)

theorem visitExpr_result_fresh {e : Expression} {σ σ1 : State} {v : Value}
    (h : visitExpr e σ = .ok (v, σ1)) : ∀ k ty, v = .inst k ty → k < σ1.nextId := by
  cases e with
  | IntExpression value =>
    rw [visitExpr] at h
    obtain ⟨rfl, rfl⟩ := ok_pair_inj h
    intro k ty hk
    cases hk
  | VarExpression name =>
    rw [visitExpr] at h
    simp only [bind_ok] at h
    obtain ⟨var, _, h⟩ := h
    obtain ⟨elem, _, _, he⟩ := createLoad_ok h
    exact emit_fresh he
  | BinaryExpression l op r =>
    rw [visitExpr] at h
    simp only [bind_ok] at h
    obtain ⟨⟨vl, s1⟩, h1, ⟨vr, s2⟩, h2, ⟨l1, r1, s3⟩, h3, h4⟩ := h
    exact emitOperator_fresh h4
  | AssignmentExpression name e =>
    rw [visitExpr] at h
    simp only [bind_ok] at h
    obtain ⟨⟨val, s1⟩, h1, var, _, ty, _, elem, _, ⟨nv, s2⟩, h2, h3⟩ := h
    obtain ⟨_, _, he⟩ := createStore_ok h3
    exact emit_fresh he
  | CallExpression name args =>
    rw [visitExpr] at h
    simp only [bind_ok] at h
    obtain ⟨⟨vals, s1⟩, h1, h2⟩ := h
    unfold createCall at h2
    split at h2
    · cases h2
    · split at h2
      · cases h2
      · exact emit_fresh (Except.ok.inj h2).symm

theorem foldBinOp_operand {op : BinOp} {l r c : Value} (h : foldBinOp op l r = some c) :
    c.isOperand = true := by
  unfold foldBinOp at h
  split at h
  · split at h <;> (cases h; rfl)
  · cases h; rfl
  · cases h; rfl
  · cases h; rfl
  · cases h

theorem foldICmp_operand {p : Pred} {l r c : Value} (h : foldICmp p l r = some c) :
    c.isOperand = true := by
  unfold foldICmp at h
  split at h <;> first | (cases h; rfl) | cases h

theorem insertFolded_operand {σ σ1 : State} {f : Option Value} {mk : Nat → Inst} {t : Ty}
    {v : Value} (hf : ∀ c, f = some c → c.isOperand = true)
    (h : σ.insertFolded f mk t = (v, σ1)) : v.isOperand = true := by
  cases f with
  | some c =>
    simp only [State.insertFolded, Prod.mk.injEq] at h
    rw [← h.1]
    exact hf c rfl
  | none =>
    simp only [State.insertFolded, State.emit, Prod.mk.injEq] at h
    rw [← h.1]
    rfl

theorem emitOperator_operand {op : TokenTypes} {l r v : Value} {σ σ1 : State}
    (h : emitOperator op l r σ = .ok (v, σ1)) : v.isOperand = true := by
  unfold emitOperator at h
  split at h
  all_goals first
    | (unfold createBinOp at h
       split at h
       · exact insertFolded_operand (fun _ hc => foldBinOp_operand hc) (Except.ok.inj h)
       · cases h)
    | (unfold createICmp at h
       split at h
       · exact insertFolded_operand (fun _ hc => foldICmp_operand hc) (Except.ok.inj h)
       · cases h)
    | (obtain ⟨rfl, rfl⟩ := ok_pair_inj h; rfl)

/-- The value of an expression is the null pointer, an integer constant, `poison` or the result
of an instruction: functions, strings and arguments are never operands of the casts, operations
and comparisons of `visit(BinaryExpression&)`, `visit(AssignmentExpression&)` and
`visit(LetStatement&)`. -/
theorem visitExpr_operand {e : Expression} {σ σ1 : State} {v : Value}
    (h : visitExpr e σ = .ok (v, σ1)) : v.isOperand = true := by
  cases e with
  | IntExpression value =>
    rw [visitExpr] at h
    obtain ⟨rfl, rfl⟩ := ok_pair_inj h
    rfl
  | VarExpression name =>
    rw [visitExpr] at h
    simp only [bind_ok] at h
    obtain ⟨var, _, h⟩ := h
    obtain ⟨elem, _, _, he⟩ := createLoad_ok h
    rw [show v = .inst σ.nextId elem from congrArg Prod.fst he]
    rfl
  | BinaryExpression l op r =>
    rw [visitExpr] at h
    simp only [bind_ok] at h
    obtain ⟨⟨vl, s1⟩, h1, ⟨vr, s2⟩, h2, ⟨l1, r1, s3⟩, h3, h4⟩ := h
    exact emitOperator_operand h4
  | AssignmentExpression name e =>
    rw [visitExpr] at h
    simp only [bind_ok] at h
    obtain ⟨⟨val, s1⟩, h1, var, _, ty, _, elem, _, ⟨nv, s2⟩, h2, h3⟩ := h
    obtain ⟨_, _, he⟩ := createStore_ok h3
    rw [show v = .inst s2.nextId .void from congrArg Prod.fst he]
    rfl
  | CallExpression name args =>
    rw [visitExpr] at h
    simp only [bind_ok] at h
    obtain ⟨⟨vals, s1⟩, h1, h2⟩ := h
    unfold createCall at h2
    split at h2
    · cases h2
    · split at h2
      · cases h2
      · rename_i f hf fn hfn
        rw [show v = .inst s1.nextId fn.retTy from (congrArg Prod.fst (Except.ok.inj h2)).symm]
        rfl

theorem visitStmt_let (name : String) (T : TokenTypes) (e : Expression) (σ : State) :
    visitStmt (.LetStatement name T e) σ =
      (visitExpr e (σ.typeOf T).2 >>= fun p1 =>
        createIntCast p1.1 (getIntNTy (σ.typeOf T).1.1) (σ.typeOf T).1.2 p1.2 >>= fun p2 =>
          createAlloca (getIntNTy (σ.typeOf T).1.1) name p2.2 >>= fun p3 =>
            createStore p2.1 p3.1 p3.2 >>= fun p4 =>
              p4.2.define name p3.1 >>= fun σ5 => pure (p2.1, σ5)) := by
  rw [visitStmt]

theorem ok_bind {α β : Type} (a : α) (f : α → Except Err β) :
    ((Except.ok a : Except Err α) >>= f) = f a := rfl

theorem visitExpr_var (name : String) (σ : State) :
    visitExpr (.VarExpression name) σ =
      (Environment.get σ.env name >>= fun var => createLoad var σ) := by
  rw [visitExpr]

/-- What `let` does once the initialiser has been evaluated to `v` in state `σ1` and cast to
`nv` in state `σ2`, when the insertion block belongs to a function. -/
theorem let_after_cast_any (name : String) (T : TokenTypes) (e : Expression)
    (σ σ1 σ2 : State) (v nv : Value) (w b : Nat) (sg : Bool) (frame : Frame) (rest : List Frame)
    (hσ : (σ.typeOf T).1 = (w, sg))
    (he : visitExpr e (σ.typeOf T).2 = .ok (v, σ1))
    (hc : createIntCast v (.int w) sg σ1 = .ok (nv, σ2))
    (hnv : nv.getType = some (.int w))
    (hm : σ2.getModule = .ok ())
    (hb : σ2.insertPoint = some b) (hbl : b < σ2.blocks.length)
    (henv : σ2.env = frame :: rest) :
    ∃ σ3 σ4 : State,
      visitStmt (.LetStatement name T e) σ = .ok (nv, σ3) ∧
      instsAt σ3.blocks b = instsAt σ2.blocks b ++
        [.alloca σ2.nextId (.int w) name,
         .store (σ2.nextId + 1) nv (.inst σ2.nextId (.ptr (.int w)))] ∧
      σ3.env = frame.define name (.inst σ2.nextId (.ptr (.int w))) :: rest ∧
      visitExpr (.VarExpression name) σ3 = .ok (.inst (σ2.nextId + 2) (.int w), σ4) ∧
      instsAt σ4.blocks b = instsAt σ3.blocks b ++
        [.load (σ2.nextId + 2) (.int w) (.inst σ2.nextId (.ptr (.int w)))] := by
  set σa := (σ2.emit (fun id => .alloca id (.int w) name) (.ptr (.int w))).2 with hσa
  have e1 : Emits σ2 [.alloca σ2.nextId (.int w) name] σa := emit_Emits _ _ _
  have hma : σa.getModule = .ok () := by rw [e1.getModule_emits, hm]
  set σs := (σa.emit (fun id => .store id nv (.inst σ2.nextId (.ptr (.int w)))) .void).2 with hσs
  have e2 : Emits σa [.store (σ2.nextId + 1) nv (.inst σ2.nextId (.ptr (.int w)))] σs :=
    emit_Emits _ _ _
  have e12 := e1.trans_emits e2
  have hsn : σs.nextId = σ2.nextId + 2 := rfl
  have hdef : σs.define name (.inst σ2.nextId (.ptr (.int w))) =
      .ok { σs with env := frame.define name (.inst σ2.nextId (.ptr (.int w))) :: rest } := by
    simp [State.define, e12.env_emits, henv, Environment.define, bind, Except.bind, pure, Except.pure]
  set σ3 : State :=
    { σs with env := frame.define name (.inst σ2.nextId (.ptr (.int w))) :: rest } with hσ3
  have hip3 : σ3.insertPoint = some b := by
    show σs.insertPoint = some b
    rw [e12.insertPoint_emits, hb]
  have hlen3 : b < σ3.blocks.length := by
    show b < σs.blocks.length
    rw [e12.length_emits]; exact hbl
  have hm3 : σ3.getModule = .ok () := by
    show σs.getModule = .ok ()
    rw [e12.getModule_emits, hm]
  refine ⟨σ3, (σ3.emit (fun id => .load id (.int w) (.inst σ2.nextId (.ptr (.int w))))
      (.int w)).2, ?_, ?_, rfl, ?_, ?_⟩
  · rw [visitStmt_let]
    simp only [hσ, he, ok_bind, getIntNTy, hc, createAlloca_eq _ _ hm]
    rw [createStore_eq _ hma hnv]
    simp only [ok_bind]
    show (σs.define name (.inst σ2.nextId (.ptr (.int w))) >>= _) = _
    rw [hdef]
    rfl
  · show instsAt σs.blocks b = _
    rw [e12.code_at hb hbl]
    simp
  · rw [visitExpr_var]
    show (Environment.get (frame.define name _ :: rest) name >>= _) = _
    rw [get_define, ok_bind, createLoad_eq hm3 (getType_inst _ _)]
    rfl
  · rw [(emit_Emits σ3 _ _).code_at hip3 hlen3]
    rfl

/-- The same for a type tag that the table holds. -/
theorem let_after_cast (name : String) (T : TokenTypes) (e : Expression)
    (σ σ1 σ2 : State) (v nv : Value) (w b : Nat) (sg : Bool) (frame : Frame) (rest : List Frame)
    (hσ : List.lookup T σ.typeMap = some (w, sg))
    (he : visitExpr e σ = .ok (v, σ1))
    (hc : createIntCast v (.int w) sg σ1 = .ok (nv, σ2))
    (hnv : nv.getType = some (.int w))
    (hm : σ2.getModule = .ok ())
    (hb : σ2.insertPoint = some b) (hbl : b < σ2.blocks.length)
    (henv : σ2.env = frame :: rest) :
    ∃ σ3 σ4 : State,
      visitStmt (.LetStatement name T e) σ = .ok (nv, σ3) ∧
      instsAt σ3.blocks b = instsAt σ2.blocks b ++
        [.alloca σ2.nextId (.int w) name,
         .store (σ2.nextId + 1) nv (.inst σ2.nextId (.ptr (.int w)))] ∧
      σ3.env = frame.define name (.inst σ2.nextId (.ptr (.int w))) :: rest ∧
      visitExpr (.VarExpression name) σ3 = .ok (.inst (σ2.nextId + 2) (.int w), σ4) ∧
      instsAt σ4.blocks b = instsAt σ3.blocks b ++
        [.load (σ2.nextId + 2) (.int w) (.inst σ2.nextId (.ptr (.int w)))] :=
  let_after_cast_any name T e σ σ1 σ2 v nv w b sg frame rest
    (by rw [typeOf_of_lookup hσ]) (by rw [typeOf_of_lookup hσ]; exact he) hc hnv hm hb hbl henv

theorem eval_inst (m : Machine) (k : Nat) (t : Ty) : m.eval (.inst k t) = m.regs k := rfl

theorem eval_update_fresh (m : Machine) (v : Value) (a : Nat) (x : Option Nat)
    (mem : Nat → Option Nat)
    (hfresh : ∀ k ty, v = .inst k ty → k < a) :
    ({ m with regs := Function.update m.regs a x, mem := mem } : Machine).eval v = m.eval v := by
  cases v with
  | inst k ty =>
    have : k ≠ a := Nat.ne_of_lt (hfresh k ty rfl)
    simp [Machine.eval, Function.update, this]
  | _ => rfl

theorem execInst_store {m : Machine} {val ptr : Value} {a x : Nat} (id : Nat)
    (h1 : m.eval ptr = some a) (h2 : m.eval val = some x) :
    execInst (.store id val ptr) m = some { m with mem := Function.update m.mem a (some x) } := by
  simp [execInst, h1, h2]

theorem execInst_load {m : Machine} {ptr : Value} {a x : Nat} (id : Nat) (ty : Ty)
    (h1 : m.eval ptr = some a) (h2 : m.mem a = some x) :
    execInst (.load id ty ptr) m = some { m with regs := Function.update m.regs id (some x) } := by
  simp [execInst, h1, h2]

theorem execInst_cast {m : Machine} {val : Value} {sw x : Nat} (id dw : Nat) (op : CastOp)
    (h1 : val.getType = some (.int sw)) (h2 : m.eval val = some x) :
    execInst (.cast id op val (.int dw)) m =
      some { m with regs := Function.update m.regs id (some (evalCast op sw dw x)) } := by
  simp [execInst, Value.width, h1, h2, Ty.intWidth]

theorem execInst_icmp {m : Machine} {l r : Value} {w x y : Nat} (id : Nat) (p : Pred)
    (hw : l.width = some w) (hx : m.eval l = some x) (hy : m.eval r = some y) :
    execInst (.icmp id p l r) m =
      some (Machine.mk (Function.update m.regs id
        (some (if evalPred p w x y = true then 1 else 0))) m.mem m.args) := by
  simp [execInst, hw, hx, hy]

theorem execInst_binop {m : Machine} {l r : Value} {w x y z : Nat} (id : Nat) (op : BinOp)
    (hw : l.width = some w) (hx : m.eval l = some x) (hy : m.eval r = some y)
    (hz : evalBinOp op w x y = some z) :
    execInst (.binop id op l r) m =
      some { m with regs := Function.update m.regs id (some z) } := by
  simp [execInst, hw, hx, hy, hz]

theorem execInsts_cons {i : Inst} {rest : List Inst} {m m1 : Machine}
    (h : execInst i m = some m1) : execInsts (i :: rest) m = execInsts rest m1 := by
  simp [execInsts, h]

theorem exec_let_same (m : Machine) (v : Value) (n a : Nat) (ty : Ty) (name : String)
    (hv : m.eval v = some n) (hfresh : ∀ k t, v = .inst k t → k < a) :
    ∃ m1, execInsts [.alloca a ty name, .store (a + 1) v (.inst a (.ptr ty)),
        .load (a + 2) ty (.inst a (.ptr ty))] m = some m1 ∧ m1.regs (a + 2) = some n := by
  have h1 := eval_update_fresh m v a (some a) (Function.update m.mem a none) hfresh
  rw [hv] at h1
  rw [execInsts_cons (show execInst (.alloca a ty name) m = some _ from rfl)]
  rw [execInsts_cons (execInst_store (a + 1) (a := a) (x := n) (by simp [eval_inst]) h1)]
  rw [execInsts_cons (execInst_load (a + 2) ty (a := a) (x := n) (by simp [eval_inst])
    (by simp))]
  exact ⟨_, rfl, by simp⟩

theorem exec_let_cast (m : Machine) (v : Value) (n c wv w : Nat) (op : CastOp) (name : String)
    (hv : m.eval v = some n) (hty : v.getType = some (.int wv)) :
    ∃ m1, execInsts [.cast c op v (.int w), .alloca (c + 1) (.int w) name,
        .store (c + 2) (.inst c (.int w)) (.inst (c + 1) (.ptr (.int w))),
        .load (c + 3) (.int w) (.inst (c + 1) (.ptr (.int w)))] m = some m1 ∧
      m1.regs (c + 3) = some (evalCast op wv w n) := by
  rw [execInsts_cons (execInst_cast c w op hty hv)]
  rw [execInsts_cons (show execInst (.alloca (c + 1) (.int w) name) _ = some _ from rfl)]
  rw [execInsts_cons (execInst_store (c + 2) (a := c + 1) (x := evalCast op wv w n)
    (by simp [eval_inst]) (by simp [eval_inst]))]
  rw [execInsts_cons (execInst_load (c + 3) (.int w) (a := c + 1) (x := evalCast op wv w n)
    (by simp [eval_inst]) (by simp))]
  exact ⟨_, rfl, by simp⟩

theorem castOpcode_cases (wv w : Nat) (sg : Bool) (h : wv ≠ w) :
    (w < wv → castOpcode wv w sg = .Trunc) ∧
    (wv < w → sg = true → castOpcode wv w sg = .SExt) ∧
    (wv < w → sg = false → castOpcode wv w sg = .ZExt) := by
  refine ⟨?_, ?_, ?_⟩
  · intro h1
    simp [castOpcode, h, h1]
  · intro h1 hs
    have : ¬ wv > w := by omega
    simp [castOpcode, h, this, hs]
  · intro h1 hs
    have : ¬ wv > w := by omega
    simp [castOpcode, h, this, hs]

theorem evalCast_cases (wv w n : Nat) (sg : Bool) (h : wv ≠ w) :
    evalCast (castOpcode wv w sg) wv w n =
      if w < wv then n % 2 ^ w else if sg = true then ofInt w (toSigned wv n) else n % 2 ^ wv := by
  obtain ⟨h1, h2, h3⟩ := castOpcode_cases wv w sg h
  by_cases hlt : w < wv
  · simp [h1 hlt, hlt, evalCast]
  · have hgt : wv < w := by omega
    cases sg
    · simp [h3 hgt rfl, hlt, evalCast]
    · simp [h2 hgt rfl, hlt, evalCast]

/-! ## C3: what `let` stores -/

/-- C3. `let name: T = e` with `T` one of the eight tags, declared `(w, sg)`, visited while the
builder points into a block of a function, and `e` evaluating to a value `v` of width `wv`: the
visit succeeds; the initialiser is cast by nothing when `wv = w`, by `trunc` when it is wider, by
`sext` when it is narrower and `T` is signed, by `zext` when it is narrower and `T` is unsigned,
where the cast of a value that is not a constant is one cast instruction and the cast of an
integer constant is the constant with the cast bits, for which no instruction is emitted; a fresh
`alloca` of width `w` is created, the cast value is stored in it and `name` is bound to it in the
current frame; a following `VarExpression name` loads from that alloca at width `w`; and running
the emitted code, the load yields the initialiser's value truncated, sign-extended or
zero-extended accordingly. -/
theorem C3_let_stores_cast_value (name : String) (T : TokenTypes) (e : Expression)
    (σ σ1 : State) (v : Value) (w wv b : Nat) (sg : Bool) (frame : Frame) (rest : List Frame)
    (hT : List.lookup T typeMap = some (w, sg))
    (hσ : List.lookup T σ.typeMap = some (w, sg))
    (he : visitExpr e σ = .ok (v, σ1))
    (hv : v.getType = some (.int wv))
    (hm : σ.getModule = .ok ())
    (hb : σ.insertPoint = some b)
    (henv : σ.env = frame :: rest) :
    ∃ (nv : Value) (castCode : List Inst) (a : Nat) (σ2 σ3 : State),
      visitStmt (.LetStatement name T e) σ = .ok (nv, σ2) ∧
      nv.getType = some (.int w) ∧
      (wv = w → castCode = [] ∧ nv = v) ∧
      (w < wv →
        (v.isConstant = false → castCode = [.cast σ1.nextId .Trunc v (.int w)] ∧
          nv = .inst σ1.nextId (.int w)) ∧
        (∀ n, v = .constInt wv n → castCode = [] ∧ nv = .constInt w (n % 2 ^ w))) ∧
      (wv < w → sg = true →
        (v.isConstant = false → castCode = [.cast σ1.nextId .SExt v (.int w)] ∧
          nv = .inst σ1.nextId (.int w)) ∧
        (∀ n, v = .constInt wv n → castCode = [] ∧
          nv = .constInt w (ofInt w (toSigned wv n)))) ∧
      (wv < w → sg = false →
        (v.isConstant = false → castCode = [.cast σ1.nextId .ZExt v (.int w)] ∧
          nv = .inst σ1.nextId (.int w)) ∧
        (∀ n, v = .constInt wv n → castCode = [] ∧ nv = .constInt w (n % 2 ^ wv))) ∧
      (wv ≠ w → v = .poison (.int wv) → castCode = [] ∧ nv = .poison (.int w)) ∧
      σ.nextId ≤ a ∧
      instsAt σ2.blocks b = instsAt σ1.blocks b ++ castCode ++
        [.alloca a (.int w) name, .store (a + 1) nv (.inst a (.ptr (.int w)))] ∧
      σ2.env = frame.define name (.inst a (.ptr (.int w))) :: rest ∧
      Environment.get σ2.env name = .ok (.inst a (.ptr (.int w))) ∧
      visitExpr (.VarExpression name) σ2 = .ok (.inst (a + 2) (.int w), σ3) ∧
      instsAt σ3.blocks b = instsAt σ2.blocks b ++
        [.load (a + 2) (.int w) (.inst a (.ptr (.int w)))] ∧
      ∀ (m : Machine) (n : Nat), m.eval v = some n →
        ∃ m1, execInsts (castCode ++ [.alloca a (.int w) name,
            .store (a + 1) nv (.inst a (.ptr (.int w))),
            .load (a + 2) (.int w) (.inst a (.ptr (.int w)))]) m = some m1 ∧
          m1.regs (a + 2) = some (if wv = w then n else if w < wv then n % 2 ^ w
            else if sg = true then ofInt w (toSigned wv n) else n % 2 ^ wv) := by
  have hT' := hT
  obtain ⟨code, hem, _⟩ := visitExpr_step e σ σ1 v he
  have hb1 : σ1.insertPoint = some b := by rw [hem.insertPoint_emits, hb]
  have hbl : b < σ.blocks.length := by
    obtain ⟨b', _, hb', hl', _⟩ := getModule_ok hm
    rw [hb] at hb'
    cases hb'
    exact hl'
  have hbl1 : b < σ1.blocks.length := by rw [hem.length_emits]; exact hbl
  have henv1 : σ1.env = frame :: rest := by rw [hem.env_emits, henv]
  have hm1 : σ1.getModule = .ok () := by rw [hem.getModule_emits, hm]
  have hn1 : σ.nextId ≤ σ1.nextId := hem.2
  by_cases hwv : wv = w
  · subst hwv
    have hc := createIntCast_same sg σ1 hv
    obtain ⟨σ2, σ3, h1, h2, h3, h4, h5⟩ :=
      let_after_cast name T e σ σ1 σ1 v v wv b sg frame rest hσ he hc hv hm1 hb1 hbl1 henv1
    refine ⟨v, [], σ1.nextId, σ2, σ3, h1, hv, fun _ => ⟨rfl, rfl⟩, fun h => absurd h (by omega),
      fun h => absurd h (by omega), fun h => absurd h (by omega), fun h => absurd rfl h, hn1,
      by simpa using h2, h3, by rw [h3]; exact get_define _ _ _ _, h4, h5, ?_⟩
    intro m n hmn
    obtain ⟨m1, hm1, hr⟩ := exec_let_same m v n σ1.nextId (.int wv) name hmn
      (visitExpr_result_fresh he)
    exact ⟨m1, by simpa using hm1, by simpa using hr⟩
  · have hc := createIntCast_diff sg σ1 hv hwv
    obtain ⟨ho1, ho2, ho3⟩ := castOpcode_cases wv w sg hwv
    by_cases hk : v.isConstant = false
    · rw [insertCast_plain _ _ _ hk] at hc
      have hem2 := emit_Emits σ1 (fun id => Inst.cast id (castOpcode wv w sg) v (.int w)) (.int w)
      set σc := (σ1.emit (fun id => Inst.cast id (castOpcode wv w sg) v (.int w)) (.int w)).2
        with hσc
      have hb2 : σc.insertPoint = some b := by rw [hem2.insertPoint_emits, hb1]
      have hbl2 : b < σc.blocks.length := by rw [hem2.length_emits]; exact hbl1
      have henv2 : σc.env = frame :: rest := by rw [hem2.env_emits, henv1]
      have hm2 : σc.getModule = .ok () := by rw [hem2.getModule_emits, hm1]
      have hn2 : σc.nextId = σ1.nextId + 1 := rfl
      obtain ⟨σ2, σ3, h1, h2, h3, h4, h5⟩ :=
        let_after_cast name T e σ σ1 σc v (.inst σ1.nextId (.int w)) w b sg frame rest hσ he hc
          rfl hm2 hb2 hbl2 henv2
      rw [hn2] at h2 h3 h4 h5
      rw [hem2.code_at hb1 hbl1] at h2
      refine ⟨.inst σ1.nextId (.int w), [.cast σ1.nextId (castOpcode wv w sg) v (.int w)],
        σ1.nextId + 1, σ2, σ3, h1, rfl, fun h => absurd h hwv, ?_, ?_, ?_, ?_, by omega,
        by simpa using h2, h3, by rw [h3]; exact get_define _ _ _ _, h4, h5, ?_⟩
      · intro h
        refine ⟨fun _ => by rw [ho1 h]; exact ⟨rfl, rfl⟩, ?_⟩
        intro n hn
        rw [hn] at hk
        cases hk
      · intro h hs
        refine ⟨fun _ => by rw [ho2 h hs]; exact ⟨rfl, rfl⟩, ?_⟩
        intro n hn
        rw [hn] at hk
        cases hk
      · intro h hs
        refine ⟨fun _ => by rw [ho3 h hs]; exact ⟨rfl, rfl⟩, ?_⟩
        intro n hn
        rw [hn] at hk
        cases hk
      · intro _ hp
        rw [hp] at hk
        cases hk
      · intro m n hmn
        obtain ⟨m1, hm1, hr⟩ :=
          exec_let_cast m v n σ1.nextId wv w (castOpcode wv w sg) name hmn hv
        refine ⟨m1, by simpa using hm1, ?_⟩
        rw [hr, evalCast_cases wv w n sg hwv]
        simp only [hwv, if_false]
    · cases v with
      | null => cases hv
      | inst k t => exact absurd rfl hk
      | arg f i t => exact absurd rfl hk
      | func f => cases hv
      | globalString g => cases hv
      | constInt wc n =>
        have hwc : wc = wv := by
          simp only [Value.getType, Option.some.injEq, Ty.int.injEq] at hv
          exact hv
        subst hwc
        rw [insertCast_const] at hc
        obtain ⟨σ2, σ3, h1, h2, h3, h4, h5⟩ :=
          let_after_cast name T e σ σ1 σ1 (.constInt wc n)
            (.constInt w (evalCast (castOpcode wc w sg) wc w n)) w b sg frame rest hσ he hc
            rfl hm1 hb1 hbl1 henv1
        refine ⟨.constInt w (evalCast (castOpcode wc w sg) wc w n), [], σ1.nextId, σ2, σ3, h1,
          rfl, fun h => absurd h hwv, ?_, ?_, ?_, ?_, hn1, by simpa using h2, h3,
          by rw [h3]; exact get_define _ _ _ _, h4, h5, ?_⟩
        · intro h
          refine ⟨fun hc2 => (by cases hc2), ?_⟩
          intro n2 hn
          cases hn
          rw [ho1 h]
          exact ⟨rfl, rfl⟩
        · intro h hs
          refine ⟨fun hc2 => (by cases hc2), ?_⟩
          intro n2 hn
          cases hn
          rw [ho2 h hs]
          exact ⟨rfl, rfl⟩
        · intro h hs
          refine ⟨fun hc2 => (by cases hc2), ?_⟩
          intro n2 hn
          cases hn
          rw [ho3 h hs]
          exact ⟨rfl, rfl⟩
        · intro _ hp
          cases hp
        · intro m n2 hmn
          have hn2 : n2 = n := by
            simp only [Machine.eval, Option.some.injEq] at hmn
            exact hmn.symm
          subst hn2
          obtain ⟨m1, hm1, hr⟩ := exec_let_same m
            (.constInt w (evalCast (castOpcode wc w sg) wc w n2))
            (evalCast (castOpcode wc w sg) wc w n2) σ1.nextId (.int w) name rfl
            (fun k t hkt => by cases hkt)
          refine ⟨m1, by simpa using hm1, ?_⟩
          rw [hr, evalCast_cases wc w n2 sg hwv]
          simp only [hwv, if_false]
      | poison t =>
        have ht : t = .int wv := by
          simp only [Value.getType, Option.some.injEq] at hv
          exact hv
        subst ht
        rw [insertCast_poison] at hc
        obtain ⟨σ2, σ3, h1, h2, h3, h4, h5⟩ :=
          let_after_cast name T e σ σ1 σ1 (.poison (.int wv)) (.poison (.int w)) w b sg frame
            rest hσ he hc rfl hm1 hb1 hbl1 henv1
        refine ⟨.poison (.int w), [], σ1.nextId, σ2, σ3, h1, rfl, fun h => absurd h hwv, ?_, ?_,
          ?_, ?_, hn1, by simpa using h2, h3, by rw [h3]; exact get_define _ _ _ _, h4, h5, ?_⟩
        · intro h
          exact ⟨fun hc2 => (by cases hc2), fun n hn => (by cases hn)⟩
        · intro h hs
          exact ⟨fun hc2 => (by cases hc2), fun n hn => (by cases hn)⟩
        · intro h hs
          exact ⟨fun hc2 => (by cases hc2), fun n hn => (by cases hn)⟩
        · intro _ _
          exact ⟨rfl, rfl⟩
        · intro m n hmn
          cases hmn

/-- Witness of C3: `let x: i32 = 5;` after `fn main() -> i32 { }`, that is with the builder in
the entry block of `main`, stores the 64 bit literal truncated to 32 bits. -/
theorem C3_let_stores_cast_value_witness :
    List.lookup TokenTypes.I32 typeMap = some (32, true) ∧
    visitExpr (.IntExpression 5) State.inMain = .ok (.constInt 64 5, State.inMain) ∧
    State.inMain.getModule = .ok () ∧
    ∃ nv σ2, visitStmt (.LetStatement "x" .I32 (.IntExpression 5)) State.inMain = .ok (nv, σ2) ∧
      nv = .constInt 32 5 := by
  refine ⟨rfl, rfl, rfl, ?_⟩
  obtain ⟨nv, cc, a, σ2, σ3, h1, _, _, h4, _⟩ :=
    C3_let_stores_cast_value "x" .I32 (.IntExpression 5) State.inMain State.inMain
      (.constInt 64 5) 32 64 1 true [("main", .func 1)] [] rfl rfl rfl rfl rfl rfl rfl
  exact ⟨nv, σ2, h1, by simpa using ((h4 (by decide)).2 5 rfl).2⟩

/-! ## C4: assignment to an unsigned variable -/

/-- C4, the code at the failing input. In `fn main() -> i32 { let x: u8 = 0; x = 1 < 2; }` the
assignment sign-extends the one bit value of `1 < 2`: the constant 255 is stored in the cell of
`x`, whereas `fn main() -> i32 { let y: u8 = 1 < 2; }` zero-extends the same value and stores 1
in the cell of `y`. With the comparison `a < 2` on a variable the casts are instructions: the
assignment `x = a < 2` casts with `sext` and the code leaves 255 in the cell of `x`, the
statement `let y: u8 = a < 2;` casts with `zext` and the code leaves 1 in the cell of `y`. -/
theorem C4_assignment_sign_extends_unsigned :
    codeAfter (.cons (mainWith (.cons declareU8 (.cons (.ExpressionStatement assignLt) .nil)))
        .nil) State.start 1 =
      [.alloca 0 (.int 8) "x",
       .store 1 (.constInt 8 0) (.inst 0 (.ptr (.int 8))),
       .store 2 (.constInt 8 255) (.inst 0 (.ptr (.int 8)))] ∧
    cellAfter (codeAfter (.cons (mainWith (.cons declareU8
      (.cons (.ExpressionStatement assignLt) .nil))) .nil) State.start 1) 0 = some 255 ∧
    codeAfter (.cons (mainWith (.cons letLt .nil)) .nil) State.start 1 =
      [.alloca 0 (.int 8) "y",
       .store 1 (.constInt 8 1) (.inst 0 (.ptr (.int 8)))] ∧
    cellAfter (codeAfter (.cons (mainWith (.cons letLt .nil)) .nil) State.start 1) 0 = some 1 ∧
    codeAfter (.cons (mainWith (.cons declareA (.cons declareU8
        (.cons (.ExpressionStatement (.AssignmentExpression "x" ltATwo)) .nil)))) .nil)
        State.start 1 =
      [.alloca 0 (.int 64) "a",
       .store 1 (.constInt 64 1) (.inst 0 (.ptr (.int 64))),
       .alloca 2 (.int 8) "x",
       .store 3 (.constInt 8 0) (.inst 2 (.ptr (.int 8))),
       .load 4 (.int 64) (.inst 0 (.ptr (.int 64))),
       .icmp 5 .SLT (.inst 4 (.int 64)) (.constInt 64 2),
       .cast 6 .SExt (.inst 5 (.int 1)) (.int 8),
       .store 7 (.inst 6 (.int 8)) (.inst 2 (.ptr (.int 8)))] ∧
    cellAfter (codeAfter (.cons (mainWith (.cons declareA (.cons declareU8
      (.cons (.ExpressionStatement (.AssignmentExpression "x" ltATwo)) .nil)))) .nil)
      State.start 1) 2 = some 255 ∧
    codeAfter (.cons (mainWith (.cons declareA (.cons (.LetStatement "y" .U8 ltATwo) .nil)))
        .nil) State.start 1 =
      [.alloca 0 (.int 64) "a",
       .store 1 (.constInt 64 1) (.inst 0 (.ptr (.int 64))),
       .load 2 (.int 64) (.inst 0 (.ptr (.int 64))),
       .icmp 3 .SLT (.inst 2 (.int 64)) (.constInt 64 2),
       .cast 4 .ZExt (.inst 3 (.int 1)) (.int 8),
       .alloca 5 (.int 8) "y",
       .store 6 (.inst 4 (.int 8)) (.inst 5 (.ptr (.int 8)))] ∧
    cellAfter (codeAfter (.cons (mainWith (.cons declareA (.cons (.LetStatement "y" .U8 ltATwo)
      .nil))) .nil) State.start 1) 5 = some 1 := by
  refine ⟨?_, ?_, ?_, ?_, ?_, ?_, ?_, ?_⟩ <;> decide!

/-! ## C5: the value of an assignment -/

/-- C5, the code at the failing input. After `let x: i64 = 0;` in a block of `main`, the visit
of `x = 1` returns the store instruction, a value of type `void`, not the stored 64 bit value.
In `fn main() -> i32 { let x: i64 = 0; return (x = 1) + 2; }` it is that store instruction,
number 2, which the promotion rule sign-extends to 64 bits and to which 2 is added. -/
theorem C5_assignment_returns_store :
    resultType (exprAfter (.cons declareI64 .nil) assignOne State.inMain) = some .void ∧
    (okOr (exprAfter (.cons declareI64 .nil) assignOne State.inMain) (.null, State.inMain)).1
      = .inst 2 .void ∧
    codeAfter (.cons (mainWith (.cons declareI64 (.cons (.ReturnStatement
        (.BinaryExpression assignOne .PLUS (.IntExpression 2))) .nil))) .nil) State.start 1 =
      [.alloca 0 (.int 64) "x",
       .store 1 (.constInt 64 0) (.inst 0 (.ptr (.int 64))),
       .store 2 (.constInt 64 1) (.inst 0 (.ptr (.int 64))),
       .cast 3 .SExt (.inst 2 .void) (.int 64),
       .binop 4 .Add (.inst 3 (.int 64)) (.constInt 64 2),
       .ret (.inst 4 (.int 64))] := by
  refine ⟨?_, ?_, ?_⟩ <;> decide!

/-! ## Extension of the generated code -/

theorem instsAt_ge {B : List BasicBlock} {i : Nat} (h : B.length ≤ i) : instsAt B i = [] := by
  simp [instsAt, List.getElem?_eq_none h]

theorem instsAt_append_new (B : List BasicBlock) (name : String) (p : Option Nat) (i : Nat) :
    instsAt (B ++ [{ name := name, parent := p, insts := [] }]) i = instsAt B i := by
  unfold instsAt
  rcases Nat.lt_trichotomy i B.length with h | h | h
  · rw [List.getElem?_append_left h]
  · subst h
    simp
  · rw [List.getElem?_eq_none (by simp; omega), List.getElem?_eq_none (by omega)]

theorem instsAt_setParent (B : List BasicBlock) (b i : Nat) (f : Option Nat) :
    instsAt (updateBlock (fun bb => { bb with parent := f }) b B) i = instsAt B i := by
  rw [instsAt_updateBlock]
  split
  · unfold instsAt
    cases B[i]? <;> rfl
  · rfl

theorem instsAt_appendCode_any (σ : State) (code : List Inst) (i : Nat) :
    instsAt (σ.appendCode code).blocks i = instsAt σ.blocks i ∨
    (σ.insertPoint = some i ∧ instsAt (σ.appendCode code).blocks i = instsAt σ.blocks i ++ code) := by
  by_cases h : σ.insertPoint = some i
  · by_cases hl : i < σ.blocks.length
    · exact Or.inr ⟨h, instsAt_appendCode σ code i h hl⟩
    · left
      rw [instsAt_ge (by rw [appendCode_length]; omega), instsAt_ge (by omega)]
  · exact Or.inl (instsAt_appendCode_other σ code i h)

theorem Extends.refl_ext (σ : State) : Extends σ.blocks σ.insertPoint σ where
  len := Nat.le_refl _
  frame := fun _ _ _ => rfl
  grow := fun _ => ⟨[], by simp⟩
  ip := Or.inl rfl
  targets := fun _ _ _ h _ => Or.inl h
  valid := fun h => h

theorem Extends.of_eq_ext {B0 : List BasicBlock} {ip0 : Option Nat} {σ σ1 : State}
    (h : Extends B0 ip0 σ) (hb : σ1.blocks = σ.blocks) (hi : σ1.insertPoint = σ.insertPoint) :
    Extends B0 ip0 σ1 where
  len := by rw [hb]; exact h.len
  frame := by rw [hb]; exact h.frame
  grow := by rw [hb]; exact h.grow
  ip := by rw [hi]; exact h.ip
  targets := by rw [hb]; exact h.targets
  valid := by rw [hb, hi]; exact h.valid

theorem Extends.appendCode {B0 : List BasicBlock} {ip0 : Option Nat} {σ : State}
    (h : Extends B0 ip0 σ) (code : List Inst)
    (ht : ∀ inst ∈ code, ∀ t ∈ inst.targets, B0.length ≤ t) :
    Extends B0 ip0 (σ.appendCode code) where
  len := by rw [appendCode_length]; exact h.len
  frame := by
    intro i hi hne
    rw [instsAt_appendCode_other, h.frame i hi hne]
    rcases h.ip with e | ⟨b, e, hb⟩
    · rw [e]; exact hne
    · rw [e]; intro hc; cases hc; omega
  grow := by
    intro i
    obtain ⟨c, hc⟩ := h.grow i
    rcases instsAt_appendCode_any σ code i with e | ⟨_, e⟩
    · exact ⟨c, by rw [e, hc]⟩
    · exact ⟨c ++ code, by rw [e, hc, List.append_assoc]⟩
  ip := by rw [appendCode_insertPoint]; exact h.ip
  targets := by
    intro i inst t hin ht'
    rcases instsAt_appendCode_any σ code i with e | ⟨_, e⟩
    · rw [e] at hin; exact h.targets i inst t hin ht'
    · rw [e] at hin
      rcases List.mem_append.mp hin with h1 | h1
      · exact h.targets i inst t h1 ht'
      · exact Or.inr (ht inst h1 t ht')
  valid := by
    intro hv
    rw [appendCode_insertPoint]
    intro b hb
    rw [appendCode_length]
    exact h.valid hv b hb

theorem Extends.createBlock_ext {B0 : List BasicBlock} {ip0 : Option Nat} {σ : State}
    (h : Extends B0 ip0 σ) (name : String) (p : Option Nat) :
    Extends B0 ip0 (σ.createBlock name p).2 where
  len := by simp [State.createBlock]; have := h.len; omega
  frame := by
    intro i hi hne
    simp only [State.createBlock, instsAt_append_new]
    exact h.frame i hi hne
  grow := by
    intro i
    simp only [State.createBlock, instsAt_append_new]
    exact h.grow i
  ip := h.ip
  targets := by
    intro i inst t hin ht
    simp only [State.createBlock, instsAt_append_new] at hin
    exact h.targets i inst t hin ht
  valid := by
    intro hv b hb
    have := h.valid hv b hb
    simp [State.createBlock]
    omega

theorem Extends.setInsertPoint_ext {B0 : List BasicBlock} {ip0 : Option Nat} {σ : State}
    (h : Extends B0 ip0 σ) {b : Nat} (hb : B0.length ≤ b) (hv : b < σ.blocks.length) :
    Extends B0 ip0 (σ.setInsertPoint b) where
  len := h.len
  frame := h.frame
  grow := h.grow
  ip := Or.inr ⟨b, rfl, hb⟩
  targets := h.targets
  valid := by
    intro _ c hc
    simp only [State.setInsertPoint, Option.some.injEq] at hc
    subst hc
    exact hv

theorem insertInto_ok {σ σ1 : State} {b : Nat} (h : σ.insertInto b = .ok σ1) :
    ∃ f, σ.mainFunction = some f ∧
      σ1 = { σ with blocks := updateBlock (fun bb => { bb with parent := some f }) b σ.blocks } := by
  unfold State.insertInto at h
  split at h
  · cases h
  · rename_i f hf
    exact ⟨f, hf, (Except.ok.inj h).symm⟩

theorem Extends.insertInto_ext {B0 : List BasicBlock} {ip0 : Option Nat} {σ σ1 : State}
    (h : Extends B0 ip0 σ) {b : Nat} (hi : σ.insertInto b = .ok σ1) : Extends B0 ip0 σ1 := by
  obtain ⟨f, _, rfl⟩ := insertInto_ok hi
  exact {
    len := by simp [updateBlock_length]; exact h.len
    frame := by
      intro i hi hne
      simp only [instsAt_setParent]
      exact h.frame i hi hne
    grow := by
      intro i
      simp only [instsAt_setParent]
      exact h.grow i
    ip := h.ip
    targets := by
      intro i inst t hin ht
      simp only [instsAt_setParent] at hin
      exact h.targets i inst t hin ht
    valid := by
      intro hv b hb
      simp only [updateBlock_length]
      exact h.valid hv b hb }

theorem Extends.trans_ext {B0 : List BasicBlock} {ip0 : Option Nat} {σ1 σ2 : State}
    (h1 : Extends B0 ip0 σ1) (h2 : Extends σ1.blocks σ1.insertPoint σ2) : Extends B0 ip0 σ2 where
  len := Nat.le_trans h1.len h2.len
  frame := by
    intro i hi hne
    rw [h2.frame i (Nat.lt_of_lt_of_le hi h1.len), h1.frame i hi hne]
    rcases h1.ip with e | ⟨b, e, hb⟩
    · rw [e]; exact hne
    · rw [e]; intro hc; cases hc; omega
  grow := by
    intro i
    obtain ⟨c1, e1⟩ := h1.grow i
    obtain ⟨c2, e2⟩ := h2.grow i
    exact ⟨c1 ++ c2, by rw [e2, e1, List.append_assoc]⟩
  ip := by
    rcases h2.ip with e | ⟨b, e, hb⟩
    · rw [e]; exact h1.ip
    · exact Or.inr ⟨b, e, Nat.le_trans h1.len hb⟩
  targets := by
    intro i inst t hin ht
    rcases h2.targets i inst t hin ht with h | h
    · exact h1.targets i inst t h ht
    · exact Or.inr (Nat.le_trans h1.len h)
  valid := fun hv => h2.valid (h1.valid hv)

theorem Plain.no_targets {code : List Inst} (h : Plain code) :
    ∀ inst ∈ code, ∀ t ∈ inst.targets, False := by
  intro inst hin t ht
  have := h inst hin
  cases inst <;> simp [Inst.isTerminator, Inst.targets] at this ht

theorem ExprStep.extends {σ σ1 : State} (h : ExprStep σ σ1) :
    Extends σ.blocks σ.insertPoint σ1 := by
  obtain ⟨code, hem, hp⟩ := h
  have h1 : Extends σ.blocks σ.insertPoint (σ.appendCode code) :=
    (Extends.refl_ext σ).appendCode code (fun inst hin t ht => (hp.no_targets inst hin t ht).elim)
  exact h1.of_eq_ext hem.blocks (by rw [hem.insertPoint_emits, appendCode_insertPoint])

/-! ## The control-flow visits, step by step -/

theorem createBlock_fst (σ : State) (n : String) (p : Option Nat) :
    (σ.createBlock n p).1 = σ.blocks.length := rfl

theorem createBlock_length (σ : State) (n : String) (p : Option Nat) :
    (σ.createBlock n p).2.blocks.length = σ.blocks.length + 1 := by
  simp [State.createBlock]

theorem createElifBlocks_fst : ∀ (el : ElifList) (σ : State),
    (createElifBlocks el σ).1 = elifIds σ.blocks.length el.size
  | .nil, _ => rfl
  | .cons c b rest, σ => by
    simp only [createElifBlocks, ElifList.size, elifIds, createBlock_fst]
    rw [createElifBlocks_fst rest]
    simp [createBlock_length]

theorem createElifBlocks_length : ∀ (el : ElifList) (σ : State),
    (createElifBlocks el σ).2.blocks.length = σ.blocks.length + 2 * el.size
  | .nil, _ => rfl
  | .cons c b rest, σ => by
    simp only [createElifBlocks, ElifList.size]
    rw [createElifBlocks_length rest]
    simp [createBlock_length]
    omega

theorem pure_ok {α : Type} {a b : α} : (pure a : Except Err α) = .ok b ↔ a = b := by
  simp [pure, Except.pure]

theorem visitStmt_while_ok {cond : Expression} {branch : Statement} {σ σ1 : State} {v : Value}
    (h : visitStmt (.WhileStatement cond branch) σ = .ok (v, σ1)) :
    ∃ c σ5 σ7 r σ8 σ10,
      visitExpr cond (whileHead σ) = .ok (c, σ5) ∧
      (σ5.insert (.condBr c (σ.blocks.length + 1) (σ.blocks.length + 2))).insertInto
        (σ.blocks.length + 1) = .ok σ7 ∧
      visitStmt branch (σ7.setInsertPoint (σ.blocks.length + 1)) = .ok (r, σ8) ∧
      (σ8.insert (.br σ.blocks.length)).insertInto (σ.blocks.length + 2) = .ok σ10 ∧
      v = .null ∧ σ1 = σ10.setInsertPoint (σ.blocks.length + 2) := by
  rw [visitStmt] at h
  simp only [bind_ok, pure_ok, createBlock_fst, createBlock_length] at h
  obtain ⟨⟨c, σ5⟩, h1, σ7, h2, ⟨r, σ8⟩, h3, σ10, h4, h5⟩ := h
  obtain ⟨rfl, rfl⟩ := Prod.mk.inj h5
  exact ⟨c, σ5, σ7, r, σ8, σ10, h1, h2, h3, h4, rfl, rfl⟩

theorem ifBlocks_length (σ1 : State) (el : ElifList) :
    (ifBlocks σ1 el).blocks.length = σ1.blocks.length + 3 + 2 * el.size := by
  simp [ifBlocks, createElifBlocks_length, createBlock_length]

theorem visitStmt_if_ok {cond : Expression} {thenBranch : Statement} {el : ElifList}
    {elseBranch : OptStatement} {σ σ' : State} {v : Value}
    (h : visitStmt (.IfStatement cond thenBranch el elseBranch) σ = .ok (v, σ')) :
    ∃ c σ1 r σ7 σ9 σ10 σ11,
      visitExpr cond σ = .ok (c, σ1) ∧
      visitStmt thenBranch (((ifBlocks σ1 el).insert (.condBr c σ1.blocks.length
        (nextBlockOf (elifIds (σ1.blocks.length + 3) el.size)
          (lastBlockOf elseBranch (σ1.blocks.length + 1) (σ1.blocks.length + 2))))).setInsertPoint
            σ1.blocks.length) = .ok (r, σ7) ∧
      visitElifs el (elifIds (σ1.blocks.length + 3) el.size)
        (lastBlockOf elseBranch (σ1.blocks.length + 1) (σ1.blocks.length + 2))
        (σ1.blocks.length + 2) (σ7.insert (.br (σ1.blocks.length + 2))) = .ok σ9 ∧
      visitElse elseBranch (σ1.blocks.length + 1) (σ1.blocks.length + 2) σ9 = .ok σ10 ∧
      σ10.insertInto (σ1.blocks.length + 2) = .ok σ11 ∧
      v = .null ∧ σ' = σ11.setInsertPoint (σ1.blocks.length + 2) := by
  rw [visitStmt] at h
  simp only [bind_ok, pure_ok, createBlock_fst, createBlock_length, createElifBlocks_fst] at h
  obtain ⟨⟨c, σ1⟩, h1, ⟨r, σ7⟩, h2, σ9, h3, σ10, h4, σ11, h5, h6⟩ := h
  obtain ⟨rfl, rfl⟩ := Prod.mk.inj h6
  exact ⟨c, σ1, r, σ7, σ9, σ10, σ11, h1, h2, h3, h4, h5, rfl, rfl⟩

theorem visitElifs_cons_ok {cond : Expression} {branch : Statement} {rest : ElifList}
    {block codeBlock : Nat} {ids : List (Nat × Nat)} {lastBlock mergeBlock : Nat}
    {σ σ' : State}
    (h : visitElifs (.cons cond branch rest) ((block, codeBlock) :: ids) lastBlock mergeBlock σ
      = .ok σ') :
    ∃ σ1 c σ2 σ4 r σ5,
      σ.insertInto block = .ok σ1 ∧
      visitExpr cond (σ1.setInsertPoint block) = .ok (c, σ2) ∧
      (σ2.insert (.condBr c codeBlock (nextBlockOf ids lastBlock))).insertInto codeBlock
        = .ok σ4 ∧
      visitStmt branch (σ4.setInsertPoint codeBlock) = .ok (r, σ5) ∧
      visitElifs rest ids lastBlock mergeBlock (σ5.insert (.br mergeBlock)) = .ok σ' := by
  simp only [visitElifs, bind_ok] at h
  obtain ⟨σ1, h1, ⟨c, σ2⟩, h2, σ4, h3, ⟨r, σ5⟩, h4, h5⟩ := h
  exact ⟨σ1, c, σ2, σ4, r, σ5, h1, h2, h3, h4, h5⟩

theorem visitElse_some_ok {s : Statement} {elseBlock mergeBlock : Nat} {σ σ' : State}
    (h : visitElse (.some s) elseBlock mergeBlock σ = .ok σ') :
    ∃ σ1 r σ2,
      σ.insertInto elseBlock = .ok σ1 ∧
      visitStmt s (σ1.setInsertPoint elseBlock) = .ok (r, σ2) ∧
      σ' = σ2.insert (.br mergeBlock) := by
  rw [visitElse] at h
  simp only [bind_ok, pure_ok] at h
  obtain ⟨σ1, h1, ⟨r, σ2⟩, h2, h3⟩ := h
  exact ⟨σ1, r, σ2, h1, h2, h3.symm⟩

theorem visitStmt_block_ok {ss : StmtList} {σ σ' : State} {v : Value}
    (h : visitStmt (.BlockStatement ss) σ = .ok (v, σ')) :
    ∃ σ1, visitStmts ss σ.pushEnv = .ok σ1 ∧ σ1.popEnv = .ok σ' ∧ v = .null := by
  rw [visitStmt] at h
  simp only [bind_ok, pure_ok] at h
  obtain ⟨σ1, h1, σ2, h2, h3⟩ := h
  obtain ⟨rfl, rfl⟩ := Prod.mk.inj h3
  exact ⟨σ1, h1, h2, rfl⟩

theorem visitStmts_cons_ok {s : Statement} {rest : StmtList} {σ σ' : State}
    (h : visitStmts (.cons s rest) σ = .ok σ') :
    ∃ r σ1, visitStmt s σ = .ok (r, σ1) ∧ visitStmts rest σ1 = .ok σ' := by
  rw [visitStmts] at h
  simp only [bind_ok] at h
  obtain ⟨⟨r, σ1⟩, h1, h2⟩ := h
  exact ⟨r, σ1, h1, h2⟩

theorem visitStmt_fn_ok {name : String} {args : List (String × TokenTypes)}
    {returnType : TokenTypes} {body : Statement} {σ σ' : State} {v : Value}
    (h : visitStmt (.FnStatement name args returnType body) σ = .ok (v, σ')) :
    ∃ argTypes σ1 retTy σ5 σ8 r σ9,
      fnArgTypes args σ = (argTypes, σ1) ∧
      getIntNTy (σ1.typeOf returnType).1.1 = retTy ∧
      ({ ((σ1.typeOf returnType).2.createFunction
            { name := name, retTy := retTy, argTys := argTypes, isVarArg := false }).2 with
          mainFunction := some σ1.functions.length } : State).define name
            (.func σ1.functions.length) = .ok σ5 ∧
      bindArgs σ1.functions.length 0 (List.zip (args.map Prod.fst) argTypes)
        (((σ5.createBlock "entry" (some σ1.functions.length)).2.setInsertPoint
          σ5.blocks.length).pushEnv) = .ok σ8 ∧
      visitStmt body σ8 = .ok (r, σ9) ∧
      σ9.popEnv = .ok σ' ∧ v = σ'.currentFunction := by
  rw [visitStmt] at h
  simp only [bind_ok, pure_ok] at h
  obtain ⟨σ5, h3, σ8, h4, ⟨r, σ9⟩, h5, σ10, h6, h7⟩ := h
  obtain ⟨rfl, rfl⟩ := Prod.mk.inj h7
  exact ⟨(fnArgTypes args σ).1, (fnArgTypes args σ).2, _, σ5, σ8, r, σ9, rfl, rfl, h3, h4, h5,
    h6, rfl⟩

theorem visitStmt_print_ok {e : Expression} {σ σ' : State} {v : Value}
    (h : visitStmt (.PrintStatement e) σ = .ok (v, σ')) :
    ∃ value σ1 fmt r,
      visitExpr e σ = .ok (value, σ1) ∧
      createGlobalStringPtr "%d\n" σ1 = .ok fmt ∧
      createCall (σ.getFunction "printf") [fmt, value] σ1 = .ok (r, σ') ∧ v = .null := by
  rw [visitStmt] at h
  simp only [bind_ok, pure_ok] at h
  obtain ⟨⟨value, σ1⟩, h1, fmt, h2, ⟨r, σ2⟩, h3, h4⟩ := h
  obtain ⟨rfl, rfl⟩ := Prod.mk.inj h4
  exact ⟨value, σ1, fmt, r, h1, h2, h3, rfl⟩

theorem visitStmt_let_ok {name : String} {T : TokenTypes} {e : Expression} {σ σ' : State}
    {v : Value} (h : visitStmt (.LetStatement name T e) σ = .ok (v, σ')) :
    ∃ value σ1 ty σ2 al σ3 st σ4,
      visitExpr e (σ.typeOf T).2 = .ok (value, σ1) ∧
      getIntNTy (σ.typeOf T).1.1 = ty ∧
      createIntCast value ty (σ.typeOf T).1.2 σ1 = .ok (v, σ2) ∧
      createAlloca ty name σ2 = .ok (al, σ3) ∧
      createStore v al σ3 = .ok (st, σ4) ∧
      σ4.define name al = .ok σ' := by
  rw [visitStmt] at h
  simp only [bind_ok, pure_ok] at h
  obtain ⟨⟨value, σ1⟩, h1, ⟨nv, σ2⟩, h3, ⟨al, σ3⟩, h4, ⟨st, σ4⟩, h5, σ5, h6, h7⟩ := h
  obtain ⟨rfl, rfl⟩ := Prod.mk.inj h7
  exact ⟨value, σ1, _, σ2, al, σ3, st, σ4, h1, rfl, h3, h4, h5, h6⟩

theorem let_tail_step {ty : Ty} {name : String} {v al st : Value} {σ2 σ3 σ4 : State}
    (h4 : createAlloca ty name σ2 = .ok (al, σ3)) (h5 : createStore v al σ3 = .ok (st, σ4)) :
    ExprStep σ2 σ4 :=
  (createAlloca_step h4).trans_expr (createStore_step h5)

theorem visitStmt_return_ok {e : Expression} {σ σ' : State} {v : Value}
    (h : visitStmt (.ReturnStatement e) σ = .ok (v, σ')) :
    ∃ value σ1, visitExpr e σ = .ok (value, σ1) ∧ σ' = σ1.insert (.ret value) ∧ v = .null := by
  rw [visitStmt] at h
  simp only [bind_ok, pure_ok] at h
  obtain ⟨⟨value, σ1⟩, h1, h2⟩ := h
  obtain ⟨rfl, rfl⟩ := Prod.mk.inj h2
  exact ⟨value, σ1, h1, rfl, rfl⟩

/-! ## Scope frames -/

theorem FrameKept.refl_kept (env : List Frame) : FrameKept env env := by
  cases env with
  | nil => exact Or.inl ⟨rfl, rfl⟩
  | cons f rest => exact Or.inr ⟨f, f, rest, rfl, rfl, fun _ h => h⟩

theorem FrameKept.trans_kept {e1 e2 e3 : List Frame} (h1 : FrameKept e1 e2) (h2 : FrameKept e2 e3) :
    FrameKept e1 e3 := by
  rcases h1 with ⟨rfl, rfl⟩ | ⟨f, f1, rest, rfl, rfl, hf⟩
  · exact h2
  · rcases h2 with ⟨h, _⟩ | ⟨g, g1, rest', hg, rfl, hg'⟩
    · cases h
    · obtain ⟨rfl, rfl⟩ := List.cons.inj hg
      exact Or.inr ⟨f, g1, rest, rfl, rfl, fun n hn => hg' n (hf n hn)⟩

theorem find_define_other (f : Frame) (name other : String) (x : Value) (h : other ≠ name) :
    (f.define name x).find other = f.find other := by
  have h2 : ¬ ((name, x).1 == other) = true := by
    simp only [beq_iff_eq]; exact fun e => h e.symm
  unfold Frame.define Frame.find
  rw [List.find?_cons_of_neg (p := fun p : String × Value => p.1 == other) _ h2,
    List.find?_filter]
  congr 2
  funext p
  by_cases hp : p.1 = other
  · simp [hp, h]
  · simp [hp]

theorem find_define_kept (f : Frame) (name other : String) (x : Value)
    (h : f.find other ≠ none) : (f.define name x).find other ≠ none := by
  by_cases e : other = name
  · subst e; rw [find_define]; simp
  · rw [find_define_other f name other x e]; exact h

theorem define_ok {σ σ1 : State} {name : String} {x : Value} (h : σ.define name x = .ok σ1) :
    ∃ f rest, σ.env = f :: rest ∧ σ1 = { σ with env := f.define name x :: rest } := by
  unfold State.define Environment.define at h
  cases he : σ.env with
  | nil => rw [he] at h; cases h
  | cons f rest =>
    rw [he] at h
    simp only [ok_bind, pure_ok] at h
    exact ⟨f, rest, rfl, h.symm⟩

theorem popEnv_ok {σ σ1 : State} (h : σ.popEnv = .ok σ1) :
    ∃ f rest, σ.env = f :: rest ∧ σ1 = { σ with env := rest } := by
  unfold State.popEnv at h
  cases he : σ.env with
  | nil => rw [he] at h; cases h
  | cons f rest =>
    rw [he] at h
    exact ⟨f, rest, rfl, (Except.ok.inj h).symm⟩

/-! ## Building up the step of a statement visit -/

theorem StmtStep.refl_stmt (σ : State) : StmtStep σ σ :=
  ⟨FrameKept.refl_kept _, Extends.refl_ext σ, Nat.le_refl _⟩

theorem StmtStep.trans_stmt {σ0 σ1 σ2 : State} (h1 : StmtStep σ0 σ1) (h2 : StmtStep σ1 σ2) :
    StmtStep σ0 σ2 :=
  ⟨h1.frames.trans_kept h2.frames, h1.code.trans_ext h2.code, Nat.le_trans h1.ids h2.ids⟩

theorem ExprStep.env_expr {σ σ1 : State} (h : ExprStep σ σ1) : σ1.env = σ.env := by
  obtain ⟨c, hc, _⟩ := h; exact hc.env_emits

theorem ExprStep.length_expr {σ σ1 : State} (h : ExprStep σ σ1) :
    σ1.blocks.length = σ.blocks.length := by
  obtain ⟨c, hc, _⟩ := h; exact hc.length_emits

theorem ExprStep.insertPoint_expr {σ σ1 : State} (h : ExprStep σ σ1) :
    σ1.insertPoint = σ.insertPoint := by
  obtain ⟨c, hc, _⟩ := h; exact hc.insertPoint_emits

theorem ExprStep.ids {σ σ1 : State} (h : ExprStep σ σ1) : σ.nextId ≤ σ1.nextId := by
  obtain ⟨c, hc, _⟩ := h; exact hc.2

theorem ExprStep.stmtStep {σ σ1 : State} (h : ExprStep σ σ1) : StmtStep σ σ1 :=
  ⟨by rw [h.env_expr]; exact FrameKept.refl_kept _, h.extends, h.ids⟩

theorem StmtStep.expr {σ0 σ σ1 : State} (h : StmtStep σ0 σ) (he : ExprStep σ σ1) :
    StmtStep σ0 σ1 := h.trans_stmt he.stmtStep

theorem StmtStep.of_eq_stmt {σ0 σ σ1 : State} (h : StmtStep σ0 σ) (he : σ1.env = σ.env)
    (hb : σ1.blocks = σ.blocks) (hi : σ1.insertPoint = σ.insertPoint)
    (hn : σ1.nextId = σ.nextId) : StmtStep σ0 σ1 :=
  ⟨by rw [he]; exact h.frames, h.code.of_eq_ext hb hi, by rw [hn]; exact h.ids⟩

theorem StmtStep.createBlock_stmt {σ0 σ : State} (h : StmtStep σ0 σ) (n : String) (p : Option Nat) :
    StmtStep σ0 (σ.createBlock n p).2 := ⟨h.frames, h.code.createBlock_ext n p, h.ids⟩

theorem StmtStep.insert {σ0 σ : State} (h : StmtStep σ0 σ) (i : Inst)
    (ht : ∀ t ∈ i.targets, σ0.blocks.length ≤ t) : StmtStep σ0 (σ.insert i) :=
  ⟨by rw [State.insert, appendCode_env]; exact h.frames,
   h.code.appendCode [i] (by intro inst hin t htt; simp at hin; subst hin; exact ht t htt),
   by rw [State.insert, appendCode_nextId']; exact h.ids⟩

theorem StmtStep.setInsertPoint_stmt {σ0 σ : State} (h : StmtStep σ0 σ) {b : Nat}
    (hb : σ0.blocks.length ≤ b) (hv : b < σ.blocks.length) :
    StmtStep σ0 (σ.setInsertPoint b) := ⟨h.frames, h.code.setInsertPoint_ext hb hv, h.ids⟩

theorem StmtStep.insertInto_stmt {σ0 σ σ1 : State} (h : StmtStep σ0 σ) {b : Nat}
    (hi : σ.insertInto b = .ok σ1) : StmtStep σ0 σ1 := by
  refine ⟨?_, h.code.insertInto_ext hi, ?_⟩
  · obtain ⟨f, _, rfl⟩ := insertInto_ok hi
    exact h.frames
  · obtain ⟨f, _, rfl⟩ := insertInto_ok hi
    exact h.ids

theorem insertInto_length {σ σ1 : State} {b : Nat} (hi : σ.insertInto b = .ok σ1) :
    σ1.blocks.length = σ.blocks.length := by
  obtain ⟨f, _, rfl⟩ := insertInto_ok hi
  simp [updateBlock_length]

theorem insert_length (σ : State) (i : Inst) : (σ.insert i).blocks.length = σ.blocks.length :=
  appendCode_length σ [i]

theorem setInsertPoint_length (σ : State) (b : Nat) :
    (σ.setInsertPoint b).blocks.length = σ.blocks.length := rfl

theorem StmtStep.define {σ0 σ σ1 : State} (h : StmtStep σ0 σ) {n : String} {x : Value}
    (hd : σ.define n x = .ok σ1) : StmtStep σ0 σ1 := by
  obtain ⟨f, rest, he, rfl⟩ := define_ok hd
  refine ⟨h.frames.trans_kept ?_, h.code.of_eq_ext rfl rfl, h.ids⟩
  rw [he]
  exact Or.inr ⟨f, f.define n x, rest, rfl, rfl, fun other ho => find_define_kept f n other x ho⟩

theorem StmtStep.typeOf {σ0 σ : State} (h : StmtStep σ0 σ) (T : TokenTypes) :
    StmtStep σ0 (σ.typeOf T).2 := h.of_eq_stmt rfl rfl rfl rfl

theorem StmtStep.createElifBlocks {σ0 : State} : ∀ (el : ElifList) (σ : State),
    StmtStep σ0 σ → StmtStep σ0 (createElifBlocks el σ).2
  | .nil, _, h => h
  | .cons _ _ rest, σ, h => by
    simp only [Flare.createElifBlocks]
    exact StmtStep.createElifBlocks rest _ ((h.createBlock_stmt _ _).createBlock_stmt _ _)

theorem fnArgTypes_cons (n : String) (T : TokenTypes) (rest : List (String × TokenTypes))
    (σ : State) :
    fnArgTypes ((n, T) :: rest) σ =
      (getIntNTy (σ.typeOf T).1.1 :: (fnArgTypes rest (σ.typeOf T).2).1,
        (fnArgTypes rest (σ.typeOf T).2).2) := rfl

theorem fnArgTypes_ok : ∀ (args : List (String × TokenTypes)) (σ σ1 : State) (tys : List Ty),
    fnArgTypes args σ = (tys, σ1) →
      σ1.env = σ.env ∧ σ1.blocks = σ.blocks ∧ σ1.insertPoint = σ.insertPoint ∧
      σ1.functions = σ.functions ∧ σ1.mainFunction = σ.mainFunction ∧ σ1.nextId = σ.nextId
  | [], σ, σ1, tys, h => by
    obtain ⟨_, rfl⟩ := Prod.mk.inj h
    exact ⟨rfl, rfl, rfl, rfl, rfl, rfl⟩
  | (n, T) :: rest, σ, σ1, tys, h => by
    rw [fnArgTypes_cons] at h
    obtain ⟨_, rfl⟩ := Prod.mk.inj h
    exact fnArgTypes_ok rest (σ.typeOf T).2 _ _ rfl

theorem bindArgs_cons_ok {f i : Nat} {n : String} {ty : Ty} {rest : List (String × Ty)}
    {σ σ' : State} (h : bindArgs f i ((n, ty) :: rest) σ = .ok σ') :
    ∃ al σ1 st σ2 σ3, createAlloca ty n σ = .ok (al, σ1) ∧
      createStore (.arg f i ty) al σ1 = .ok (st, σ2) ∧ σ2.define n al = .ok σ3 ∧
      bindArgs f (i + 1) rest σ3 = .ok σ' := by
  simp only [bindArgs, bind_ok] at h
  obtain ⟨⟨al, σ1⟩, h1, ⟨st, σ2⟩, h2, σ3, h3, h4⟩ := h
  exact ⟨al, σ1, st, σ2, σ3, h1, h2, h3, h4⟩

theorem bindArgs_step (f : Nat) : ∀ (l : List (String × Ty)) (i : Nat) (σ σ1 : State),
    bindArgs f i l σ = .ok σ1 → StmtStep σ σ1
  | [], i, σ, σ1, h => by
    simp only [bindArgs] at h
    cases h
    exact StmtStep.refl_stmt _
  | (n, ty) :: rest, i, σ, σ1, h => by
    obtain ⟨al, s1, st, s2, s3, h1, h2, h3, h4⟩ := bindArgs_cons_ok h
    exact (((StmtStep.refl_stmt σ).expr (let_tail_step h1 h2)).define h3).trans_stmt
      (bindArgs_step f rest _ _ _ h4)

theorem StmtStep.scoped {σ σ1 σ2 : State} (h : StmtStep σ.pushEnv σ1) (hp : σ1.popEnv = .ok σ2) :
    StmtStep σ σ2 ∧ σ2.env = σ.env := by
  obtain ⟨f, rest, he, rfl⟩ := popEnv_ok hp
  have henv : rest = σ.env := by
    rcases h.frames with ⟨h0, _⟩ | ⟨g, g1, rest', hg, hg1, _⟩
    · cases h0
    · rw [he] at hg1
      obtain ⟨_, rfl⟩ := List.cons.inj hg1
      exact (List.cons.inj hg).2.symm
  refine ⟨⟨?_, h.code.of_eq_ext rfl rfl, h.ids⟩, henv⟩
  show FrameKept σ.env rest
  rw [henv]
  exact FrameKept.refl_kept _

theorem StmtStep.length_stmt {σ σ1 : State} (h : StmtStep σ σ1) :
    σ.blocks.length ≤ σ1.blocks.length := h.code.len

/-! ## Every statement visit is such a step -/

theorem nextBlockOf_ge {ids : List (Nat × Nat)} {last L : Nat}
    (h : ∀ p ∈ ids, L ≤ p.1) (hl : L ≤ last) : L ≤ nextBlockOf ids last := by
  cases ids with
  | nil => exact hl
  | cons p rest => exact h p (List.mem_cons_self _ _)

theorem elifIds_bounds : ∀ (n L : Nat) (p : Nat × Nat), p ∈ elifIds L n →
    L ≤ p.1 ∧ p.1 < L + 2 * n ∧ L ≤ p.2 ∧ p.2 < L + 2 * n
  | 0, _, _, h => by simp [elifIds] at h
  | n + 1, L, p, h => by
    simp only [elifIds, List.mem_cons] at h
    rcases h with rfl | h
    · simp; omega
    · have := elifIds_bounds n (L + 2) p h
      omega

mutual
theorem visitStmt_step : ∀ (s : Statement) (σ σ' : State) (v : Value),
    visitStmt s σ = .ok (v, σ') → StmtStep σ σ'
  | .ExpressionStatement e, σ, σ', v, h => by
    rw [visitStmt] at h
    exact (visitExpr_step e _ _ _ h).stmtStep
  | .PrintStatement e, σ, σ', v, h => by
    obtain ⟨value, σ1, fmt, r, h1, _, h3, _⟩ := visitStmt_print_ok h
    exact ((visitExpr_step e _ _ _ h1).trans_expr (createCall_step h3)).stmtStep
  | .LetStatement name T e, σ, σ', v, h => by
    obtain ⟨value, σ1, ty, σ2, al, σ3, st, σ4, h1, _, h3, h4, h5, h6⟩ := visitStmt_let_ok h
    exact (((((StmtStep.refl_stmt σ).typeOf T).expr (visitExpr_step e _ _ _ h1)).expr
      (createIntCast_step h3)).expr (let_tail_step h4 h5)).define h6
  | .BlockStatement ss, σ, σ', v, h => by
    obtain ⟨σ1, h1, h2, _⟩ := visitStmt_block_ok h
    exact ((visitStmts_step ss _ _ h1).scoped h2).1
  | .IfStatement cond thenBranch el elseBranch, σ, σ', v, h => by
    obtain ⟨c, σ1, r, σ7, σ9, σ10, σ11, h1, h2, h3, h4, h5, _, rfl⟩ := visitStmt_if_ok h
    have e1 := visitExpr_step cond _ _ _ h1
    have hL : σ1.blocks.length = σ.blocks.length := e1.length_expr
    have s1 : StmtStep σ σ1 := e1.stmtStep
    have s5 : StmtStep σ (ifBlocks σ1 el) :=
      StmtStep.createElifBlocks el _ (((s1.createBlock_stmt _ _).createBlock_stmt _ _).createBlock_stmt _ _)
    have hlen5 := ifBlocks_length σ1 el
    have hids := elifIds_bounds el.size (σ1.blocks.length + 3)
    have hlast : σ.blocks.length ≤
        lastBlockOf elseBranch (σ1.blocks.length + 1) (σ1.blocks.length + 2) := by
      unfold lastBlockOf; split <;> omega
    have hnext : σ.blocks.length ≤ nextBlockOf (elifIds (σ1.blocks.length + 3) el.size)
        (lastBlockOf elseBranch (σ1.blocks.length + 1) (σ1.blocks.length + 2)) :=
      nextBlockOf_ge (fun p hp => by have := hids p hp; omega) hlast
    have s6 := (s5.insert (.condBr c σ1.blocks.length
        (nextBlockOf (elifIds (σ1.blocks.length + 3) el.size)
          (lastBlockOf elseBranch (σ1.blocks.length + 1) (σ1.blocks.length + 2))))
        (by intro t ht
            simp only [Inst.targets, List.mem_cons, List.mem_singleton, List.not_mem_nil,
              or_false] at ht
            rcases ht with rfl | rfl
            · omega
            · exact hnext)).setInsertPoint_stmt (b := σ1.blocks.length) (by omega)
        (by rw [insert_length, hlen5]; omega)
    have b7 := visitStmt_step thenBranch _ _ _ h2
    have l7 : (ifBlocks σ1 el).blocks.length ≤ σ7.blocks.length := by
      have := b7.length_stmt
      rw [setInsertPoint_length, insert_length] at this
      exact this
    have s8 := (s6.trans_stmt b7).insert (.br (σ1.blocks.length + 2))
      (by intro t ht; simp [Inst.targets] at ht; omega)
    obtain ⟨s9, l9'⟩ := visitElifs_step el _ _ _ σ _ _ h3 s8
      (by intro p hp
          have := hids p hp
          rw [insert_length]
          omega) hlast (by omega)
    have l9 : (ifBlocks σ1 el).blocks.length ≤ σ9.blocks.length := by
      rw [insert_length] at l9'
      omega
    obtain ⟨s10, l10⟩ := visitElse_step elseBranch _ _ σ _ _ h4 s9 (by omega) (by omega)
      (by omega)
    exact (s10.insertInto_stmt h5).setInsertPoint_stmt (by omega)
      (by rw [insertInto_length h5]; omega)
  | .FnStatement name args returnType body, σ, σ', v, h => by
    obtain ⟨argTypes, σ1, retTy, σ5, σ8, r, σ9, h1, _, h3, h4, h5, h6, _⟩ := visitStmt_fn_ok h
    obtain ⟨he, hb, hi, _, _, hn⟩ := fnArgTypes_ok _ _ _ _ h1
    have s1 : StmtStep σ σ1 := (StmtStep.refl_stmt σ).of_eq_stmt he hb hi hn
    have s5 : StmtStep σ σ5 := (@StmtStep.of_eq_stmt σ σ1 { ((σ1.typeOf returnType).2.createFunction
            { name := name, retTy := retTy, argTys := argTypes, isVarArg := false }).2 with
          mainFunction := some σ1.functions.length } s1 rfl rfl rfl rfl).define h3
    have s7 : StmtStep σ ((σ5.createBlock "entry" (some σ1.functions.length)).2.setInsertPoint
          σ5.blocks.length) :=
      (s5.createBlock_stmt _ _).setInsertPoint_stmt s5.length_stmt (by rw [createBlock_length]; omega)
    have s9 : StmtStep ((σ5.createBlock "entry" (some σ1.functions.length)).2.setInsertPoint
          σ5.blocks.length).pushEnv σ9 :=
      (bindArgs_step _ _ _ _ _ h4).trans_stmt (visitStmt_step body _ _ _ h5)
    exact s7.trans_stmt (s9.scoped h6).1
  | .ReturnStatement e, σ, σ', v, h => by
    obtain ⟨value, σ1, h1, rfl, _⟩ := visitStmt_return_ok h
    exact ((visitExpr_step e _ _ _ h1).stmtStep).insert _ (by intro t ht; simp [Inst.targets] at ht)
  | .WhileStatement cond branch, σ, σ', v, h => by
    obtain ⟨c, σ5, σ7, r, σ8, σ10, h1, h2, h3, h4, _, rfl⟩ := visitStmt_while_ok h
    have s4 : StmtStep σ (whileHead σ) :=
      (((((StmtStep.refl_stmt σ).createBlock_stmt _ _).createBlock_stmt _ _).createBlock_stmt _ _).insert _
        (by intro t ht; simp [Inst.targets] at ht; omega)).setInsertPoint_stmt (Nat.le_refl _)
        (by simp only [insert_length, createBlock_length]; omega)
    have hl4 : (whileHead σ).blocks.length = σ.blocks.length + 3 := by
      simp [whileHead, setInsertPoint_length, insert_length, createBlock_length]
    have e5 := visitExpr_step cond _ _ _ h1
    have hl5 : σ5.blocks.length = σ.blocks.length + 3 := by rw [e5.length_expr, hl4]
    have s7 := ((s4.expr e5).insert (.condBr c (σ.blocks.length + 1) (σ.blocks.length + 2))
      (by intro t ht
          simp only [Inst.targets, List.mem_cons, List.mem_singleton, List.not_mem_nil,
            or_false] at ht
          rcases ht with rfl | rfl <;> omega)).insertInto_stmt h2
    have hl7 : σ7.blocks.length = σ.blocks.length + 3 := by
      rw [insertInto_length h2, insert_length, hl5]
    have b8 := visitStmt_step branch _ _ _ h3
    have hl8 : σ.blocks.length + 3 ≤ σ8.blocks.length := by
      have := b8.length_stmt
      rw [setInsertPoint_length, hl7] at this
      exact this
    have s8 := (s7.setInsertPoint_stmt (b := σ.blocks.length + 1) (by omega) (by omega)).trans_stmt b8
    have s10 := (s8.insert (.br σ.blocks.length)
      (by intro t ht; simp [Inst.targets] at ht; omega)).insertInto_stmt h4
    exact s10.setInsertPoint_stmt (by omega) (by rw [insertInto_length h4, insert_length]; omega)
theorem visitStmts_step : ∀ (ss : StmtList) (σ σ' : State),
    visitStmts ss σ = .ok σ' → StmtStep σ σ'
  | .nil, σ, σ', h => by
    rw [visitStmts] at h
    cases h
    exact StmtStep.refl_stmt _
  | .cons s rest, σ, σ', h => by
    obtain ⟨r, σ1, h1, h2⟩ := visitStmts_cons_ok h
    exact (visitStmt_step s _ _ _ h1).trans_stmt (visitStmts_step rest _ _ h2)
theorem visitElifs_step : ∀ (el : ElifList) (ids : List (Nat × Nat)) (last merge : Nat)
    (σ0 σ σ' : State), visitElifs el ids last merge σ = .ok σ' → StmtStep σ0 σ →
    (∀ p ∈ ids, σ0.blocks.length ≤ p.1 ∧ p.1 < σ.blocks.length ∧
      σ0.blocks.length ≤ p.2 ∧ p.2 < σ.blocks.length) →
    σ0.blocks.length ≤ last → σ0.blocks.length ≤ merge →
    StmtStep σ0 σ' ∧ σ.blocks.length ≤ σ'.blocks.length
  | .nil, ids, last, merge, σ0, σ, σ', h, hs, _, _, _ => by
    simp only [visitElifs] at h
    cases h
    exact ⟨hs, Nat.le_refl _⟩
  | .cons cond branch rest, [], last, merge, σ0, σ, σ', h, hs, _, _, _ => by
    simp only [visitElifs] at h
    cases h
  | .cons cond branch rest, (block, codeBlock) :: ids, last, merge, σ0, σ, σ', h, hs, hids,
      hlast, hmerge => by
    obtain ⟨σ1, c, σ2, σ4, r, σ5, h1, h2, h3, h4, h5⟩ := visitElifs_cons_ok h
    have hb := hids (block, codeBlock) (List.mem_cons_self _ _)
    simp only at hb
    have hl1 := insertInto_length h1
    have e2 := visitExpr_step cond _ _ _ h2
    have hl2 : σ2.blocks.length = σ.blocks.length := by
      rw [e2.length_expr, setInsertPoint_length, hl1]
    have hl4 : σ4.blocks.length = σ.blocks.length := by
      rw [insertInto_length h3, insert_length, hl2]
    have b5 := visitStmt_step branch _ _ _ h4
    have hl5 : σ.blocks.length ≤ σ5.blocks.length := by
      have := b5.length_stmt
      rw [setInsertPoint_length, hl4] at this
      exact this
    have hnext : σ0.blocks.length ≤ nextBlockOf ids last :=
      nextBlockOf_ge (fun p hp => (hids p (List.mem_cons_of_mem _ hp)).1) hlast
    have s2 := ((hs.insertInto_stmt h1).setInsertPoint_stmt (b := block) hb.1 (by omega)).expr e2
    have s4 := ((s2.insert (.condBr c codeBlock (nextBlockOf ids last))
      (by intro t ht
          simp only [Inst.targets, List.mem_cons, List.mem_singleton, List.not_mem_nil,
            or_false] at ht
          rcases ht with rfl | rfl
          · exact hb.2.2.1
          · exact hnext)).insertInto_stmt h3).setInsertPoint_stmt (b := codeBlock) hb.2.2.1 (by omega)
    have s6 := (s4.trans_stmt b5).insert (.br merge)
      (by intro t ht; simp [Inst.targets] at ht; omega)
    obtain ⟨s7, l7⟩ := visitElifs_step rest ids last merge σ0 _ _ h5 s6
      (by intro p hp
          have := hids p (List.mem_cons_of_mem _ hp)
          rw [insert_length]
          omega) hlast hmerge
    rw [insert_length] at l7
    exact ⟨s7, by omega⟩
theorem visitElse_step : ∀ (e : OptStatement) (elseBlock merge : Nat) (σ0 σ σ' : State),
    visitElse e elseBlock merge σ = .ok σ' → StmtStep σ0 σ →
    σ0.blocks.length ≤ elseBlock → elseBlock < σ.blocks.length →
    σ0.blocks.length ≤ merge → StmtStep σ0 σ' ∧ σ.blocks.length ≤ σ'.blocks.length
  | .none, _, _, σ0, σ, σ', h, hs, _, _, _ => by
    simp only [visitElse] at h
    cases h
    exact ⟨hs, Nat.le_refl _⟩
  | .some s, elseBlock, merge, σ0, σ, σ', h, hs, he, hv, hm => by
    obtain ⟨σ1, r, σ2, h1, h2, rfl⟩ := visitElse_some_ok h
    have b2 := visitStmt_step s _ _ _ h2
    have l2 := b2.length_stmt
    rw [setInsertPoint_length, insertInto_length h1] at l2
    exact ⟨((((hs.insertInto_stmt h1).setInsertPoint_stmt (b := elseBlock) he
      (by rw [insertInto_length h1]; exact hv)).trans_stmt b2).insert (.br merge)
      (by intro t ht; simp [Inst.targets] at ht; omega)), by rw [insert_length]; exact l2⟩
end

theorem visitStmts_append : ∀ (a b : StmtList) (σ : State),
    visitStmts (a.append b) σ = (visitStmts a σ >>= visitStmts b)
  | .nil, b, σ => rfl
  | .cons s rest, b, σ => by
    simp only [StmtList.append]
    rw [visitStmts, visitStmts]
    cases h : visitStmt s σ with
    | error e => rfl
    | ok p =>
      simp only [ok_bind]
      exact visitStmts_append rest b p.2

/-! ## C7: scopes are pushed and popped in pairs -/

/-- C7. After the visit of any statement, in any state, the current scope frame is the frame that
was current before: the chain of frames has the same depth and the same enclosing frames, and
every name the current frame bound before the visit is still bound in it; the visit can only have
added or rebound names of that frame. -/
theorem C7_scope_frame_restored (s : Statement) (σ σ1 : State) (v : Value)
    (h : visitStmt s σ = .ok (v, σ1)) :
    σ1.env.length = σ.env.length ∧ σ1.env.tail = σ.env.tail ∧
    ∀ f f1 name, σ.env.head? = some f → σ1.env.head? = some f1 →
      f.find name ≠ none → f1.find name ≠ none := by
  have hs := (visitStmt_step s σ σ1 v h).frames
  rcases hs with ⟨h0, h1⟩ | ⟨f, f1, rest, h0, h1, hf⟩
  · rw [h0, h1]
    exact ⟨rfl, rfl, fun f f1 name hf => by cases hf⟩
  · rw [h0, h1]
    refine ⟨rfl, rfl, ?_⟩
    intro g g1 name hg hg1 hn
    simp only [List.head?_cons, Option.some.injEq] at hg hg1
    subst hg hg1
    exact hf name hn

/-- Witness of C7: the block `{ let x: i32 = 1; return x; }`, which contains a return, visited
after `fn main() -> i32 { }`, that is with the builder in the entry block of `main`. -/
theorem C7_scope_frame_restored_witness :
    visitStmt letReturnBlock State.inMain =
      .ok (okOr (visitStmt letReturnBlock State.inMain) (.null, State.inMain)) ∧
    (okOr (visitStmt letReturnBlock State.inMain) (.null, State.inMain)).2.env.length
      = State.inMain.env.length ∧
    (okOr (visitStmt letReturnBlock State.inMain) (.null, State.inMain)).2.env.tail
      = State.inMain.env.tail :=
  ⟨rfl, (C7_scope_frame_restored letReturnBlock State.inMain _ _ rfl).1,
    (C7_scope_frame_restored letReturnBlock State.inMain _ _ rfl).2.1⟩

theorem visitStmts_let_last {x : String} {T : TokenTypes} {e : Expression} {σ σ1 : State}
    (h : visitStmts (.cons (.LetStatement x T e) .nil) σ = .ok σ1) :
    ∃ a ty f rest, σ.nextId ≤ a ∧ σ.env = f :: rest ∧
      σ1.env = f.define x (.inst a (.ptr ty)) :: rest := by
  obtain ⟨r, σ', h1, h2⟩ := visitStmts_cons_ok h
  rw [visitStmts] at h2
  cases h2
  obtain ⟨value, s1, ty, s2, al, s3, st, s4, h3, _, h5, h6, h7, h8⟩ := visitStmt_let_ok h1
  have e1 := visitExpr_step e _ _ _ h3
  have e2 := createIntCast_step h5
  obtain ⟨f, rest, he, rfl⟩ := define_ok h8
  have hen : s2.env = σ.env := by rw [e2.env_expr, e1.env_expr]; rfl
  have hn : σ.nextId ≤ s2.nextId := Nat.le_trans e1.ids e2.ids
  obtain ⟨_, hal⟩ := createAlloca_ok h6
  have hal1 : al = .inst s2.nextId (.ptr ty) := congrArg Prod.fst hal
  subst hal1
  refine ⟨s2.nextId, ty, f, rest, hn, ?_, rfl⟩
  rw [← hen, ← (let_tail_step h6 h7).env_expr]
  exact he

theorem StmtList.append_assoc : ∀ (a b c : StmtList),
    (a.append b).append c = a.append (b.append c)
  | .nil, _, _ => rfl
  | .cons s rest, b, c => by
    simp only [StmtList.append]
    rw [StmtList.append_assoc rest b c]

theorem get_of_find {f : Frame} {rest : List Frame} {x : String} {v : Value}
    (h : f.find x = some v) : Environment.get (f :: rest) x = .ok v := by
  simp [Environment.get, lookupChain, h]

/-- What holds in the pushed scope once `pre` and then `let x` have been visited, and after any
further statements `more` of the same block. -/
theorem inner_binding {x : String} {T : TokenTypes} {e : Expression} {pre more : StmtList}
    {σ σm : State}
    (h : visitStmts ((pre.append (.cons (.LetStatement x T e) .nil)).append more) σ.pushEnv
      = .ok σm) :
    ∃ σ1 a ty f,
      visitStmts (pre.append (.cons (.LetStatement x T e) .nil)) σ.pushEnv = .ok σ1 ∧
      σ.nextId ≤ a ∧
      σ1.env = f :: σ.env ∧ f.find x = some (.inst a (.ptr ty)) ∧
      ∃ fm inner, σm.env = fm :: σ.env ∧ fm.find x = some inner := by
  rw [visitStmts_append] at h
  obtain ⟨σ1, h1, h2⟩ := bind_ok.mp h
  have h1' := h1
  rw [visitStmts_append] at h1
  obtain ⟨σp, hp, hl⟩ := bind_ok.mp h1
  have sp := visitStmts_step pre _ _ hp
  obtain ⟨a, ty, f, rest, ha, hpe, h1e⟩ := visitStmts_let_last hl
  have hrest : rest = σ.env := by
    rcases sp.frames with ⟨h0, _⟩ | ⟨g, g1, rest', hg, hg1, _⟩
    · cases h0
    · rw [hpe] at hg1
      obtain ⟨_, rfl⟩ := List.cons.inj hg1
      exact (List.cons.inj hg).2.symm
  subst hrest
  refine ⟨σ1, a, ty, _, h1', Nat.le_trans sp.ids ha, h1e, find_define _ _ _, ?_⟩
  have sm := visitStmts_step more _ _ h2
  rcases sm.frames with ⟨h0, _⟩ | ⟨g, g1, rest', hg, hg1, hk⟩
  · rw [h1e] at h0; cases h0
  · rw [h1e] at hg
    obtain ⟨rfl, rfl⟩ := List.cons.inj hg
    have := hk x (by rw [find_define]; simp)
    cases hf : g1.find x with
    | none => exact absurd hf this
    | some inner => exact ⟨g1, inner, hg1, hf⟩

/-! ## C6: shadowing -/

/-- C6. Let `x` be bound to `outer` when a block that contains `let x` is visited. Right after
that `let`, `x` resolves to the alloca the `let` created, a location with a fresh number and
different from `outer`, and a `VarExpression x` loads from it; after any further statements of
the block, `x` still resolves in the frame of the block; once the block has been left, the scope
is the one from before the block, `x` resolves to `outer`, and a `VarExpression x` loads from
`outer`. -/
theorem C6_shadowing (x : String) (T : TokenTypes) (e : Expression) (pre post : StmtList)
    (σ σ2 : State) (outer r : Value)
    (hout : Environment.get σ.env x = .ok outer)
    (hold : ∀ k ty, outer = .inst k ty → k < σ.nextId)
    (h : visitStmt (.BlockStatement (pre.append (.cons (.LetStatement x T e) post))) σ
      = .ok (r, σ2)) :
    (∃ σ1 a ty,
      visitStmts (pre.append (.cons (.LetStatement x T e) .nil)) σ.pushEnv = .ok σ1 ∧
      σ.nextId ≤ a ∧ Value.inst a (.ptr ty) ≠ outer ∧
      Environment.get σ1.env x = .ok (.inst a (.ptr ty)) ∧
      visitExpr (.VarExpression x) σ1 = createLoad (.inst a (.ptr ty)) σ1) ∧
    (∀ more σm,
      visitStmts ((pre.append (.cons (.LetStatement x T e) .nil)).append more) σ.pushEnv
        = .ok σm →
      ∃ fm inner, σm.env = fm :: σ.env ∧ fm.find x = some inner ∧
        visitExpr (.VarExpression x) σm = createLoad inner σm) ∧
    σ2.env = σ.env ∧
    Environment.get σ2.env x = .ok outer ∧
    visitExpr (.VarExpression x) σ2 = createLoad outer σ2 := by
  obtain ⟨σb, hb, hpop, _⟩ := visitStmt_block_ok h
  have hsplit : pre.append (.cons (.LetStatement x T e) post) =
      (pre.append (.cons (.LetStatement x T e) .nil)).append post := by
    rw [StmtList.append_assoc]; rfl
  rw [hsplit] at hb
  obtain ⟨σ1, a, ty, f, h1, ha, h1e, hfx, _⟩ := inner_binding hb
  have henv2 : σ2.env = σ.env := ((visitStmts_step _ _ _ hb).scoped hpop).2
  refine ⟨⟨σ1, a, ty, h1, ha, ?_, ?_, ?_⟩, ?_, henv2, by rw [henv2]; exact hout, ?_⟩
  · intro hc
    have := hold a (.ptr ty) hc.symm
    omega
  · rw [h1e]; exact get_of_find hfx
  · rw [visitExpr_var, h1e, get_of_find hfx]; rfl
  · intro more σm hm
    obtain ⟨_, _, _, _, _, _, _, _, fm, inner, hme, hmf⟩ := inner_binding hm
    exact ⟨fm, inner, hme, hmf, by rw [visitExpr_var, hme, get_of_find hmf]; rfl⟩
  · rw [visitExpr_var, henv2, hout]; rfl

/-- Witness of C6: after `fn main() -> i32 { }` and `let x: i64 = 1;` the block
`{ let x: i8 = 2; }` is visited; the builder is in the entry block of `main`. -/
theorem C6_shadowing_witness :
    Environment.get State.withOuterX.env "x" = .ok (.inst 0 (.ptr (.int 64))) ∧
    visitStmt (.BlockStatement (.cons (.LetStatement "x" .I8 (.IntExpression 2)) .nil))
        State.withOuterX =
      .ok (okOr (visitStmt (.BlockStatement (.cons (.LetStatement "x" .I8 (.IntExpression 2))
        .nil)) State.withOuterX) (.null, State.inMain)) ∧
    Environment.get (okOr (visitStmt (.BlockStatement (.cons (.LetStatement "x" .I8
      (.IntExpression 2)) .nil)) State.withOuterX) (.null, State.inMain)).2.env "x"
      = .ok (.inst 0 (.ptr (.int 64))) :=
  ⟨rfl, rfl, (C6_shadowing "x" .I8 (.IntExpression 2) .nil .nil State.withOuterX _
    (.inst 0 (.ptr (.int 64))) _ rfl
    (by intro k ty hk; cases hk; decide) rfl).2.2.2.1⟩

/-! ## C9: the blocks of a `while` -/

theorem instsAt_createBlock (σ : State) (n : String) (p : Option Nat) (i : Nat) :
    instsAt (σ.createBlock n p).2.blocks i = instsAt σ.blocks i :=
  instsAt_append_new σ.blocks n p i

theorem instsAt_insertInto {σ σ1 : State} {b : Nat} (h : σ.insertInto b = .ok σ1) (i : Nat) :
    instsAt σ1.blocks i = instsAt σ.blocks i := by
  obtain ⟨f, _, rfl⟩ := insertInto_ok h
  exact instsAt_setParent _ _ _ _

theorem insertInto_insertPoint {σ σ1 : State} {b : Nat} (h : σ.insertInto b = .ok σ1) :
    σ1.insertPoint = σ.insertPoint := by
  obtain ⟨f, _, rfl⟩ := insertInto_ok h
  rfl

theorem instsAt_insert_at (σ : State) (inst : Inst) {b : Nat}
    (hb : σ.insertPoint = some b) (hl : b < σ.blocks.length) :
    instsAt (σ.insert inst).blocks b = instsAt σ.blocks b ++ [inst] :=
  instsAt_appendCode σ [inst] b hb hl

theorem instsAt_insert_other (σ : State) (inst : Inst) {i : Nat}
    (hb : σ.insertPoint ≠ some i) :
    instsAt (σ.insert inst).blocks i = instsAt σ.blocks i :=
  instsAt_appendCode_other σ [inst] i hb

theorem insert_insertPoint (σ : State) (inst : Inst) :
    (σ.insert inst).insertPoint = σ.insertPoint := appendCode_insertPoint σ [inst]

theorem whileHead_length (σ : State) : (whileHead σ).blocks.length = σ.blocks.length + 3 := by
  simp only [whileHead, setInsertPoint_length, insert_length, createBlock_length]

theorem whileHead_insertPoint (σ : State) :
    (whileHead σ).insertPoint = some σ.blocks.length := rfl

theorem whileHead_at {σ : State} {b : Nat} (hb : σ.insertPoint = some b)
    (hl : b < σ.blocks.length) :
    instsAt (whileHead σ).blocks b = instsAt σ.blocks b ++ [.br σ.blocks.length] := by
  have h3 : (((σ.createBlock "loop" σ.mainFunction).2.createBlock "loopBody" none).2.createBlock
      "afterloop" none).2.insertPoint = some b := hb
  unfold whileHead
  show instsAt (State.insert _ _).blocks b = _
  rw [instsAt_insert_at _ _ h3 (by simp only [createBlock_length]; omega)]
  simp only [instsAt_createBlock]

theorem whileHead_other {σ : State} {i : Nat} (hb : σ.insertPoint ≠ some i) :
    instsAt (whileHead σ).blocks i = instsAt σ.blocks i := by
  have h3 : (((σ.createBlock "loop" σ.mainFunction).2.createBlock "loopBody" none).2.createBlock
      "afterloop" none).2.insertPoint ≠ some i := hb
  unfold whileHead
  show instsAt (State.insert _ _).blocks i = _
  rw [instsAt_insert_other _ _ h3]
  simp only [instsAt_createBlock]

/-- C9. A successful visit of a `while` from a state whose insertion block `b` exists and whose
branches all go to existing blocks: block `b` gets an unconditional branch to a new block, the
test block; the test block holds the code of the condition followed by a conditional branch on
its value to the body block (true) and the after-loop block (false); the body is generated from
the empty body block, and the block in which its generation ends gets an unconditional branch to
the test block as its last instruction; the insertion point after the visit is the after-loop
block, which is empty, and the only block with a branch to it is the test block. -/
theorem C9_while_wiring (cond : Expression) (branch : Statement) (σ σ' : State) (v : Value)
    (b : Nat)
    (h : visitStmt (.WhileStatement cond branch) σ = .ok (v, σ'))
    (hb : σ.insertPoint = some b) (hbl : b < σ.blocks.length)
    (hwf : ∀ i inst t, inst ∈ instsAt σ.blocks i → t ∈ inst.targets → t < σ.blocks.length) :
    instsAt σ'.blocks b = instsAt σ.blocks b ++ [.br σ.blocks.length] ∧
    (∃ c σ5 condCode, visitExpr cond (whileHead σ) = .ok (c, σ5) ∧
      Emits (whileHead σ) condCode σ5 ∧ Plain condCode ∧
      instsAt σ'.blocks σ.blocks.length =
        condCode ++ [.condBr c (σ.blocks.length + 1) (σ.blocks.length + 2)]) ∧
    (∃ σ7 r σ8 e, σ7.insertPoint = some (σ.blocks.length + 1) ∧
      instsAt σ7.blocks (σ.blocks.length + 1) = [] ∧
      visitStmt branch σ7 = .ok (r, σ8) ∧ σ8.insertPoint = some e ∧
      instsAt σ'.blocks e = instsAt σ8.blocks e ++ [.br σ.blocks.length]) ∧
    σ'.insertPoint = some (σ.blocks.length + 2) ∧
    instsAt σ'.blocks (σ.blocks.length + 2) = [] ∧
    (∀ i inst, inst ∈ instsAt σ'.blocks i → (σ.blocks.length + 2) ∈ inst.targets →
      i = σ.blocks.length) := by
  obtain ⟨c, σ5, σ7, r, σ8, σ10, h1, h2, h3, h4, _, rfl⟩ := visitStmt_while_ok h
  -- the state in front of the condition
  have hne_b : ∀ i, i ≠ b → (σ.insertPoint ≠ some i) := by
    intro i hi hc; rw [hb] at hc; exact hi (Option.some.inj hc).symm
  have hl4 := whileHead_length σ
  -- the condition
  obtain ⟨code, hem, hplain⟩ := visitExpr_step cond _ _ _ h1
  have hl5 : σ5.blocks.length = σ.blocks.length + 3 := by rw [hem.length_emits, hl4]
  have hip5 : σ5.insertPoint = some σ.blocks.length := by
    rw [hem.insertPoint_emits]; rfl
  have h5L : instsAt σ5.blocks σ.blocks.length = code := by
    rw [hem.code_at (whileHead_insertPoint σ) (by omega),
      whileHead_other (hne_b _ (by omega)), instsAt_ge (Nat.le_refl _)]
    rfl
  have h5o : ∀ i, i ≠ σ.blocks.length → instsAt σ5.blocks i = instsAt (whileHead σ).blocks i := by
    intro i hi
    exact hem.code_other (by
      rw [whileHead_insertPoint]; intro hc; exact hi (Option.some.inj hc).symm)
  -- the conditional branch
  have h7L : instsAt σ7.blocks σ.blocks.length =
      code ++ [.condBr c (σ.blocks.length + 1) (σ.blocks.length + 2)] := by
    rw [instsAt_insertInto h2, instsAt_insert_at _ _ hip5 (by omega), h5L]
  have h7o : ∀ i, i ≠ σ.blocks.length → instsAt σ7.blocks i = instsAt (whileHead σ).blocks i := by
    intro i hi
    rw [instsAt_insertInto h2, instsAt_insert_other _ _ (by
      rw [hip5]; intro hc; exact hi (Option.some.inj hc).symm), h5o i hi]
  have hl7 : σ7.blocks.length = σ.blocks.length + 3 := by
    rw [insertInto_length h2, insert_length, hl5]
  -- the body
  have b8 := visitStmt_step branch _ _ _ h3
  have hl8 : σ.blocks.length + 3 ≤ σ8.blocks.length := by
    have := b8.length_stmt
    rw [setInsertPoint_length, hl7] at this
    exact this
  have h8frame : ∀ i, i < σ.blocks.length + 3 → i ≠ σ.blocks.length + 1 →
      instsAt σ8.blocks i = instsAt σ7.blocks i := by
    intro i hi hne
    exact b8.code.frame i (by rw [setInsertPoint_length, hl7]; exact hi)
      (by intro hc; exact hne (Option.some.inj hc).symm)
  have hv8 := b8.code.valid (by
    intro x hx
    simp only [State.setInsertPoint, Option.some.injEq] at hx
    subst hx
    rw [setInsertPoint_length, hl7]; omega)
  obtain ⟨e, hip8, he3⟩ : ∃ e, σ8.insertPoint = some e ∧ σ.blocks.length + 1 ≤ e := by
    rcases b8.code.ip with hc | ⟨e, he, hge⟩
    · exact ⟨σ.blocks.length + 1, hc, Nat.le_refl _⟩
    · rw [setInsertPoint_length, hl7] at hge
      exact ⟨e, he, by omega⟩
  have hev : e < σ8.blocks.length := hv8 e hip8
  have he2 : e ≠ σ.blocks.length + 2 := by
    rcases b8.code.ip with hc | ⟨e', he', hge⟩
    · rw [hip8] at hc
      simp only [State.setInsertPoint, Option.some.injEq] at hc
      omega
    · rw [setInsertPoint_length, hl7] at hge
      rw [hip8] at he'
      have := Option.some.inj he'
      omega
  -- the state after the visit
  have hfin_at : instsAt (σ10.setInsertPoint (σ.blocks.length + 2)).blocks e =
      instsAt σ8.blocks e ++ [.br σ.blocks.length] := by
    show instsAt σ10.blocks e = _
    rw [instsAt_insertInto h4, instsAt_insert_at _ _ hip8 hev]
  have hfin_o : ∀ i, i ≠ e → instsAt (σ10.setInsertPoint (σ.blocks.length + 2)).blocks i =
      instsAt σ8.blocks i := by
    intro i hi
    show instsAt σ10.blocks i = _
    rw [instsAt_insertInto h4, instsAt_insert_other _ _ (by
      rw [hip8]; intro hc; exact hi (Option.some.inj hc).symm)]
  refine ⟨?_, ⟨c, σ5, code, h1, hem, hplain, ?_⟩,
    ⟨σ7.setInsertPoint (σ.blocks.length + 1), r, σ8, e, rfl, ?_, h3, hip8, hfin_at⟩, rfl, ?_, ?_⟩
  · rw [hfin_o b (by omega), h8frame b (by omega) (by omega), h7o b (by omega),
      whileHead_at hb hbl]
  · rw [hfin_o _ (by omega), h8frame _ (by omega) (by omega), h7L]
  · show instsAt σ7.blocks (σ.blocks.length + 1) = []
    rw [h7o _ (by omega), whileHead_other (hne_b _ (by omega)), instsAt_ge (by omega)]
  · rw [hfin_o _ (fun hc => he2 hc.symm), h8frame _ (by omega) (by omega), h7o _ (by omega),
      whileHead_other (hne_b _ (by omega)), instsAt_ge (by omega)]
  · intro i inst hin ht
    have hin8 : inst ∈ instsAt σ8.blocks i := by
      by_cases hie : i = e
      · subst hie
        rw [hfin_at] at hin
        rcases List.mem_append.mp hin with h' | h'
        · exact h'
        · simp only [List.mem_singleton] at h'
          subst h'
          simp [Inst.targets] at ht
      · rw [hfin_o i hie] at hin
        exact hin
    have hin7 : inst ∈ instsAt σ7.blocks i := by
      rcases b8.code.targets i inst _ hin8 ht with h' | h'
      · exact h'
      · rw [setInsertPoint_length, hl7] at h'
        omega
    by_contra hne
    rw [h7o i hne] at hin7
    by_cases hib : i = b
    · subst hib
      rw [whileHead_at hb hbl] at hin7
      rcases List.mem_append.mp hin7 with h' | h'
      · have := hwf _ inst _ h' ht
        omega
      · simp only [List.mem_singleton] at h'
        subst h'
        simp [Inst.targets] at ht
    · rw [whileHead_other (hne_b i hib)] at hin7
      have := hwf _ inst _ hin7 ht
      omega

/-- Witness of C9: `while 1 < 2 { }` inside `fn main`. -/
theorem C9_while_wiring_witness :
    visitStmt loopForever State.inMain =
      .ok (okOr (visitStmt loopForever State.inMain) (.null, State.start)) ∧
    State.inMain.insertPoint = some 1 ∧
    instsAt (okOr (visitStmt loopForever State.inMain) (.null, State.start)).2.blocks 1 =
      instsAt State.inMain.blocks 1 ++ [.br 2] ∧
    (okOr (visitStmt loopForever State.inMain) (.null, State.start)).2.insertPoint = some 4 := by
  have hno : ∀ i, instsAt State.inMain.blocks i = [] := by
    intro i
    match i with
    | 0 => rfl
    | 1 => rfl
    | n + 2 => rfl
  have h := C9_while_wiring ltOneTwo (.BlockStatement .nil) State.inMain _ _ 1 rfl rfl
    (by decide) (by intro i inst t hin; rw [hno i] at hin; cases hin)
  exact ⟨rfl, rfl, h.1, h.2.2.2.1⟩

/-! ## C10: the module handed to the backend -/

/-- C10, the code at the failing input. For the program `fn f() -> i32 { return 1; }`, whose only
function returns on every path, `compile` hands over a module in which the entry block of `f`
holds `ret` followed by `ret void`, two terminators. For the empty program the `ret void` is
emitted into the block `setup` created, which belongs to no function. Neither module is well
formed. -/
theorem C10_module_not_well_formed :
    failureOf (compile State.initial (.cons returnOne .nil)) = none ∧
    instsAt (okOr (compile State.initial (.cons returnOne .nil)) State.initial).blocks 1 =
      [.ret (.constInt 64 1), .retVoid] ∧
    moduleWellFormed (okOr (compile State.initial (.cons returnOne .nil)) State.initial)
      = false ∧
    (okOr (compile State.initial .nil) State.initial).blocks =
      [{ name := "entry", parent := none, insts := [.retVoid] }] ∧
    moduleWellFormed (okOr (compile State.initial .nil) State.initial) = false := by
  refine ⟨rfl, rfl, ?_, rfl, ?_⟩ <;> decide

/-! ## Walks through the generated code -/

theorem runCfg_add (B : List BasicBlock) (truth : Value → Bool) (w : List Nat) :
    ∀ (n m : Nat) (c c1 c2 : Config), runCfg B truth w n c = some c1 →
      runCfg B truth w m c1 = some c2 → runCfg B truth w (n + m) c = some c2
  | 0, m, c, c1, c2, h1, h2 => by
    simp only [runCfg, Option.some.injEq] at h1
    subst h1
    simpa using h2
  | n + 1, m, c, c1, c2, h1, h2 => by
    have e : n + 1 + m = (n + m) + 1 := by omega
    rw [e]
    simp only [runCfg] at h1 ⊢
    cases hs : stepCfg B truth w c with
    | none => rw [hs] at h1; cases h1
    | some c' =>
      rw [hs] at h1
      simp only
      exact runCfg_add B truth w n m c' c1 c2 h1 h2

theorem Runs.rfl_runs (B : List BasicBlock) (truth : Value → Bool) (w : List Nat) (b p : Nat) :
    Runs B truth w b p b p [] := by
  intro entered
  exact ⟨0, by simp [runCfg]⟩

theorem Runs.then_runs {B : List BasicBlock} {truth : Value → Bool} {w : List Nat}
    {b p b1 p1 b2 p2 : Nat} {n1 n2 : List Nat}
    (h1 : Runs B truth w b p b1 p1 n1) (h2 : Runs B truth w b1 p1 b2 p2 n2) :
    Runs B truth w b p b2 p2 (n1 ++ n2) := by
  intro entered
  obtain ⟨k1, e1⟩ := h1 entered
  obtain ⟨k2, e2⟩ := h2 (entered ++ n1)
  refine ⟨k1 + k2, ?_⟩
  rw [List.append_assoc] at e2
  exact runCfg_add B truth w k1 k2 _ _ _ e1 e2

theorem Grows.rfl_grows (B : List BasicBlock) : Grows B B := fun _ => ⟨[], by simp⟩

theorem Grows.then_grows {B B1 B2 : List BasicBlock} (h1 : Grows B B1) (h2 : Grows B1 B2) :
    Grows B B2 := by
  intro i
  obtain ⟨c1, e1⟩ := h1 i
  obtain ⟨c2, e2⟩ := h2 i
  exact ⟨c1 ++ c2, by rw [e2, e1, List.append_assoc]⟩

theorem getElem?_grows {B B1 : List BasicBlock} (h : Grows B B1) {i p : Nat} {inst : Inst}
    (hp : (instsAt B i)[p]? = some inst) : (instsAt B1 i)[p]? = some inst := by
  obtain ⟨code, e⟩ := h i
  rw [e]
  have hlt : p < (instsAt B i).length := by
    by_contra hc
    rw [List.getElem?_eq_none (by omega)] at hp
    cases hp
  rw [List.getElem?_append_left hlt]
  exact hp

theorem stepCfg_grows {B B1 : List BasicBlock} (h : Grows B B1) {truth : Value → Bool}
    {w : List Nat} {c c1 : Config} (hs : stepCfg B truth w c = some c1) :
    stepCfg B1 truth w c = some c1 := by
  unfold stepCfg at hs ⊢
  cases hp : (instsAt B c.block)[c.pos]? with
  | none => rw [hp] at hs; cases hs
  | some inst =>
    rw [hp] at hs
    rw [getElem?_grows h hp]
    exact hs

theorem runCfg_grows {B B1 : List BasicBlock} (h : Grows B B1) {truth : Value → Bool}
    {w : List Nat} : ∀ (n : Nat) (c c1 : Config), runCfg B truth w n c = some c1 →
      runCfg B1 truth w n c = some c1
  | 0, c, c1, hr => hr
  | n + 1, c, c1, hr => by
    simp only [runCfg] at hr ⊢
    cases hs : stepCfg B truth w c with
    | none => rw [hs] at hr; cases hr
    | some c' =>
      rw [hs] at hr
      rw [stepCfg_grows h hs]
      exact runCfg_grows h n c' c1 hr

theorem Runs.grows {B B1 : List BasicBlock} {truth : Value → Bool} {w : List Nat}
    {b p b1 p1 : Nat} {new : List Nat} (h : Runs B truth w b p b1 p1 new) (hg : Grows B B1) :
    Runs B1 truth w b p b1 p1 new := by
  intro entered
  obtain ⟨n, e⟩ := h entered
  exact ⟨n, runCfg_grows hg n _ _ e⟩

theorem Runs.step_runs {B : List BasicBlock} {T : Value → Bool} {w : List Nat}
    {b p b1 p1 : Nat} {new : List Nat}
    (h : ∀ entered, stepCfg B T w ⟨b, p, entered⟩ = some ⟨b1, p1, entered ++ new⟩) :
    Runs B T w b p b1 p1 new := by
  intro entered
  exact ⟨1, by simp [runCfg, h entered]⟩

theorem Runs.br_runs {B : List BasicBlock} {T : Value → Bool} {w : List Nat}
    {b p t : Nat} (h : (instsAt B b)[p]? = some (.br t)) :
    Runs B T w b p t 0 (if t ∈ w then [t] else []) := by
  apply Runs.step_runs
  intro entered
  simp only [stepCfg, h, enter]
  split <;> simp

theorem Runs.condBr_runs {B : List BasicBlock} {T : Value → Bool} {w : List Nat}
    {b p t f : Nat} {v : Value} (h : (instsAt B b)[p]? = some (.condBr v t f)) :
    Runs B T w b p (if T v then t else f) 0
      (if (if T v then t else f) ∈ w then [if T v then t else f] else []) := by
  apply Runs.step_runs
  intro entered
  simp only [stepCfg, h, enter]
  generalize (if T v = true then t else f) = d
  split <;> simp

theorem Runs.plain_runs {B : List BasicBlock} {T : Value → Bool} {w : List Nat} {b : Nat} :
    ∀ (code pre post : List Inst), Plain code → instsAt B b = pre ++ code ++ post →
      Runs B T w b pre.length b (pre.length + code.length) []
  | [], pre, post, _, _ => by
    simpa using Runs.rfl_runs B T w b pre.length
  | inst :: rest, pre, post, hp, he => by
    have h1 : Runs B T w b pre.length b (pre.length + 1) [] := by
      apply Runs.step_runs
      intro entered
      have hget : (instsAt B b)[pre.length]? = some inst := by
        rw [he, List.append_assoc, List.getElem?_append_right (Nat.le_refl _)]
        simp
      have hnt := hp inst (List.mem_cons_self _ _)
      simp only [stepCfg, hget]
      cases inst <;> simp [Inst.isTerminator] at hnt <;> simp
    have h2 := Runs.plain_runs (B := B) (T := T) (w := w) (b := b) rest (pre ++ [inst]) post
      (fun i hi => hp i (List.mem_cons_of_mem _ hi)) (by rw [he]; simp)
    have := h1.then_runs (by simpa using h2)
    simpa [Nat.add_assoc, Nat.add_comm 1] using this

theorem grows_insert (σ : State) (i : Inst) : Grows σ.blocks (σ.insert i).blocks := by
  intro m
  rcases instsAt_appendCode_any σ [i] m with e | ⟨_, e⟩
  · exact ⟨[], by rw [State.insert, e]; simp⟩
  · exact ⟨[i], by rw [State.insert, e]⟩

theorem grows_of_insts {B B1 : List BasicBlock} (h : ∀ i, instsAt B1 i = instsAt B i) :
    Grows B B1 := fun i => ⟨[], by rw [h i]; simp⟩

theorem grows_insertInto {σ σ1 : State} {b : Nat} (h : σ.insertInto b = .ok σ1) :
    Grows σ.blocks σ1.blocks := grows_of_insts (instsAt_insertInto h)

theorem StmtStep.grows_stmt {σ σ1 : State} (h : StmtStep σ σ1) : Grows σ.blocks σ1.blocks :=
  h.code.grow

theorem ExprStep.grows_expr {σ σ1 : State} (h : ExprStep σ σ1) : Grows σ.blocks σ1.blocks :=
  h.stmtStep.grows_stmt

/-- A block that exists and is not the insertion block is left alone by a statement visit. -/
theorem StmtStep.keeps {σ σ1 : State} (h : StmtStep σ σ1) {m : Nat}
    (hm : m < σ.blocks.length) (hip : σ.insertPoint ≠ some m) :
    instsAt σ1.blocks m = instsAt σ.blocks m ∧ σ1.insertPoint ≠ some m := by
  refine ⟨h.code.frame m hm hip, ?_⟩
  rcases h.code.ip with e | ⟨b, e, hb⟩
  · rw [e]; exact hip
  · rw [e]; intro hc; cases hc; omega

theorem ne_some_of_ne {a b : Nat} (h : a ≠ b) : (some a : Option Nat) ≠ some b :=
  fun hc => h (Option.some.inj hc)

theorem visitElifs_keeps : ∀ (el : ElifList) (ids : List (Nat × Nat)) (last merge : Nat)
    (σ σ' : State), visitElifs el ids last merge σ = .ok σ' →
    Grows σ.blocks σ'.blocks ∧ σ.blocks.length ≤ σ'.blocks.length ∧
    ∀ m, m < σ.blocks.length → (∀ p ∈ ids, p.1 ≠ m ∧ p.2 ≠ m) → σ.insertPoint ≠ some m →
      instsAt σ'.blocks m = instsAt σ.blocks m ∧ σ'.insertPoint ≠ some m
  | .nil, ids, last, merge, σ, σ', h => by
    simp only [visitElifs] at h
    cases h
    exact ⟨Grows.rfl_grows _, Nat.le_refl _, fun m _ _ hip => ⟨rfl, hip⟩⟩
  | .cons cond branch rest, [], last, merge, σ, σ', h => by
    simp only [visitElifs] at h
    cases h
  | .cons cond branch rest, (t, c) :: ids, last, merge, σ, σ', h => by
    obtain ⟨σ1, cv, σ2, σ4, r, σ5, h1, h2, h3, h4, h5⟩ := visitElifs_cons_ok h
    have e2 := visitExpr_step cond _ _ _ h2
    have b5 := visitStmt_step branch _ _ _ h4
    obtain ⟨g6, l6, k6⟩ := visitElifs_keeps rest ids last merge _ _ h5
    have hl1 := insertInto_length h1
    have hl2 : σ2.blocks.length = σ.blocks.length := by
      rw [e2.length_expr, setInsertPoint_length, hl1]
    have hl4 : σ4.blocks.length = σ.blocks.length := by
      rw [insertInto_length h3, insert_length, hl2]
    have hl5 : σ.blocks.length ≤ σ5.blocks.length := by
      have := b5.length_stmt
      rw [setInsertPoint_length, hl4] at this
      exact this
    rw [insert_length] at l6
    refine ⟨?_, by omega, ?_⟩
    · exact (((((grows_insertInto h1).then_grows
        (show Grows (σ1.setInsertPoint t).blocks σ2.blocks from e2.grows_expr)).then_grows
        (grows_insert _ _)).then_grows (grows_insertInto h3)).then_grows
        (show Grows (σ4.setInsertPoint c).blocks σ5.blocks from b5.grows_stmt)).then_grows
        ((grows_insert _ _).then_grows g6)
    · intro m hm hids hip
      have hmt := hids (t, c) (List.mem_cons_self _ _)
      simp only at hmt
      obtain ⟨cc, hem, _⟩ := e2
      have hip2 : σ2.insertPoint = some t := by rw [hem.insertPoint_emits]; rfl
      have i2 : instsAt σ2.blocks m = instsAt σ.blocks m := by
        rw [hem.code_other (show (σ1.setInsertPoint t).insertPoint ≠ some m from
          ne_some_of_ne hmt.1)]
        exact instsAt_insertInto h1 m
      have i4 : instsAt σ4.blocks m = instsAt σ.blocks m := by
        rw [instsAt_insertInto h3, instsAt_insert_other _ _ (by rw [hip2]; exact ne_some_of_ne hmt.1),
          i2]
      obtain ⟨i5, p5⟩ := b5.keeps (m := m) (by rw [setInsertPoint_length, hl4]; exact hm)
        (show (σ4.setInsertPoint c).insertPoint ≠ some m from ne_some_of_ne hmt.2)
      have i6 : instsAt (σ5.insert (.br merge)).blocks m = instsAt σ.blocks m := by
        rw [instsAt_insert_other _ _ p5, i5]
        exact i4
      obtain ⟨i7, p7⟩ := k6 m (by rw [insert_length]; omega)
        (fun p hp => hids p (List.mem_cons_of_mem _ hp)) (by rw [insert_insertPoint]; exact p5)
      exact ⟨by rw [i7, i6], p7⟩

theorem visitElse_keeps : ∀ (e : OptStatement) (elseBlock merge : Nat) (σ σ' : State),
    visitElse e elseBlock merge σ = .ok σ' →
    Grows σ.blocks σ'.blocks ∧ σ.blocks.length ≤ σ'.blocks.length ∧
    ∀ m, m < σ.blocks.length → elseBlock ≠ m → σ.insertPoint ≠ some m →
      instsAt σ'.blocks m = instsAt σ.blocks m ∧ σ'.insertPoint ≠ some m
  | .none, _, _, σ, σ', h => by
    simp only [visitElse] at h
    cases h
    exact ⟨Grows.rfl_grows _, Nat.le_refl _, fun m _ _ hip => ⟨rfl, hip⟩⟩
  | .some s, elseBlock, merge, σ, σ', h => by
    obtain ⟨σ1, r, σ2, h1, h2, rfl⟩ := visitElse_some_ok h
    have b2 := visitStmt_step s _ _ _ h2
    have hl1 := insertInto_length h1
    have hl2 : σ.blocks.length ≤ σ2.blocks.length := by
      have := b2.length_stmt
      rw [setInsertPoint_length, hl1] at this
      exact this
    refine ⟨?_, by rw [insert_length]; exact hl2, ?_⟩
    · exact ((grows_insertInto h1).then_grows
        (show Grows (σ1.setInsertPoint elseBlock).blocks σ2.blocks from b2.grows_stmt)).then_grows
        (grows_insert _ _)
    · intro m hm hne hip
      obtain ⟨i2, p2⟩ := b2.keeps (m := m) (by rw [setInsertPoint_length, hl1]; exact hm)
        (show (σ1.setInsertPoint elseBlock).insertPoint ≠ some m from ne_some_of_ne hne)
      refine ⟨?_, by rw [insert_insertPoint]; exact p2⟩
      rw [instsAt_insert_other _ _ p2, i2]
      exact instsAt_insertInto h1 m

/-- States whose code differs by terminator free code appended at the insertion point. -/
theorem runsThrough_of_append {σ σ1 : State} {b : Nat} {w : List Nat} {code : List Inst}
    (hp : Plain code) (hb : σ.insertPoint = some b) (hbl : b < σ.blocks.length)
    (hblocks : σ1.blocks = (σ.appendCode code).blocks) (hip : σ1.insertPoint = σ.insertPoint) :
    RunsThrough σ σ1 b w := by
  have hi : instsAt σ1.blocks b = instsAt σ.blocks b ++ code := by
    rw [hblocks]; exact instsAt_appendCode σ code b hb hbl
  refine ⟨b, by rw [hip, hb], by rw [hblocks, appendCode_length]; exact hbl, ?_⟩
  intro truth
  have := Runs.plain_runs (B := σ1.blocks) (T := truth) (w := w) (b := b) code
    (instsAt σ.blocks b) [] hp (by rw [hi]; simp)
  rw [hi, List.length_append]
  exact this

theorem ExprStep.runsThrough {σ σ1 : State} (h : ExprStep σ σ1) {b : Nat} (w : List Nat)
    (hb : σ.insertPoint = some b) (hbl : b < σ.blocks.length) : RunsThrough σ σ1 b w := by
  obtain ⟨code, hem, hp⟩ := h
  exact runsThrough_of_append hp hb hbl hem.blocks (by rw [hem.insertPoint_emits])

theorem RunsThrough.of_eq {σ σ1 σa σb : State} {b : Nat} {w : List Nat}
    (h : RunsThrough σ σ1 b w) (h1 : σa.blocks = σ.blocks) (h2 : σb.blocks = σ1.blocks)
    (h3 : σb.insertPoint = σ1.insertPoint) : RunsThrough σa σb b w := by
  obtain ⟨b1, hip, hl, hr⟩ := h
  refine ⟨b1, by rw [h3, hip], by rw [h2]; exact hl, ?_⟩
  rw [h1, h2]
  exact hr

theorem RunsThrough.then_through {σ σ1 σ2 : State} {b b1 : Nat} {w : List Nat}
    (h1 : RunsThrough σ σ1 b w) (hb1 : σ1.insertPoint = some b1)
    (h2 : RunsThrough σ1 σ2 b1 w) (hg : Grows σ1.blocks σ2.blocks) : RunsThrough σ σ2 b w := by
  obtain ⟨x, hx, _, hr1⟩ := h1
  rw [hb1] at hx
  obtain rfl := Option.some.inj hx
  obtain ⟨b2, hip2, hl2, hr2⟩ := h2
  refine ⟨b2, hip2, hl2, fun truth => ?_⟩
  simpa using ((hr1 truth).grows hg).then_runs (hr2 truth)

theorem stmtRuns_expression (e : Expression) : StmtRuns (.ExpressionStatement e) := by
  intro σ σ1 v b w h _ hb hbl _
  rw [visitStmt] at h
  exact (visitExpr_step e _ _ _ h).runsThrough w hb hbl

theorem stmtRuns_print (e : Expression) : StmtRuns (.PrintStatement e) := by
  intro σ σ1 v b w h _ hb hbl _
  obtain ⟨value, σ2, fmt, r, h1, _, h3, _⟩ := visitStmt_print_ok h
  exact ((visitExpr_step e _ _ _ h1).trans_expr (createCall_step h3)).runsThrough w hb hbl

theorem stmtRuns_let (name : String) (T : TokenTypes) (e : Expression) :
    StmtRuns (.LetStatement name T e) := by
  intro σ σ1 v b w h _ hb hbl _
  obtain ⟨value, s1, ty, s2, al, s3, st, s4, h1, _, h3, h4, h5, h6⟩ := visitStmt_let_ok h
  have es : ExprStep (σ.typeOf T).2 s4 :=
    ((visitExpr_step e _ _ _ h1).trans_expr (createIntCast_step h3)).trans_expr
      (let_tail_step h4 h5)
  obtain ⟨f, rest, _, rfl⟩ := define_ok h6
  exact (es.runsThrough (b := b) w hb hbl).of_eq rfl rfl rfl

theorem stmtRuns_block {ss : StmtList} (ih : StmtsRuns ss) : StmtRuns (.BlockStatement ss) := by
  intro σ σ1 v b w h hs hb hbl hw
  obtain ⟨s1, h1, h2, _⟩ := visitStmt_block_ok h
  obtain ⟨f, rest, _, rfl⟩ := popEnv_ok h2
  have := ih σ.pushEnv s1 b w h1 (by simpa [Statement.straight] using hs) hb hbl hw
  exact this.of_eq rfl rfl rfl

theorem stmtsRuns_nil : StmtsRuns .nil := by
  intro σ σ1 b w h _ hb hbl _
  rw [visitStmts] at h
  cases h
  exact (ExprStep.refl_expr σ).runsThrough w hb hbl

theorem stmtsRuns_cons {s : Statement} {rest : StmtList} (ih1 : StmtRuns s)
    (ih2 : StmtsRuns rest) : StmtsRuns (.cons s rest) := by
  intro σ σ2 b w h hs hb hbl hw
  obtain ⟨r, σ1, h1, h2⟩ := visitStmts_cons_ok h
  simp only [StmtList.straight, Bool.and_eq_true] at hs
  have r1 := ih1 σ σ1 r b w h1 hs.1 hb hbl hw
  obtain ⟨b1, hip1, hl1, _⟩ := r1
  have l1 := (visitStmt_step s _ _ _ h1).length_stmt
  have r2 := ih2 σ1 σ2 b1 w h2 hs.2 hip1 hl1 (fun x hx => Nat.lt_of_lt_of_le (hw x hx) l1)
  exact (ih1 σ σ1 r b w h1 hs.1 hb hbl hw).then_through hip1 r2
    (visitStmts_step rest _ _ h2).grows_stmt

/-- A straight body generated from the empty block `x`, followed by `br merge`: control passes
from the start of `x` to the merge block. -/
theorem body_then_br {s : Statement} {σa σ2 : State} {r : Value} {x m : Nat} {w : List Nat}
    (ih : StmtRuns s) (hs : s.straight = true) (hv : visitStmt s σa = .ok (r, σ2))
    (hip : σa.insertPoint = some x) (hx : x < σa.blocks.length)
    (hempty : instsAt σa.blocks x = []) (hw : ∀ y ∈ w, y < σa.blocks.length)
    (hwm : m ∉ w) :
    ∀ truth, Runs (σ2.insert (.br m)).blocks truth w x 0 m 0 [] := by
  intro truth
  obtain ⟨e, hipe, hle, hr⟩ := ih σa σ2 r x w hv hs hip hx hw
  have hr1 := (hr truth).grows (grows_insert σ2 (.br m))
  rw [hempty] at hr1
  have hbr : (instsAt (σ2.insert (.br m)).blocks e)[(instsAt σ2.blocks e).length]? =
      some (.br m) := by
    rw [instsAt_insert_at _ _ hipe hle]
    simp
  have hr2 := Runs.br_runs (T := truth) (w := w) hbr
  simp only [hwm, if_false] at hr2
  simpa using hr1.then_runs hr2

theorem elseRuns_none : ElseRuns .none := by
  intro eb merge σ σ1 w _ _ _ _ _ _ hsome
  simp [OptStatement.isSome] at hsome

theorem elseRuns_some {s : Statement} (ih : StmtRuns s) : ElseRuns (.some s) := by
  intro eb merge σ σ' w h hs hl hempty hw hwm _ truth
  obtain ⟨σ1, r, σ2, h1, h2, rfl⟩ := visitElse_some_ok h
  have hl1 := insertInto_length h1
  exact body_then_br ih (by simpa [OptStatement.straight] using hs) h2 rfl
    (by rw [setInsertPoint_length, hl1]; exact hl)
    (by show instsAt σ1.blocks eb = []; rw [instsAt_insertInto h1]; exact hempty)
    (by intro y hy; rw [setInsertPoint_length, hl1]; exact hw y hy) hwm truth

theorem elifIds_succ (K n : Nat) : elifIds K (n + 1) = (K, K + 1) :: elifIds (K + 2) n := rfl

theorem selectBody_mem : ∀ (bodies fb : List Nat) (ts : List Bool) (x : Nat),
    x ∈ selectBody bodies fb ts → x ∈ bodies ∨ x ∈ fb
  | [], fb, ts, x, h => by
    simp only [selectBody] at h
    exact Or.inr h
  | b :: bs, fb, [], x, h => by
    simp only [selectBody] at h
    exact Or.inr h
  | b :: bs, fb, true :: ts, x, h => by
    simp only [selectBody, List.mem_singleton] at h
    exact Or.inl (by rw [h]; exact List.mem_cons_self _ _)
  | b :: bs, fb, false :: ts, x, h => by
    simp only [selectBody] at h
    rcases selectBody_mem bs fb ts x h with h' | h'
    · exact Or.inl (List.mem_cons_of_mem _ h')
    · exact Or.inr h'

theorem elifsRuns_nil : ElifsRuns .nil := by
  intro K last merge σ σ1 w _ _ _ _ _ _ _
  exact ⟨[], rfl, fun i h => by simp [ElifList.size] at h,
    fun truth h => by simp [ElifList.size] at h⟩

theorem elifsRuns_cons {cond : Expression} {branch : Statement} {rest : ElifList}
    (ihb : StmtRuns branch) (ihr : ElifsRuns rest) : ElifsRuns (.cons cond branch rest) := by
  intro K last merge σ σ' w h hs hK hempty hw hwt hwm
  simp only [ElifList.size] at h hK hempty hwt ⊢
  rw [elifIds_succ] at h hwt
  obtain ⟨σ1, cv, σ2, σ4, r, σ5, h1, h2, h3, h4, h5⟩ := visitElifs_cons_ok h
  simp only [ElifList.straight, Bool.and_eq_true] at hs
  -- lengths
  have e2 := visitExpr_step cond _ _ _ h2
  have b5 := visitStmt_step branch _ _ _ h4
  have hl1 := insertInto_length h1
  have hl2 : σ2.blocks.length = σ.blocks.length := by
    rw [e2.length_expr, setInsertPoint_length, hl1]
  have hl4 : σ4.blocks.length = σ.blocks.length := by
    rw [insertInto_length h3, insert_length, hl2]
  have hl5 : σ.blocks.length ≤ σ5.blocks.length := by
    have := b5.length_stmt
    rw [setInsertPoint_length, hl4] at this
    exact this
  -- the test block
  obtain ⟨code, hem, hplain⟩ := e2
  have hip2 : σ2.insertPoint = some K := by rw [hem.insertPoint_emits]; rfl
  have i2K : instsAt σ2.blocks K = code := by
    rw [hem.code_at (b := K) rfl (by rw [setInsertPoint_length, hl1]; omega)]
    show instsAt σ1.blocks K ++ code = code
    rw [instsAt_insertInto h1, (hempty K (Nat.le_refl _) (by omega)).1]
    rfl
  have i3K : instsAt (σ2.insert (.condBr cv (K + 1) (nextBlockOf (elifIds (K + 2) rest.size)
      last))).blocks K = code ++ [.condBr cv (K + 1) (nextBlockOf (elifIds (K + 2) rest.size)
      last)] := by
    rw [instsAt_insert_at _ _ hip2 (by omega), i2K]
  -- blocks other than the test block, up to the code block
  have i4o : ∀ m, m ≠ K → instsAt σ4.blocks m = instsAt σ.blocks m := by
    intro m hm
    rw [instsAt_insertInto h3, instsAt_insert_other _ _ (by rw [hip2]; exact ne_some_of_ne hm.symm),
      hem.code_other (show (σ1.setInsertPoint K).insertPoint ≠ some m from
        ne_some_of_ne hm.symm)]
    exact instsAt_insertInto h1 m
  -- growth up to the final state
  obtain ⟨g6, l6, k6⟩ := visitElifs_keeps rest _ last merge _ _ h5
  have g3 : Grows (σ2.insert (.condBr cv (K + 1) (nextBlockOf (elifIds (K + 2) rest.size)
      last))).blocks σ'.blocks :=
    ((grows_insertInto h3).then_grows
      (show Grows (σ4.setInsertPoint (K + 1)).blocks σ5.blocks from b5.grows_stmt)).then_grows
      ((grows_insert _ _).then_grows g6)
  -- the body
  have hbody := body_then_br (m := merge) ihb hs.1 h4 rfl
    (by rw [setInsertPoint_length, hl4]; omega)
    (by show instsAt σ4.blocks (K + 1) = []
        rw [i4o _ (by omega)]; exact (hempty (K + 1) (by omega) (by omega)).1)
    (by intro y hy; rw [setInsertPoint_length, hl4]; exact hw y hy) hwm
  -- the remaining `ElifStatement`s
  have hkeep : ∀ m, K + 2 ≤ m → m < K + 2 + 2 * rest.size →
      instsAt (σ5.insert (.br merge)).blocks m = [] ∧
      (σ5.insert (.br merge)).insertPoint ≠ some m := by
    intro m hm1 hm2
    obtain ⟨i5, p5⟩ := b5.keeps (m := m) (by rw [setInsertPoint_length, hl4]; omega)
      (show (σ4.setInsertPoint (K + 1)).insertPoint ≠ some m from ne_some_of_ne (by omega))
    refine ⟨?_, by rw [insert_insertPoint]; exact p5⟩
    rw [instsAt_insert_other _ _ p5, i5]
    show instsAt σ4.blocks m = []
    rw [i4o m (by omega)]
    exact (hempty m (by omega) (by omega)).1
  obtain ⟨conds, hcl, htests, hrest⟩ := ihr (K + 2) last merge _ σ' w h5 hs.2
    (by rw [insert_length]; omega) hkeep
    (by intro y hy; rw [insert_length]; exact Nat.lt_of_lt_of_le (hw y hy) hl5)
    (fun p hp => hwt p (List.mem_cons_of_mem _ hp)) hwm
  have hcb : (instsAt σ'.blocks K)[code.length]? =
      some (.condBr cv (K + 1) (nextBlockOf (elifIds (K + 2) rest.size) last)) :=
    getElem?_grows g3 (by rw [i3K]; simp)
  refine ⟨cv :: conds, by simp [hcl], ?_, ?_⟩
  · intro i hi
    match i, hi with
    | 0, _ => exact ⟨code.length, _, hcb⟩
    | j + 1, hj =>
      obtain ⟨p, next, hp⟩ := htests j (by omega)
      refine ⟨p, next, ?_⟩
      have e : K + 2 * (j + 1) = K + 2 + 2 * j := by omega
      rw [e]
      exact hp
  intro truth _
  -- from the start of the test block to its conditional branch
  have hr1 : Runs σ'.blocks truth w K 0 K code.length [] := by
    have := Runs.plain_runs (B := (σ2.insert (.condBr cv (K + 1) (nextBlockOf
      (elifIds (K + 2) rest.size) last))).blocks) (T := truth) (w := w) (b := K) code [] 
      [.condBr cv (K + 1) (nextBlockOf (elifIds (K + 2) rest.size) last)] hplain
      (by rw [i3K]; simp)
    simpa using this.grows g3
  have hr2 := Runs.condBr_runs (T := truth) (w := w) hcb
  have hKw : K ∉ w := hwt (K, K + 1) (List.mem_cons_self _ _)
  cases ht : truth cv with
  | true =>
    simp only [ht, if_true] at hr2
    have hr3 := (hbody truth).grows g6
    have := (hr1.then_runs hr2).then_runs hr3
    simp only [List.map_cons, ht, List.any_cons, id, Bool.true_or, if_true, elifIds_succ,
      selectBody, List.nil_append, List.append_nil] at this ⊢
    by_cases hc : K + 1 ∈ w
    · simpa [hc, List.filter] using this
    · simpa [hc, List.filter] using this
  | false =>
    simp only [ht, Bool.false_eq_true, if_false] at hr2
    simp only [List.map_cons, ht, List.any_cons, id, Bool.false_or, elifIds_succ, List.map_cons,
      selectBody]
    cases hsz : rest.size with
    | zero =>
      have hc0 : conds = [] := List.length_eq_zero.mp (by rw [hcl, hsz])
      subst hc0
      simp only [hsz, elifIds, nextBlockOf, List.map_nil, List.any_nil, Bool.false_eq_true,
        if_false, selectBody] at hr2 ⊢
      have := hr1.then_runs hr2
      by_cases hc : last ∈ w
      · simpa [hc, List.filter] using this
      · simpa [hc, List.filter] using this
    | succ n =>
      have hr4 := hrest truth (by omega)
      rw [hsz] at hr2 hr4
      simp only [elifIds_succ, nextBlockOf] at hr2
      have hK2 : K + 2 ∉ w := by
        have := hwt (K + 2, K + 2 + 1) (by rw [hsz, elifIds_succ]; simp)
        exact this
      simp only [hK2, if_false] at hr2
      simpa using (hr1.then_runs hr2).then_runs hr4

theorem instsAt_createElifBlocks : ∀ (el : ElifList) (σ : State) (m : Nat),
    instsAt (createElifBlocks el σ).2.blocks m = instsAt σ.blocks m
  | .nil, _, _ => rfl
  | .cons _ _ rest, σ, m => by
    simp only [createElifBlocks]
    rw [instsAt_createElifBlocks rest, instsAt_createBlock, instsAt_createBlock]

theorem createElifBlocks_insertPoint : ∀ (el : ElifList) (σ : State),
    (createElifBlocks el σ).2.insertPoint = σ.insertPoint
  | .nil, _ => rfl
  | .cons _ _ rest, σ => by
    simp only [createElifBlocks]
    rw [createElifBlocks_insertPoint rest]
    rfl

theorem instsAt_ifBlocks (σ1 : State) (el : ElifList) (m : Nat) :
    instsAt (ifBlocks σ1 el).blocks m = instsAt σ1.blocks m := by
  unfold ifBlocks
  rw [instsAt_createElifBlocks, instsAt_createBlock, instsAt_createBlock, instsAt_createBlock]

theorem ifBlocks_insertPoint (σ1 : State) (el : ElifList) :
    (ifBlocks σ1 el).insertPoint = σ1.insertPoint := by
  unfold ifBlocks
  rw [createElifBlocks_insertPoint]
  rfl

theorem if_runs {cond : Expression} {thenBranch : Statement} {el : ElifList}
    {elseBranch : OptStatement} {σ σ' : State} {v : Value} {b : Nat} {w : List Nat}
    (iht : StmtRuns thenBranch) (ihel : ElifsRuns el) (ihe : ElseRuns elseBranch)
    (h : visitStmt (.IfStatement cond thenBranch el elseBranch) σ = .ok (v, σ'))
    (hst : thenBranch.straight = true) (hsel : el.straight = true)
    (hse : elseBranch.straight = true)
    (hb : σ.insertPoint = some b) (hbl : b < σ.blocks.length)
    (hw : ∀ x ∈ w, x < σ.blocks.length + 3 + 2 * el.size)
    (hwt : ∀ p ∈ elifIds (σ.blocks.length + 3) el.size, p.1 ∉ w)
    (hwm : σ.blocks.length + 2 ∉ w) :
    ∃ (c : Value) (σ1 : State) (conds : List Value), visitExpr cond σ = .ok (c, σ1) ∧
      conds.length = el.size ∧
      (∀ i, i < el.size → ∃ (p next : Nat), (instsAt σ'.blocks (σ.blocks.length + 3 + 2 * i))[p]? =
        some (.condBr (conds.getD i Value.null) (σ.blocks.length + 3 + 2 * i + 1) next)) ∧
      σ'.insertPoint = some (σ.blocks.length + 2) ∧ σ.blocks.length + 2 < σ'.blocks.length ∧
      instsAt σ'.blocks (σ.blocks.length + 2) = [] ∧
      (instsAt σ'.blocks b)[(instsAt σ1.blocks b).length]? = some (.condBr c σ.blocks.length
        (nextBlockOf (elifIds (σ.blocks.length + 3) el.size)
          (lastBlockOf elseBranch (σ.blocks.length + 1) (σ.blocks.length + 2)))) ∧
      Grows σ1.blocks σ'.blocks ∧
      ∀ truth, Runs σ'.blocks truth w b (instsAt σ1.blocks b).length (σ.blocks.length + 2) 0
        ((selectBody (σ.blocks.length :: (elifIds (σ.blocks.length + 3) el.size).map Prod.snd)
          [lastBlockOf elseBranch (σ.blocks.length + 1) (σ.blocks.length + 2)]
          (truth c :: conds.map truth)).filter (fun x => decide (x ∈ w))) := by
  obtain ⟨c, σ1, r, σ7, σ9, σ10, σ11, h1, h2, h3, h4, h5, _, rfl⟩ := visitStmt_if_ok h
  obtain ⟨code0, hem0, _⟩ := visitExpr_step cond _ _ _ h1
  have hL : σ1.blocks.length = σ.blocks.length := hem0.length_emits
  have hip1 : σ1.insertPoint = some b := by rw [hem0.insertPoint_emits, hb]
  rw [hL] at h2 h3 h4 h5 ⊢
  generalize hlast : lastBlockOf elseBranch (σ.blocks.length + 1) (σ.blocks.length + 2) = last
    at h2 h3
  generalize hnext : nextBlockOf (elifIds (σ.blocks.length + 3) el.size) last = next at h2
  have hids := elifIds_bounds el.size (σ.blocks.length + 3)
  -- all blocks of the `if` exist and are empty
  have hl5 : (ifBlocks σ1 el).blocks.length = σ.blocks.length + 3 + 2 * el.size := by
    rw [ifBlocks_length, hL]
  have hi6b : instsAt ((ifBlocks σ1 el).insert (.condBr c σ.blocks.length next)).blocks b =
      instsAt σ1.blocks b ++ [.condBr c σ.blocks.length next] := by
    rw [instsAt_insert_at _ _ (by rw [ifBlocks_insertPoint, hip1]) (by omega), instsAt_ifBlocks]
  have hi6o : ∀ m, σ.blocks.length ≤ m →
      instsAt ((ifBlocks σ1 el).insert (.condBr c σ.blocks.length next)).blocks m = [] := by
    intro m hm
    rw [instsAt_insert_other _ _ (by
      rw [ifBlocks_insertPoint, hip1]; exact ne_some_of_ne (by omega)), instsAt_ifBlocks,
      instsAt_ge (by omega)]
  have hl6 : ((ifBlocks σ1 el).insert (.condBr c σ.blocks.length next)).blocks.length =
      σ.blocks.length + 3 + 2 * el.size := by rw [insert_length, hl5]
  -- the then branch
  have b7 := visitStmt_step thenBranch _ _ _ h2
  have hl7 : σ.blocks.length + 3 + 2 * el.size ≤ σ7.blocks.length := by
    have := b7.length_stmt
    rw [setInsertPoint_length, hl6] at this
    exact this
  have hk8 : ∀ m, σ.blocks.length + 1 ≤ m → m < σ.blocks.length + 3 + 2 * el.size →
      instsAt (σ7.insert (.br (σ.blocks.length + 2))).blocks m = [] ∧
      (σ7.insert (.br (σ.blocks.length + 2))).insertPoint ≠ some m := by
    intro m hm1 hm2
    obtain ⟨i7, p7⟩ := b7.keeps (m := m) (by rw [setInsertPoint_length, hl6]; exact hm2)
      (show (State.setInsertPoint _ σ.blocks.length).insertPoint ≠ some m from
        ne_some_of_ne (by omega))
    refine ⟨?_, by rw [insert_insertPoint]; exact p7⟩
    rw [instsAt_insert_other _ _ p7, i7]
    exact hi6o m (by omega)
  have hthen := body_then_br (m := σ.blocks.length + 2) iht hst h2 rfl
    (by rw [setInsertPoint_length, hl6]; omega)
    (hi6o _ (Nat.le_refl _))
    (by intro y hy; rw [setInsertPoint_length, hl6]; exact hw y hy) hwm
  have hl8 : (σ7.insert (.br (σ.blocks.length + 2))).blocks.length = σ7.blocks.length :=
    insert_length _ _
  -- the `ElifStatement`s
  obtain ⟨conds, hcl, htests, hel⟩ := ihel (σ.blocks.length + 3) last (σ.blocks.length + 2) _ σ9 w h3
    hsel (by rw [hl8]; exact hl7) (fun m hm1 hm2 => hk8 m (by omega) hm2)
    (by intro y hy; rw [hl8]; exact Nat.lt_of_lt_of_le (hw y hy) hl7) hwt hwm
  obtain ⟨g9, l9, k9⟩ := visitElifs_keeps el _ last (σ.blocks.length + 2) _ _ h3
  have hk9 : ∀ m, σ.blocks.length + 1 ≤ m → m < σ.blocks.length + 3 →
      instsAt σ9.blocks m = [] ∧ σ9.insertPoint ≠ some m := by
    intro m hm1 hm2
    obtain ⟨i8, p8⟩ := hk8 m hm1 (by omega)
    obtain ⟨i9, p9⟩ := k9 m (by rw [hl8]; omega)
      (fun p hp => by have := hids p hp; omega) p8
    exact ⟨by rw [i9, i8], p9⟩
  -- the else branch
  obtain ⟨g10, l10, k10⟩ := visitElse_keeps elseBranch _ _ _ _ h4
  rw [hl8] at l9
  have hi10 : instsAt σ10.blocks (σ.blocks.length + 2) = [] := by
    obtain ⟨i9, p9⟩ := hk9 (σ.blocks.length + 2) (by omega) (by omega)
    rw [(k10 _ (by omega) (by omega) p9).1, i9]
  have gfin : Grows σ10.blocks (σ11.setInsertPoint (σ.blocks.length + 2)).blocks :=
    (show Grows σ10.blocks σ11.blocks from grows_insertInto h5)
  have hlastrun : ∀ truth, Runs (σ11.setInsertPoint (σ.blocks.length + 2)).blocks truth w
      last 0 (σ.blocks.length + 2) 0 [] := by
    intro truth
    cases hsome : elseBranch.isSome with
    | true =>
      have hle : last = σ.blocks.length + 1 := by rw [← hlast]; simp [lastBlockOf, hsome]
      rw [hle]
      exact (ihe _ _ σ9 σ10 w h4 hse (by omega) (hk9 _ (by omega) (by omega)).1
        (by intro y hy; exact Nat.lt_of_lt_of_le (hw y hy) (by omega)) hwm hsome truth).grows gfin
    | false =>
      have hle : last = σ.blocks.length + 2 := by rw [← hlast]; simp [lastBlockOf, hsome]
      rw [hle]
      exact Runs.rfl_runs _ _ _ _ _
  -- growth of the code up to the final state
  have g8 : Grows (σ7.insert (.br (σ.blocks.length + 2))).blocks
      (σ11.setInsertPoint (σ.blocks.length + 2)).blocks := (g9.then_grows g10).then_grows gfin
  have g6 : Grows ((ifBlocks σ1 el).insert (.condBr c σ.blocks.length next)).blocks
      (σ11.setInsertPoint (σ.blocks.length + 2)).blocks :=
    ((show Grows (State.setInsertPoint _ σ.blocks.length).blocks σ7.blocks from
      b7.grows_stmt).then_grows (grows_insert _ _)).then_grows g8
  have g1 : Grows σ1.blocks (σ11.setInsertPoint (σ.blocks.length + 2)).blocks :=
    ((grows_of_insts (instsAt_ifBlocks σ1 el)).then_grows (grows_insert _ _)).then_grows g6
  have hcb : (instsAt (σ11.setInsertPoint (σ.blocks.length + 2)).blocks b)[
      (instsAt σ1.blocks b).length]? = some (.condBr c σ.blocks.length next) :=
    getElem?_grows g6 (by rw [hi6b]; simp)
  refine ⟨c, σ1, conds, h1, hcl, ?_, rfl, ?_, ?_, hcb, g1, ?_⟩
  · intro i hi
    obtain ⟨p, next, hp⟩ := htests i hi
    exact ⟨p, next, getElem?_grows (g10.then_grows gfin) hp⟩
  · show σ.blocks.length + 2 < σ11.blocks.length
    rw [insertInto_length h5]
    omega
  · show instsAt σ11.blocks (σ.blocks.length + 2) = []
    rw [instsAt_insertInto h5]
    exact hi10
  · intro truth
    have hr0 := Runs.condBr_runs (T := truth) (w := w) hcb
    cases ht : truth c with
    | true =>
      simp only [ht, if_true] at hr0
      have := hr0.then_runs ((hthen truth).grows g8)
      simp only [selectBody, List.append_nil] at this ⊢
      by_cases hc : σ.blocks.length ∈ w
      · simpa [hc, List.filter] using this
      · simpa [hc, List.filter] using this
    | false =>
      simp only [ht, Bool.false_eq_true, if_false] at hr0
      simp only [selectBody]
      cases hsz : el.size with
      | zero =>
        have hc0 : conds = [] := List.length_eq_zero.mp (by rw [hcl, hsz])
        subst hc0
        have hn : next = last := by rw [← hnext, hsz]; rfl
        rw [hn] at hr0
        have := hr0.then_runs (hlastrun truth)
        simp only [elifIds, List.map_nil, selectBody, List.append_nil] at this ⊢
        by_cases hc : last ∈ w
        · simpa [hc, List.filter] using this
        · simpa [hc, List.filter] using this
      | succ n =>
        have hn : next = σ.blocks.length + 3 := by rw [← hnext, hsz]; rfl
        have hnw : σ.blocks.length + 3 ∉ w :=
          hwt (σ.blocks.length + 3, σ.blocks.length + 3 + 1) (by rw [hsz, elifIds_succ]; simp)
        rw [hn] at hr0
        simp only [hnw, if_false] at hr0
        have hr1 := ((hel truth (by omega)).grows (g10.then_grows gfin))
        rw [hsz] at hr1
        have hr01 := hr0.then_runs hr1
        cases hany : (conds.map truth).any id with
        | true =>
          simp only [hany, if_true] at hr01
          simpa using hr01
        | false =>
          simp only [hany, Bool.false_eq_true, if_false] at hr01
          simpa using hr01.then_runs (hlastrun truth)

theorem filter_watch_nil {w sel : List Nat} {L : Nat} (hw : ∀ x ∈ w, x < L)
    (hsel : ∀ x ∈ sel, L ≤ x) : sel.filter (fun x => decide (x ∈ w)) = [] := by
  rw [List.filter_eq_nil_iff]
  intro x hx
  simp only [decide_eq_true_eq]
  intro hc
  have := hw x hc
  have := hsel x hx
  omega

theorem lastBlockOf_ge (e : OptStatement) (L : Nat) : L + 1 ≤ lastBlockOf e (L + 1) (L + 2) := by
  unfold lastBlockOf
  split <;> omega

theorem stmtRuns_if {cond : Expression} {thenBranch : Statement} {el : ElifList}
    {elseBranch : OptStatement} (iht : StmtRuns thenBranch) (ihel : ElifsRuns el)
    (ihe : ElseRuns elseBranch) : StmtRuns (.IfStatement cond thenBranch el elseBranch) := by
  intro σ σ' v b w h hs hb hbl hw
  simp only [Statement.straight, Bool.and_eq_true] at hs
  have hids := elifIds_bounds el.size (σ.blocks.length + 3)
  obtain ⟨c, σ1, conds, h1, _, _, hip, hlen, hempty, _, g1, hrun⟩ :=
    if_runs iht ihel ihe h hs.1.1 hs.1.2 hs.2 hb hbl
      (fun x hx => Nat.lt_of_lt_of_le (hw x hx) (by omega))
      (fun p hp hc => by have := hw _ hc; have := hids p hp; omega)
      (fun hc => by have := hw _ hc; omega)
  refine ⟨σ.blocks.length + 2, hip, hlen, fun truth => ?_⟩
  obtain ⟨b1, hip1, _, hr1⟩ := (visitExpr_step cond _ _ _ h1).runsThrough w hb hbl
  have hb1 : b1 = b := by
    have e := (visitExpr_step cond _ _ _ h1).insertPoint_expr
    rw [hb, hip1] at e
    exact Option.some.inj e
  subst hb1
  have hr := ((hr1 truth).grows g1).then_runs (hrun truth)
  rw [filter_watch_nil hw] at hr
  · simpa [hempty] using hr
  · intro x hx
    rcases selectBody_mem _ _ _ _ hx with hx | hx
    · rcases List.mem_cons.mp hx with rfl | hx
      · exact Nat.le_refl _
      · obtain ⟨p, hp, rfl⟩ := List.mem_map.mp hx
        have := hids p hp
        omega
    · rw [List.mem_singleton.mp hx]
      have := lastBlockOf_ge elseBranch σ.blocks.length
      omega

mutual
theorem visitStmt_runs : ∀ s : Statement, StmtRuns s
  | .ExpressionStatement e => stmtRuns_expression e
  | .PrintStatement e => stmtRuns_print e
  | .LetStatement name T e => stmtRuns_let name T e
  | .BlockStatement ss => stmtRuns_block (visitStmts_runs ss)
  | .IfStatement _ t el e =>
    stmtRuns_if (visitStmt_runs t) (visitElifs_runs el) (visitElse_runs e)
  | .FnStatement _ _ _ _ => fun _ _ _ _ _ _ hs => by simp [Statement.straight] at hs
  | .ReturnStatement _ => fun _ _ _ _ _ _ hs => by simp [Statement.straight] at hs
  | .WhileStatement _ _ => fun _ _ _ _ _ _ hs => by simp [Statement.straight] at hs
theorem visitStmts_runs : ∀ ss : StmtList, StmtsRuns ss
  | .nil => stmtsRuns_nil
  | .cons s rest => stmtsRuns_cons (visitStmt_runs s) (visitStmts_runs rest)
theorem visitElifs_runs : ∀ el : ElifList, ElifsRuns el
  | .nil => elifsRuns_nil
  | .cons _ b rest => elifsRuns_cons (visitStmt_runs b) (visitElifs_runs rest)
theorem visitElse_runs : ∀ e : OptStatement, ElseRuns e
  | .none => elseRuns_none
  | .some s => elseRuns_some (visitStmt_runs s)
end

theorem elifIds_disjoint : ∀ (n K : Nat) (p q : Nat × Nat), p ∈ elifIds K n → q ∈ elifIds K n →
    p.1 ≠ q.2
  | 0, _, _, _, h, _ => by simp [elifIds] at h
  | n + 1, K, p, q, hp, hq => by
    rw [elifIds_succ, List.mem_cons] at hp hq
    rcases hp with rfl | hp <;> rcases hq with rfl | hq
    · simp
    · have := elifIds_bounds n (K + 2) q hq
      show K ≠ q.2
      omega
    · have := elifIds_bounds n (K + 2) p hp
      show p.1 ≠ K + 1
      omega
    · exact elifIds_disjoint n (K + 2) p q hp hq

theorem selectBody_filter (w : List Nat) : ∀ (bodies fb : List Nat) (ts : List Bool),
    (∀ x ∈ bodies, x ∈ w) →
    (selectBody bodies fb ts).filter (fun x => decide (x ∈ w)) =
      selectBody bodies (fb.filter (fun x => decide (x ∈ w))) ts
  | [], fb, ts, _ => by simp [selectBody]
  | b :: bs, fb, [], _ => by simp [selectBody]
  | b :: bs, fb, true :: ts, h => by
    simp [selectBody, h b (List.mem_cons_self _ _)]
  | b :: bs, fb, false :: ts, h => by
    simp only [selectBody]
    exact selectBody_filter w bs fb ts (fun x hx => h x (List.mem_cons_of_mem _ hx))

theorem last_filter (el : ElifList) (e : OptStatement) (L : Nat) :
    [lastBlockOf e (L + 1) (L + 2)].filter (fun x => decide (x ∈ bodyBlocks L el e)) =
      elseBody e L := by
  have hids := elifIds_bounds el.size (L + 3)
  cases hsome : e.isSome with
  | true =>
    simp [lastBlockOf, elseBody, bodyBlocks, hsome]
  | false =>
    have : L + 2 ∉ bodyBlocks L el e := by
      simp only [bodyBlocks, elseBody, hsome, Bool.false_eq_true, if_false, List.append_nil,
        List.mem_cons, List.mem_map, not_or, not_exists, not_and]
      refine ⟨by omega, fun p hp hc => ?_⟩
      have := hids p hp
      omega
    simp [lastBlockOf, elseBody, hsome, this]

/-! ## C8: one branch body per evaluation of an `if` -/

theorem ok_of_failureOf {α β : Type} {r : Except Err (α × β)} (h : failureOf r = none)
    (d : α × β) :
    r = .ok ((okOr r d).1, (okOr r d).2) := by
  cases r with
  | ok a => rfl
  | error e => simp [failureOf] at h

/-- C8 (amended). For every `IfStatement` whose branch bodies generate neither a return, nor a
loop, nor a function, visited successfully from a state whose insertion block exists: the entry
test is a conditional branch on the value of the condition, each `ElifStatement` has a test
block that branches on its condition value, and for every assignment of truth values to these
values the walk from the entry test enters, among the blocks in which the branch bodies start,
exactly the one of the first true condition, otherwise the else body if there is one, otherwise
none; it then arrives at the start of the merge block, which is empty and is the insertion
block after the visit. -/
theorem C8_if_runs_one_body (cond : Expression) (thenBranch : Statement) (el : ElifList)
    (elseBranch : OptStatement) (σ σ' : State) (v : Value) (b : Nat)
    (h : visitStmt (.IfStatement cond thenBranch el elseBranch) σ = .ok (v, σ'))
    (hs : thenBranch.straight = true ∧ el.straight = true ∧ elseBranch.straight = true)
    (hb : σ.insertPoint = some b) (hbl : b < σ.blocks.length) :
    ∃ (c : Value) (σ1 : State) (conds : List Value),
      visitExpr cond σ = .ok (c, σ1) ∧ conds.length = el.size ∧
      (instsAt σ'.blocks b)[(instsAt σ1.blocks b).length]? = some (.condBr c σ.blocks.length
        (nextBlockOf (elifIds (σ.blocks.length + 3) el.size)
          (lastBlockOf elseBranch (σ.blocks.length + 1) (σ.blocks.length + 2)))) ∧
      (∀ i, i < el.size → ∃ (p next : Nat), (instsAt σ'.blocks (σ.blocks.length + 3 + 2 * i))[p]? =
        some (.condBr (conds.getD i Value.null) (σ.blocks.length + 3 + 2 * i + 1) next)) ∧
      σ'.insertPoint = some (σ.blocks.length + 2) ∧ σ.blocks.length + 2 < σ'.blocks.length ∧
      instsAt σ'.blocks (σ.blocks.length + 2) = [] ∧
      ∀ truth : Value → Bool,
        Runs σ'.blocks truth (bodyBlocks σ.blocks.length el elseBranch)
          b (instsAt σ1.blocks b).length (σ.blocks.length + 2) 0
          (selectBody (σ.blocks.length :: (elifIds (σ.blocks.length + 3) el.size).map Prod.snd)
            (elseBody elseBranch σ.blocks.length) (truth c :: conds.map truth)) := by
  have hids := elifIds_bounds el.size (σ.blocks.length + 3)
  have hcodes : ∀ x ∈ (elifIds (σ.blocks.length + 3) el.size).map Prod.snd,
      x ∈ bodyBlocks σ.blocks.length el elseBranch := by
    intro x hx
    simp only [bodyBlocks, List.cons_append, List.mem_cons, List.mem_append]
    exact Or.inr (Or.inl hx)
  obtain ⟨c, σ1, conds, h1, hcl, htests, hip, hlen, hempty, hcb, _, hrun⟩ :=
    if_runs (w := bodyBlocks σ.blocks.length el elseBranch)
      (visitStmt_runs thenBranch) (visitElifs_runs el) (visitElse_runs elseBranch) h
      hs.1 hs.2.1 hs.2.2 hb hbl
      (by
        intro x hx
        simp only [bodyBlocks, elseBody, List.cons_append, List.mem_cons, List.mem_append,
          List.mem_map] at hx
        rcases hx with rfl | ⟨p, hp, rfl⟩ | hx
        · omega
        · have := hids p hp
          omega
        · split at hx
          · rw [List.mem_singleton.mp hx]; omega
          · simp at hx)
      (by
        intro p hp hc
        simp only [bodyBlocks, elseBody, List.cons_append, List.mem_cons, List.mem_append,
          List.mem_map] at hc
        have hp1 := hids p hp
        rcases hc with hc | ⟨q, hq, hc⟩ | hc
        · omega
        · exact elifIds_disjoint _ _ p q hp hq hc.symm
        · split at hc
          · have := List.mem_singleton.mp hc; omega
          · simp at hc)
      (by
        intro hc
        simp only [bodyBlocks, elseBody, List.cons_append, List.mem_cons, List.mem_append,
          List.mem_map] at hc
        rcases hc with hc | ⟨q, hq, hc⟩ | hc
        · omega
        · have := hids q hq
          omega
        · split at hc
          · have := List.mem_singleton.mp hc; omega
          · simp at hc)
  refine ⟨c, σ1, conds, h1, hcl, hcb, htests, hip, hlen, hempty, fun truth => ?_⟩
  have hr := hrun truth
  rw [selectBody_filter _ _ _ _ (by
    intro x hx
    rcases List.mem_cons.mp hx with rfl | hx
    · simp [bodyBlocks]
    · exact hcodes x hx), last_filter] at hr
  exact hr

/-- Witness of C8: `if 2 < 1 { } elif 1 < 2 { print(1); } else { print(2); }` inside
`fn main() -> i32 { }`; the bodies start in blocks 2, 6 and 3 and the merge block is block 4. -/
theorem C8_if_runs_one_body_witness :
    failureOf (visitStmt ifElifElse State.inMain) = none ∧
    State.inMain.insertPoint = some 1 ∧
    ∃ (c : Value) (σ1 : State) (conds : List Value),
      visitExpr ltTwoOne State.inMain = .ok (c, σ1) ∧ conds.length = 1 ∧
      (okOr (visitStmt ifElifElse State.inMain) (.null, State.start)).2.insertPoint = some 4 ∧
      ∀ truth : Value → Bool,
        Runs (okOr (visitStmt ifElifElse State.inMain) (.null, State.start)).2.blocks truth
          [2, 6, 3] 1 (instsAt σ1.blocks 1).length 4 0
          (selectBody [2, 6] [3] (truth c :: conds.map truth)) := by
  have hok : failureOf (visitStmt ifElifElse State.inMain) = none := by decide!
  obtain ⟨c, σ1, conds, h1, hcl, _, _, hip, _, _, hrun⟩ :=
    C8_if_runs_one_body ltTwoOne (.BlockStatement .nil)
      (.cons ltOneTwo (.BlockStatement (.cons (.PrintStatement (.IntExpression 1)) .nil)) .nil)
      (.some (.BlockStatement (.cons (.PrintStatement (.IntExpression 2)) .nil)))
      State.inMain _ _ 1
      (ok_of_failureOf hok (.null, State.start)) ⟨rfl, rfl, rfl⟩ rfl (by decide)
  exact ⟨hok, rfl, c, σ1, conds, h1, hcl, hip, hrun⟩

/-- C8 (counterexample). The statement `if 1 < 2 { return 1; }` inside `fn main() -> i32 { }`:
the visit succeeds, the entry test branches on the constant `true` that the builder has folded
`1 < 2` to, the then block holds `ret 1` followed by `br` to the merge block, and with a true
condition the walk from the entry test enters the then block and ends at the `ret`: no number of
steps takes it to the merge block. -/
theorem C8_return_in_branch_counterexample :
    failureOf (visitStmt ifReturn State.inMain) = none ∧
    State.inMain.insertPoint = some 1 ∧
    instsAt (okOr (visitStmt ifReturn State.inMain) (.null, State.start)).2.blocks 1 =
      [.condBr (.constInt 1 1) 2 4] ∧
    instsAt (okOr (visitStmt ifReturn State.inMain) (.null, State.start)).2.blocks 2 =
      [.ret (.constInt 64 1), .br 4] ∧
    (okOr (visitStmt ifReturn State.inMain) (.null, State.start)).2.insertPoint = some 4 ∧
    ∀ (truth : Value → Bool) (n : Nat) (entered : List Nat), truth (.constInt 1 1) = true →
      runCfg (okOr (visitStmt ifReturn State.inMain) (.null, State.start)).2.blocks truth [2] n
        ⟨1, 0, []⟩ ≠ some ⟨4, 0, entered⟩ := by
  have i1 : instsAt (okOr (visitStmt ifReturn State.inMain) (.null, State.start)).2.blocks 1 =
      [.condBr (.constInt 1 1) 2 4] := by
    decide!
  have i2 : instsAt (okOr (visitStmt ifReturn State.inMain) (.null, State.start)).2.blocks 2 =
      [.ret (.constInt 64 1), .br 4] := by decide!
  refine ⟨by decide!, rfl, i1, i2, by decide!, ?_⟩
  intro truth n entered ht
  have s1 : stepCfg (okOr (visitStmt ifReturn State.inMain) (.null, State.start)).2.blocks truth
      [2] ⟨1, 0, []⟩ = some ⟨2, 0, [2]⟩ := by
    simp [stepCfg, i1, ht, enter]
  have s2 : stepCfg (okOr (visitStmt ifReturn State.inMain) (.null, State.start)).2.blocks truth
      [2] ⟨2, 0, [2]⟩ = none := by
    simp [stepCfg, i2]
  match n with
  | 0 =>
    intro hc
    simp [runCfg] at hc
  | 1 =>
    intro hc
    simp [runCfg, s1] at hc
  | k + 2 =>
    intro hc
    simp [runCfg, s1, s2] at hc

/-! ## Facts about the table `typeMap` -/

theorem tableSound_typeMap : TableSound typeMap :=
  fun T => Or.inl (lookup_typeMap T)

theorem lookup_append_none {T U : TokenTypes} {p : Nat × Bool} : ∀ (m : TypeMap),
    List.lookup T m = none →
    List.lookup U (m ++ [(T, p)]) = if U = T then some p else List.lookup U m
  | [], _ => by
    by_cases h : U = T
    · subst h; simp [List.lookup]
    · have : (U == T) = false := by simpa using h
      simp [List.lookup, this, h]
  | (k, q) :: rest, h => by
    simp only [List.lookup] at h
    simp only [List.cons_append, List.lookup]
    cases hk : (T == k) with
    | true => rw [hk] at h; cases h
    | false =>
      rw [hk] at h
      have ih := lookup_append_none (U := U) (p := p) rest h
      cases hu : (U == k) with
      | true =>
        have e1 : U = k := by simpa using hu
        have e2 : T ≠ k := by simpa using hk
        have : U ≠ T := fun hc => e2 (hc ▸ e1)
        simp [this]
      | false => exact ih

theorem typeOf_known {σ : State} {T : TokenTypes} {p : Nat × Bool}
    (hs : TableSound σ.typeMap) (h : widthOf T = some p) : σ.typeOf T = (p, σ) := by
  rcases hs T with h1 | ⟨h1, _⟩
  · exact typeOf_of_lookup (h1.trans h)
  · rw [h] at h1; cases h1

theorem typeOf_unknown {σ : State} {T : TokenTypes}
    (hs : TableSound σ.typeMap) (h : widthOf T = none) : (σ.typeOf T).1 = (0, false) := by
  rcases hs T with h1 | ⟨_, h1⟩
  · rw [h] at h1
    simp [State.typeOf, TypeMap.index, h1]
  · simp [State.typeOf, TypeMap.index, h1]

theorem typeOf_sound {σ : State} (T : TokenTypes) (hs : TableSound σ.typeMap) :
    TableSound (σ.typeOf T).2.typeMap := by
  cases hl : List.lookup T σ.typeMap with
  | some p => rw [typeOf_of_lookup hl]; exact hs
  | none =>
    have hT : widthOf T = none := by
      rcases hs T with h1 | ⟨h1, _⟩
      · rw [← h1, hl]
      · exact h1
    intro U
    have e : (σ.typeOf T).2.typeMap = σ.typeMap ++ [(T, (0, false))] := by
      simp [State.typeOf, TypeMap.index, hl]
    rw [e, lookup_append_none _ hl]
    by_cases hu : U = T
    · subst hu
      simp [hT]
    · simp only [hu, if_false]
      exact hs U

theorem widthOf_pos {T : TokenTypes} {p : Nat × Bool} (h : widthOf T = some p) : p.1 ≠ 0 := by
  cases T <;> simp [widthOf] at h <;> subst h <;> simp

theorem fnArgTypes_sound : ∀ (args : List (String × TokenTypes)) (σ σ1 : State) (tys : List Ty),
    fnArgTypes args σ = (tys, σ1) → TableSound σ.typeMap → TableSound σ1.typeMap
  | [], σ, σ1, tys, h, hs => by
    obtain ⟨_, rfl⟩ := Prod.mk.inj h
    exact hs
  | (n, T) :: rest, σ, σ1, tys, h, hs => by
    rw [fnArgTypes_cons] at h
    obtain ⟨_, rfl⟩ := Prod.mk.inj h
    exact fnArgTypes_sound rest (σ.typeOf T).2 _ _ rfl (typeOf_sound T hs)



/-! ## C12: calls -/

theorem getFunction_some {σ : State} {name : String} {f : Nat}
    (h : σ.getFunction name = some f) :
    ∃ fn, σ.functions[f]? = some fn ∧ fn.name = name := by
  unfold State.getFunction at h
  simp only at h
  split at h
  · rename_i hlt
    cases h
    refine ⟨σ.functions[List.findIdx (fun f => f.name == name) σ.functions], ?_, ?_⟩
    · exact List.getElem?_eq_getElem hlt
    · have := List.findIdx_getElem (w := hlt)
      simpa using this
  · cases h

theorem visitArgs_inOrder : ∀ (args : ExprList) (σ σ1 : State) (vals : List Value),
    visitArgs args σ = .ok (vals, σ1) → EvaluatedInOrder args σ vals σ1
  | .nil, σ, σ1, vals, h => by
    rw [visitArgs] at h
    cases h
    exact .done σ
  | .cons e rest, σ, σ1, vals, h => by
    simp only [visitArgs, bind_ok, pure_ok] at h
    obtain ⟨⟨v, s1⟩, h1, ⟨vs, s2⟩, h2, h3⟩ := h
    obtain ⟨rfl, rfl⟩ := Prod.mk.inj h3
    exact .next h1 (visitArgs_inOrder rest _ _ _ h2)

theorem inOrder_visitArgs {args : ExprList} {σ σ1 : State} {vals : List Value}
    (h : EvaluatedInOrder args σ vals σ1) : visitArgs args σ = .ok (vals, σ1) := by
  induction h with
  | done σ => rw [visitArgs]
  | next first _ ih =>
    rw [visitArgs, first, ok_bind]
    simp only [ih, ok_bind]
    rfl

theorem visitExpr_call (name : String) (args : ExprList) (σ : State) :
    visitExpr (.CallExpression name args) σ =
      (visitArgs args σ >>= fun p => createCall (σ.getFunction name) p.1 p.2) := by
  rw [visitExpr]

/-- C12 (counterexample). The call `g()` of a function that the module does not have, inside
`fn main() -> i32 { }`: `getFunction` answers the null pointer, which is not tested, and the
visit ends in `CreateCall` with the dereference of the null pointer, not with a reported
error. -/
theorem C12_unregistered_call_counterexample :
    State.inMain.getFunction "g" = none ∧
    failureOf (visitExpr (.CallExpression "g" .nil) State.inMain) = some .NullDeref := by
  refine ⟨by decide, by decide⟩

/-- C12 (amended). For every `CallExpression`: when the module has no function of that name the
visit returns no value and emits no call, and once the arguments have been generated it ends
with the dereference of the null pointer that `getFunction` answered; when the module has the
function, the arguments are evaluated from left to right and the visit returns the result of
one call instruction, placed after the code of the arguments, to that function with exactly the
values of the arguments in their order. -/
theorem C12_call (name : String) (args : ExprList) (σ : State) :
    (σ.getFunction name = none →
      (∀ v σ', visitExpr (.CallExpression name args) σ ≠ .ok (v, σ')) ∧
      ∀ vals σ1, visitArgs args σ = .ok (vals, σ1) →
        visitExpr (.CallExpression name args) σ = .error .NullDeref) ∧
    (∀ f, σ.getFunction name = some f →
      (∀ v σ', visitExpr (.CallExpression name args) σ = .ok (v, σ') →
        ∃ vals σ1, visitArgs args σ = .ok (vals, σ1)) ∧
      ∀ vals σ1, visitArgs args σ = .ok (vals, σ1) →
        EvaluatedInOrder args σ vals σ1 ∧
        ∃ fn, σ.functions[f]? = some fn ∧ fn.name = name ∧
          visitExpr (.CallExpression name args) σ =
            .ok (.inst σ1.nextId fn.retTy,
              { σ1.appendCode [.call σ1.nextId f vals] with nextId := σ1.nextId + 1 })) := by
  refine ⟨fun hnone => ⟨?_, ?_⟩, fun f hf => ⟨?_, ?_⟩⟩
  · intro v σ' h
    rw [visitExpr_call, bind_ok] at h
    obtain ⟨p, _, h2⟩ := h
    rw [hnone] at h2
    simp [createCall] at h2
  · intro vals σ1 h
    rw [visitExpr_call, h, ok_bind, hnone]
    rfl
  · intro v σ' h
    rw [visitExpr_call, bind_ok] at h
    obtain ⟨⟨vals, σ1⟩, h1, _⟩ := h
    exact ⟨vals, σ1, h1⟩
  · intro vals σ1 h
    obtain ⟨fn, hfn, hname⟩ := getFunction_some hf
    obtain ⟨code, hem, _⟩ := visitArgs_step args _ _ _ h
    refine ⟨visitArgs_inOrder args _ _ _ h, fn, hfn, hname, ?_⟩
    rw [visitExpr_call, h, ok_bind, hf]
    simp only [createCall, hem.functions, hfn]
    rfl

/-- Witness of C12: the calls `f(1, 2)` and `g(1, 2)` after
`fn f(a: i8, b: i32) -> i32 { return a + b; }`. -/
theorem C12_call_witness :
    State.afterF.getFunction "g" = none ∧
    visitExpr (.CallExpression "g" (.cons (.IntExpression 1) (.cons (.IntExpression 2) .nil)))
      State.afterF = .error .NullDeref ∧
    State.afterF.getFunction "f" = some 1 ∧
    EvaluatedInOrder (.cons (.IntExpression 1) (.cons (.IntExpression 2) .nil)) State.afterF
      [.constInt 64 1, .constInt 64 2] State.afterF := by
  have hg : State.afterF.getFunction "g" = none := by decide
  have hf : State.afterF.getFunction "f" = some 1 := by decide
  exact ⟨hg,
    ((C12_call "g" (.cons (.IntExpression 1) (.cons (.IntExpression 2) .nil)) State.afterF).1
      hg).2 [.constInt 64 1, .constInt 64 2] State.afterF rfl,
    hf,
    (((C12_call "f" (.cons (.IntExpression 1) (.cons (.IntExpression 2) .nil)) State.afterF).2
      1 hf).2 [.constInt 64 1, .constInt 64 2] State.afterF rfl).1⟩

/-! ## C13: operators outside the `switch` -/

theorem emitOperator_default {op : TokenTypes} (ha : isArithmetic op = false)
    (hr : isRelational op = false) (l r : Value) (σ : State) :
    emitOperator op l r σ = .ok (.null, σ) := by
  cases op <;> first | rfl | (exfalso; revert ha; decide) | (exfalso; revert hr; decide)

/-- C13 (counterexample). The expression `1 ? 2` whose operator is a token outside the ten
cases: the visit does not fail, it returns the null pointer and leaves the state as it was. -/
theorem C13_unsupported_operator_counterexample :
    visitExpr (.BinaryExpression (.IntExpression 1) (.OTHER 0) (.IntExpression 2)) State.start =
      .ok (.null, State.start) ∧
    failureOf (visitExpr (.BinaryExpression (.IntExpression 1) (.OTHER 0) (.IntExpression 2))
      State.start) = none :=
  ⟨rfl, rfl⟩

/-- C13 (amended). For every `BinaryExpression` whose operator token is not one of the ten of the
`switch`: the operands are generated and promoted as for any other operator, no instruction is
created for the operator, and the visit returns the null pointer to its caller; it fails only
when an operand or the promotion fails. -/
theorem C13_unsupported_operator (l r : Expression) (op : TokenTypes) (σ : State)
    (ha : isArithmetic op = false) (hr : isRelational op = false) :
    (∀ left σ1 right σ2 l1 r1 σ3, visitExpr l σ = .ok (left, σ1) →
      visitExpr r σ1 = .ok (right, σ2) →
      CastValuesToBiggestType left right σ2 = .ok (l1, r1, σ3) →
      visitExpr (.BinaryExpression l op r) σ = .ok (.null, σ3)) ∧
    (∀ v σ', visitExpr (.BinaryExpression l op r) σ = .ok (v, σ') →
      v = .null ∧ ∃ left σ1 right σ2 l1 r1, visitExpr l σ = .ok (left, σ1) ∧
        visitExpr r σ1 = .ok (right, σ2) ∧
        CastValuesToBiggestType left right σ2 = .ok (l1, r1, σ')) := by
  constructor
  · intro left σ1 right σ2 l1 r1 σ3 h1 h2 h3
    rw [visitExpr_binary, h1, ok_bind, h2, ok_bind, h3, ok_bind, emitOperator_default ha hr]
  · intro v σ' h
    rw [visitExpr_binary] at h
    simp only [bind_ok, emitOperator_default ha hr] at h
    obtain ⟨⟨left, σ1⟩, h1, ⟨right, σ2⟩, h2, ⟨l1, r1, σ3⟩, h3, h4⟩ := h
    obtain ⟨rfl, rfl⟩ := ok_pair_inj h4
    exact ⟨rfl, left, σ1, right, σ2, l1, r1, h1, h2, h3⟩

/-- Witness of C13: `1 ? 2` with the token `I8` in the place of the operator. -/
theorem C13_unsupported_operator_witness :
    visitExpr (.BinaryExpression (.IntExpression 1) .I8 (.IntExpression 2)) State.start =
      .ok (.null, State.start) :=
  (C13_unsupported_operator (.IntExpression 1) (.IntExpression 2) .I8 State.start rfl rfl).1
    _ _ _ _ _ _ _ rfl rfl rfl

/-! ## C14: the function scenario -/

/-- C14, the code at the failing input. After `fn f(a: i8, b: i32) -> i32 { return a + b; }` the
body of `f` is as the claim says: `a` is loaded at width 8 and sign-extended to 32 bits, the add
and the returned value have width 32. The call `f(x, y)`, however, is created with the two
literals as they are, at width 64 each, for parameters of width 8 and 32: the arguments are not
cast to the parameter types. -/
theorem C14_call_arguments_not_cast :
    failureOf (visitStmts (.cons fnAddAB .nil) State.start) = none ∧
    State.afterF.functions[1]? =
      some { name := "f", retTy := .int 32, argTys := [.int 8, .int 32], isVarArg := false } ∧
    instsAt State.afterF.blocks 1 =
      [.alloca 0 (.int 8) "a", .store 1 (.arg 1 0 (.int 8)) (.inst 0 (.ptr (.int 8))),
       .alloca 2 (.int 32) "b", .store 3 (.arg 1 1 (.int 32)) (.inst 2 (.ptr (.int 32))),
       .load 4 (.int 8) (.inst 0 (.ptr (.int 8))), .load 5 (.int 32) (.inst 2 (.ptr (.int 32))),
       .cast 6 .SExt (.inst 4 (.int 8)) (.int 32),
       .binop 7 .Add (.inst 6 (.int 32)) (.inst 5 (.int 32)),
       .ret (.inst 7 (.int 32))] ∧
    ∀ x y : Int,
      visitExpr (callF x y) State.afterF =
        .ok (.inst 8 (.int 32),
          { State.afterF.appendCode
              [.call 8 1 [.constInt 64 (x % 2 ^ 64).toNat, .constInt 64 (y % 2 ^ 64).toNat]]
            with nextId := 9 }) ∧
      [Value.constInt 64 (x % 2 ^ 64).toNat, Value.constInt 64 (y % 2 ^ 64).toNat].map Value.width
        = [some 64, some 64] := by
  have hf : State.afterF.getFunction "f" = some 1 := by decide
  have hfn : State.afterF.functions[1]? =
      some { name := "f", retTy := .int 32, argTys := [.int 8, .int 32], isVarArg := false } := by
    decide
  have hid : State.afterF.nextId = 8 := by decide
  refine ⟨by decide, hfn, by decide, fun x y => ⟨?_, rfl⟩⟩
  unfold callF
  rw [visitExpr_call]
  simp only [visitArgs, visitExpr, ok_bind, hf, createCall, hfn, State.emit, State.insert, hid]
  rfl

/-! ## C15: the let scenario -/

theorem ofInt_add_literals (w : Nat) (hw : w ≤ 64) (a b : Int) :
    (((a % 2 ^ 64).toNat + (b % 2 ^ 64).toNat) % 2 ^ 64) % 2 ^ w = ofInt w (a + b) := by
  unfold ofInt
  have key : ∀ z : Int, ((z % 2 ^ 64).toNat : Int) = z % 2 ^ 64 :=
    fun z => Int.toNat_of_nonneg (Int.emod_nonneg _ (by positivity))
  have hd : ((2 : Int) ^ w) ∣ 2 ^ 64 := pow_dvd_pow 2 hw
  apply Int.ofNat.inj
  show (((((a % 2 ^ 64).toNat + (b % 2 ^ 64).toNat) % 2 ^ 64) % 2 ^ w : Nat) : Int) =
    (((a + b) % 2 ^ w).toNat : Int)
  rw [Int.toNat_of_nonneg (Int.emod_nonneg _ (by positivity))]
  simp only [Int.natCast_mod, Int.natCast_add, Nat.cast_pow, Nat.cast_ofNat, key]
  rw [Int.emod_emod_of_dvd _ hd, Int.add_emod, Int.emod_emod_of_dvd _ hd,
    Int.emod_emod_of_dvd _ hd, ← Int.add_emod]

theorem visitExpr_addLiterals (a b : Int) (σ : State) :
    visitExpr (addLiterals a b) σ = .ok (.constInt 64 (ofInt 64 (a + b)), σ) := by
  have hadd := ofInt_add_literals 64 (Nat.le_refl _) a b
  simp only [Nat.mod_mod] at hadd
  unfold addLiterals
  rw [visitExpr_binary]
  simp only [visitExpr, ok_bind, CastValuesToBiggestType, Value.getType, if_true, emitOperator,
    createBinOp, foldBinOp, evalBinOp, State.insertFolded, hadd]

/-- C15 (counterexample). `fn main() -> i32 { let x: i32 = 2 + 3; }`: no add is produced. The
value of `2 + 3` is the constant 5 of width 64, to which the builder folds the sum of the two 64
bit literals, and the entry block of `main` holds the `alloca` of `x` and the store of the
constant 5 of width 32, nothing else. -/
theorem C15_add_width_counterexample :
    visitExpr (addLiterals 2 3) State.inMain = .ok (.constInt 64 5, State.inMain) ∧
    resultType (visitExpr (addLiterals 2 3) State.inMain) = some (.int 64) ∧
    codeAfter (.cons (mainWith (.cons (letSum 2 3) .nil)) .nil) State.start 1 =
      [.alloca 0 (.int 32) "x",
       .store 1 (.constInt 32 5) (.inst 0 (.ptr (.int 32)))] := by
  refine ⟨?_, by decide!, by decide!⟩
  rw [visitExpr_addLiterals]
  rfl

/-- C15 (amended). For all integer literals `a` and `b`, `let x: i32 = a + b;`, generated while
the builder points into a block of a function, produces no add: the value of `a + b` is the
constant `a + b` of width 64, to which the builder folds the sum of the two 64 bit literals,
and no code is generated for it; the statement appends an `alloca` of width 32, to which `x` is
bound, and the store of the constant `a + b` of width 32 into it; running this code, the cell
of `x` holds `a + b` at width 32. -/
theorem C15_let_sum (a b : Int) (σ : State) (blk : Nat) (frame : Frame) (rest : List Frame)
    (hσ : List.lookup TokenTypes.I32 σ.typeMap = some (32, true))
    (hm : σ.getModule = .ok ())
    (hb : σ.insertPoint = some blk)
    (henv : σ.env = frame :: rest) :
    ∃ σ2 : State,
      visitExpr (addLiterals a b) σ = .ok (.constInt 64 (ofInt 64 (a + b)), σ) ∧
      visitStmt (letSum a b) σ = .ok (.constInt 32 (ofInt 32 (a + b)), σ2) ∧
      instsAt σ2.blocks blk = instsAt σ.blocks blk ++
        [.alloca σ.nextId (.int 32) "x",
         .store (σ.nextId + 1) (.constInt 32 (ofInt 32 (a + b)))
           (.inst σ.nextId (.ptr (.int 32)))] ∧
      Environment.get σ2.env "x" = .ok (.inst σ.nextId (.ptr (.int 32))) ∧
      ∀ m : Machine, ∃ m1,
        execInsts
          [.alloca σ.nextId (.int 32) "x",
           .store (σ.nextId + 1) (.constInt 32 (ofInt 32 (a + b)))
             (.inst σ.nextId (.ptr (.int 32)))] m = some m1 ∧
        m1.mem σ.nextId = some (ofInt 32 (a + b)) := by
  have he := visitExpr_addLiterals a b σ
  have hbl : blk < σ.blocks.length := by
    obtain ⟨b', _, hb', hl', _⟩ := getModule_ok hm
    rw [hb] at hb'
    cases hb'
    exact hl'
  have htr : ofInt 64 (a + b) % 2 ^ 32 = ofInt 32 (a + b) := by
    have h1 := ofInt_add_literals 64 (Nat.le_refl _) a b
    have h2 := ofInt_add_literals 32 (by decide) a b
    simp only [Nat.mod_mod] at h1
    rw [← h1, h2]
  have hc : createIntCast (.constInt 64 (ofInt 64 (a + b))) (.int 32) true σ =
      .ok (.constInt 32 (ofInt 32 (a + b)), σ) := by
    rw [@createIntCast_diff (.constInt 64 (ofInt 64 (a + b))) 64 32 true σ rfl (by decide),
      insertCast_const,
      (castOpcode_cases 64 32 true (by decide)).1 (by decide)]
    simp only [evalCast, htr]
  obtain ⟨σ3, σ4, h1, h2, h3, _, _⟩ :=
    let_after_cast "x" .I32 (addLiterals a b) σ σ σ (.constInt 64 (ofInt 64 (a + b)))
      (.constInt 32 (ofInt 32 (a + b))) 32 blk true frame rest hσ he hc rfl hm hb hbl henv
  refine ⟨σ3, he, h1, h2, ?_, ?_⟩
  · rw [h3]
    exact get_define _ _ _ _
  · intro m
    refine ⟨Machine.mk (Function.update m.regs σ.nextId (some σ.nextId))
      (Function.update (Function.update m.mem σ.nextId none) σ.nextId
        (some (ofInt 32 (a + b)))) m.args, ?_, ?_⟩
    · simp [execInsts, execInst, Machine.eval, Function.update]
    · simp [Function.update]

/-- Witness of C15: `let x: i32 = 2 + 3;` after `fn main() -> i32 { }`, with the builder in the
entry block of `main`; the cell of `x` is that of instruction 0 and holds 5. -/
theorem C15_let_sum_witness :
    State.inMain.insertPoint = some 1 ∧ State.inMain.getModule = .ok () ∧
    ∃ σ2 : State, visitStmt (letSum 2 3) State.inMain = .ok (.constInt 32 5, σ2) ∧
      ∀ m : Machine, ∃ m1,
        execInsts
          [.alloca 0 (.int 32) "x",
           .store 1 (.constInt 32 5) (.inst 0 (.ptr (.int 32)))] m = some m1 ∧
        m1.mem 0 = some 5 := by
  obtain ⟨σ2, _, h1, _, _, h4⟩ :=
    C15_let_sum 2 3 State.inMain 1 [("main", .func 1)] [] rfl rfl rfl rfl
  exact ⟨rfl, rfl, σ2, h1, h4⟩

/-! ## C16: failures of the backend -/

/-- C16. The trace of `createObjectFile`. When the target is not found, the trace ends with the
report of the lookup error right after the lookup: the destination file is not opened (no
attempt is made), and the emission pass does not run. When the target is found and the
destination file cannot be opened, the trace ends with the report of that error right after the
failed attempt: the emission pass is neither set up nor run. In neither case does the trace
contain an effect that opens the file or writes to it. -/
theorem C16_backend_failures (b : Backend) :
    (b.targetFound = false →
      createObjectFile b =
        [.initializeAll, .setTargetTriple b.targetTriple, .lookupTarget b.targetTriple,
         .report b.lookupError] ∧
      (createObjectFile b).all (fun e => !e.isOpen && !e.opensFile && !e.writesFile) = true ∧
      Effect.runPasses ∉ createObjectFile b) ∧
    (b.targetFound = true → ∀ message, b.openError = some message →
      createObjectFile b =
        [.initializeAll, .setTargetTriple b.targetTriple, .lookupTarget b.targetTriple,
         .createTargetMachine b.targetTriple "generic" "", .setDataLayout,
         .openFile "output.o" false, .report ("Could not open file: " ++ message)] ∧
      (createObjectFile b).all (fun e => !e.opensFile && !e.writesFile) = true ∧
      Effect.runPasses ∉ createObjectFile b ∧
      Effect.addPassesToEmitFile ∉ createObjectFile b) := by
  constructor
  · intro h
    have e : createObjectFile b =
        [.initializeAll, .setTargetTriple b.targetTriple, .lookupTarget b.targetTriple,
         .report b.lookupError] := by
      simp [createObjectFile, h]
    rw [e]
    exact ⟨rfl, rfl, by simp⟩
  · intro h message hm
    have e : createObjectFile b =
        [.initializeAll, .setTargetTriple b.targetTriple, .lookupTarget b.targetTriple,
         .createTargetMachine b.targetTriple "generic" "", .setDataLayout,
         .openFile "output.o" false, .report ("Could not open file: " ++ message)] := by
      simp [createObjectFile, h, hm]
    rw [e]
    exact ⟨rfl, rfl, by simp, by simp⟩

/-- Witness of C16: a backend that does not know the target, and one that knows it but cannot
open `output.o`. -/
theorem C16_backend_failures_witness :
    Effect.runPasses ∉ createObjectFile
      { targetTriple := "x86_64-unknown-linux-gnu", targetFound := false,
        lookupError := "No available targets", openError := none, cannotEmit := false } ∧
    Effect.runPasses ∉ createObjectFile
      { targetTriple := "x86_64-unknown-linux-gnu", targetFound := true, lookupError := "",
        openError := some "Permission denied", cannotEmit := false } :=
  ⟨((C16_backend_failures _).1 rfl).2.2,
   ((C16_backend_failures _).2 rfl "Permission denied" rfl).2.2.1⟩

/-! ## C17: the wiring of an `if` -/

theorem visitElifs_insts : ∀ (el : ElifList) (ids : List (Nat × Nat)) (last merge : Nat)
    (σ σ' : State), visitElifs el ids last merge σ = .ok σ' →
    ∀ m, m < σ.blocks.length → (∀ p ∈ ids, p.1 ≠ m ∧ p.2 ≠ m) →
      instsAt σ'.blocks m = instsAt σ.blocks m
  | .nil, ids, last, merge, σ, σ', h => by
    simp only [visitElifs] at h
    cases h
    exact fun m _ _ => rfl
  | .cons cond branch rest, [], last, merge, σ, σ', h => by
    simp only [visitElifs] at h
    cases h
  | .cons cond branch rest, (t, c) :: ids, last, merge, σ, σ', h => by
    obtain ⟨σ1, cv, σ2, σ4, r, σ5, h1, h2, h3, h4, h5⟩ := visitElifs_cons_ok h
    have e2 := visitExpr_step cond _ _ _ h2
    have b5 := visitStmt_step branch _ _ _ h4
    obtain ⟨_, _, k6⟩ := visitElifs_keeps rest ids last merge _ _ h5
    have hl1 := insertInto_length h1
    have hl2 : σ2.blocks.length = σ.blocks.length := by
      rw [e2.length_expr, setInsertPoint_length, hl1]
    have hl4 : σ4.blocks.length = σ.blocks.length := by
      rw [insertInto_length h3, insert_length, hl2]
    have hl5 : σ.blocks.length ≤ σ5.blocks.length := by
      have := b5.length_stmt
      rw [setInsertPoint_length, hl4] at this
      exact this
    intro m hm hids
    have hmt := hids (t, c) (List.mem_cons_self _ _)
    simp only at hmt
    obtain ⟨cc, hem, _⟩ := e2
    have hip2 : σ2.insertPoint = some t := by rw [hem.insertPoint_emits]; rfl
    have i2 : instsAt σ2.blocks m = instsAt σ.blocks m := by
      rw [hem.code_other (show (σ1.setInsertPoint t).insertPoint ≠ some m from
        ne_some_of_ne hmt.1)]
      exact instsAt_insertInto h1 m
    have i4 : instsAt σ4.blocks m = instsAt σ.blocks m := by
      rw [instsAt_insertInto h3, instsAt_insert_other _ _ (by rw [hip2]; exact ne_some_of_ne hmt.1),
        i2]
    obtain ⟨i5, p5⟩ := b5.keeps (m := m) (by rw [setInsertPoint_length, hl4]; exact hm)
      (show (σ4.setInsertPoint c).insertPoint ≠ some m from ne_some_of_ne hmt.2)
    have i6 : instsAt (σ5.insert (.br merge)).blocks m = instsAt σ.blocks m := by
      rw [instsAt_insert_other _ _ p5, i5]
      exact i4
    obtain ⟨i7, _⟩ := k6 m (by rw [insert_length]; omega)
      (fun p hp => hids p (List.mem_cons_of_mem _ hp)) (by rw [insert_insertPoint]; exact p5)
    rw [i7, i6]

theorem visitElse_insts : ∀ (e : OptStatement) (elseBlock merge : Nat) (σ σ' : State),
    visitElse e elseBlock merge σ = .ok σ' →
    ∀ m, m < σ.blocks.length → elseBlock ≠ m → instsAt σ'.blocks m = instsAt σ.blocks m
  | .none, _, _, σ, σ', h => by
    simp only [visitElse] at h
    cases h
    exact fun m _ _ => rfl
  | .some s, elseBlock, merge, σ, σ', h => by
    obtain ⟨σ1, r, σ2, h1, h2, rfl⟩ := visitElse_some_ok h
    intro m hm hne
    obtain ⟨i2, p2⟩ := (visitStmt_step s _ _ _ h2).keeps (m := m)
      (by rw [setInsertPoint_length, insertInto_length h1]; exact hm)
      (show (σ1.setInsertPoint elseBlock).insertPoint ≠ some m from ne_some_of_ne hne)
    rw [instsAt_insert_other _ _ p2, i2]
    exact instsAt_insertInto h1 m

/-- Where the generation of a body ends: in the block it started in or in a block created on the
way, and that block exists. -/
theorem body_end {s : Statement} {σc σ5 : State} {r : Value} {x : Nat}
    (h : visitStmt s σc = .ok (r, σ5)) (hip : σc.insertPoint = some x)
    (hx : x < σc.blocks.length) :
    ∃ e, σ5.insertPoint = some e ∧ e < σ5.blocks.length ∧ (e = x ∨ σc.blocks.length ≤ e) := by
  have st := (visitStmt_step s _ _ _ h).code
  have hv : IPValid σ5.blocks σ5.insertPoint :=
    st.valid (fun b hb => by rw [hip] at hb; cases hb; exact hx)
  rcases st.ip with e | ⟨b, e, hb⟩
  · exact ⟨x, by rw [e, hip], hv x (by rw [e, hip]), Or.inl rfl⟩
  · exact ⟨b, e, hv b e, Or.inr hb⟩

theorem nextBlockOf_elifIds (K n last : Nat) :
    nextBlockOf (elifIds K n) last = if 0 < n then K else last := by
  cases n with
  | zero => rfl
  | succ k => simp [elifIds, nextBlockOf]

theorem elifs_wired : ∀ (el : ElifList) (K last merge X : Nat) (σ σ9 : State)
    (B : List BasicBlock),
    visitElifs el (elifIds K el.size) last merge σ = .ok σ9 →
    K + 2 * el.size ≤ σ.blocks.length →
    (∀ m, K ≤ m → m < K + 2 * el.size → instsAt σ.blocks m = []) →
    X < K →
    (∀ m, m < σ9.blocks.length → m ≠ X → instsAt B m = instsAt σ9.blocks m) →
    ElifsWired B el K last merge
  | .nil, _, _, _, _, _, _, _, _, _, _, _, _ => trivial
  | .cons cond branch rest, K, last, merge, X, σ, σ', B, h, hK, hempty, hX, hB => by
    simp only [ElifList.size] at h hK hempty
    rw [elifIds_succ] at h
    obtain ⟨σ1, cv, σ2, σ4, r, σ5, h1, h2, h3, h4, h5⟩ := visitElifs_cons_ok h
    have hids := elifIds_bounds rest.size (K + 2)
    have e2 := visitExpr_step cond _ _ _ h2
    have b5 := visitStmt_step branch _ _ _ h4
    have hl1 := insertInto_length h1
    have hl2 : σ2.blocks.length = σ.blocks.length := by
      rw [e2.length_expr, setInsertPoint_length, hl1]
    have hl4 : σ4.blocks.length = σ.blocks.length := by
      rw [insertInto_length h3, insert_length, hl2]
    have hl5 : σ.blocks.length ≤ σ5.blocks.length := by
      have := b5.length_stmt
      rw [setInsertPoint_length, hl4] at this
      exact this
    obtain ⟨_, l6, k6⟩ := visitElifs_keeps rest _ last merge _ _ h5
    rw [insert_length] at l6
    obtain ⟨code, hem, _⟩ := e2
    have hip2 : σ2.insertPoint = some K := by rw [hem.insertPoint_emits]; rfl
    -- blocks other than the test block, up to the body
    have i4o : ∀ m, m ≠ K → instsAt σ4.blocks m = instsAt σ.blocks m := by
      intro m hm
      rw [instsAt_insertInto h3,
        instsAt_insert_other _ _ (by rw [hip2]; exact ne_some_of_ne hm.symm),
        hem.code_other (show (σ1.setInsertPoint K).insertPoint ≠ some m from
          ne_some_of_ne hm.symm)]
      exact instsAt_insertInto h1 m
    -- where the body ends
    obtain ⟨e, hipe, hel, hecase⟩ := body_end h4 rfl
      (by rw [setInsertPoint_length, hl4]; omega)
    rw [setInsertPoint_length, hl4] at hecase
    have hie : instsAt σ'.blocks e = instsAt σ5.blocks e ++ [.br merge] := by
      rw [visitElifs_insts rest _ last merge _ _ h5 e (by rw [insert_length]; exact hel)
        (fun p hp => by have := hids p hp; omega),
        instsAt_insert_at _ _ hipe hel]
    refine ⟨⟨σ1.setInsertPoint K, σ2, cv, rfl, ?_, h2, ?_⟩,
      ⟨σ4.setInsertPoint (K + 1), σ5, r, e, rfl, ?_, h4, hipe, ?_⟩, ?_⟩
    · show instsAt σ1.blocks K = []
      rw [instsAt_insertInto h1]
      exact hempty K (Nat.le_refl _) (by omega)
    · -- the test block in the final code
      have i4K : instsAt σ4.blocks K = instsAt σ2.blocks K ++
          [.condBr cv (K + 1) (nextBlockOf (elifIds (K + 2) rest.size) last)] := by
        rw [instsAt_insertInto h3, instsAt_insert_at _ _ hip2 (by omega)]
      obtain ⟨i5, p5⟩ := b5.keeps (m := K) (by rw [setInsertPoint_length, hl4]; omega)
        (show (σ4.setInsertPoint (K + 1)).insertPoint ≠ some K from ne_some_of_ne (by omega))
      obtain ⟨i7, _⟩ := k6 K (by rw [insert_length]; omega)
        (fun p hp => by have := hids p hp; omega) (by rw [insert_insertPoint]; exact p5)
      rw [hB K (by omega) (by omega), i7, instsAt_insert_other _ _ p5, i5]
      show instsAt σ4.blocks K = _
      rw [i4K, nextBlockOf_elifIds]
    · show instsAt σ4.blocks (K + 1) = []
      rw [i4o _ (by omega)]
      exact hempty (K + 1) (by omega) (by omega)
    · rw [hB e (by omega) (by omega), hie]
    · refine elifs_wired rest (K + 2) last merge X _ σ' B h5 (by rw [insert_length]; omega)
        ?_ (by omega) hB
      intro m hm1 hm2
      obtain ⟨i5, p5⟩ := b5.keeps (m := m) (by rw [setInsertPoint_length, hl4]; omega)
        (show (σ4.setInsertPoint (K + 1)).insertPoint ≠ some m from ne_some_of_ne (by omega))
      rw [instsAt_insert_other _ _ p5, i5]
      show instsAt σ4.blocks m = []
      rw [i4o m (by omega)]
      exact hempty m (by omega) (by omega)

/-- C17. The wiring of an `if`, for every `IfStatement` visited successfully from a state whose
insertion block exists. The block that was current holds the code of the primary condition
followed by the conditional branch on its value, to the then block on true and on false to the
test block of the first `ElifStatement` if there is one, else to the else block if there is an
else branch, else to the merge block. Every `ElifStatement` has a test block that holds the
code of its condition followed by the conditional branch to its own body block on true and on
false to the test block of the next `ElifStatement`, or after the last one to the else block if
there is an else branch, else to the merge block. And the block in which the generation of each
body (then, each elif body, else) ends has `br` to the merge block as its last instruction. -/
theorem C17_if_wiring (cond : Expression) (thenBranch : Statement) (el : ElifList)
    (elseBranch : OptStatement) (σ σ' : State) (v : Value) (b : Nat)
    (h : visitStmt (.IfStatement cond thenBranch el elseBranch) σ = .ok (v, σ'))
    (hb : σ.insertPoint = some b) (hbl : b < σ.blocks.length) :
    ∃ (c : Value) (σ1 : State), visitExpr cond σ = .ok (c, σ1) ∧
      instsAt σ'.blocks b = instsAt σ1.blocks b ++
        [.condBr c σ.blocks.length
          (if 0 < el.size then σ.blocks.length + 3
            else if elseBranch.isSome then σ.blocks.length + 1 else σ.blocks.length + 2)] ∧
      BodyWired σ'.blocks thenBranch σ.blocks.length (σ.blocks.length + 2) ∧
      ElifsWired σ'.blocks el (σ.blocks.length + 3)
        (if elseBranch.isSome then σ.blocks.length + 1 else σ.blocks.length + 2)
        (σ.blocks.length + 2) ∧
      (∀ s, elseBranch = .some s →
        BodyWired σ'.blocks s (σ.blocks.length + 1) (σ.blocks.length + 2)) := by
  obtain ⟨c, σ1, r, σ7, σ9, σ10, σ11, h1, h2, h3, h4, h5, _, rfl⟩ := visitStmt_if_ok h
  obtain ⟨code0, hem0, _⟩ := visitExpr_step cond _ _ _ h1
  have hL : σ1.blocks.length = σ.blocks.length := hem0.length_emits
  have hip1 : σ1.insertPoint = some b := by rw [hem0.insertPoint_emits, hb]
  rw [hL] at h2 h3 h4 h5 ⊢
  have hlastEq : lastBlockOf elseBranch (σ.blocks.length + 1) (σ.blocks.length + 2) =
      if elseBranch.isSome then σ.blocks.length + 1 else σ.blocks.length + 2 := rfl
  rw [hlastEq] at h2 h3
  generalize hlast : (if elseBranch.isSome then σ.blocks.length + 1 else σ.blocks.length + 2)
    = last at h2 h3 ⊢
  rw [nextBlockOf_elifIds] at h2
  generalize hnext : (if 0 < el.size then σ.blocks.length + 3 else last) = next at h2 ⊢
  have hids := elifIds_bounds el.size (σ.blocks.length + 3)
  have hl5 : (ifBlocks σ1 el).blocks.length = σ.blocks.length + 3 + 2 * el.size := by
    rw [ifBlocks_length, hL]
  have hi6b : instsAt ((ifBlocks σ1 el).insert (.condBr c σ.blocks.length next)).blocks b =
      instsAt σ1.blocks b ++ [.condBr c σ.blocks.length next] := by
    rw [instsAt_insert_at _ _ (by rw [ifBlocks_insertPoint, hip1]) (by omega), instsAt_ifBlocks]
  have hi6o : ∀ m, σ.blocks.length ≤ m →
      instsAt ((ifBlocks σ1 el).insert (.condBr c σ.blocks.length next)).blocks m = [] := by
    intro m hm
    rw [instsAt_insert_other _ _ (by
      rw [ifBlocks_insertPoint, hip1]; exact ne_some_of_ne (by omega)), instsAt_ifBlocks,
      instsAt_ge (by omega)]
  have hl6 : ((ifBlocks σ1 el).insert (.condBr c σ.blocks.length next)).blocks.length =
      σ.blocks.length + 3 + 2 * el.size := by rw [insert_length, hl5]
  -- the then branch
  have b7 := visitStmt_step thenBranch _ _ _ h2
  have hl7 : σ.blocks.length + 3 + 2 * el.size ≤ σ7.blocks.length := by
    have := b7.length_stmt
    rw [setInsertPoint_length, hl6] at this
    exact this
  obtain ⟨e, hipe, hel, hecase⟩ := body_end h2 rfl (by rw [setInsertPoint_length, hl6]; omega)
  rw [setInsertPoint_length, hl6] at hecase
  have hk8 : ∀ m, m < σ.blocks.length + 3 + 2 * el.size → m ≠ σ.blocks.length →
      instsAt (σ7.insert (.br (σ.blocks.length + 2))).blocks m =
        instsAt ((ifBlocks σ1 el).insert (.condBr c σ.blocks.length next)).blocks m := by
    intro m hm1 hm2
    obtain ⟨i7, p7⟩ := b7.keeps (m := m) (by rw [setInsertPoint_length, hl6]; exact hm1)
      (show (State.setInsertPoint _ σ.blocks.length).insertPoint ≠ some m from
        ne_some_of_ne (by omega))
    rw [instsAt_insert_other _ _ p7, i7]
    rfl
  have hl8 : (σ7.insert (.br (σ.blocks.length + 2))).blocks.length = σ7.blocks.length :=
    insert_length _ _
  -- the `ElifStatement`s and the else branch
  obtain ⟨_, l9, _⟩ := visitElifs_keeps el _ last (σ.blocks.length + 2) _ _ h3
  rw [hl8] at l9
  obtain ⟨_, l10, _⟩ := visitElse_keeps elseBranch _ _ _ _ h4
  have i9 : ∀ m, m < σ7.blocks.length →
      (m < σ.blocks.length + 3 ∨ σ.blocks.length + 3 + 2 * el.size ≤ m) →
      instsAt σ9.blocks m = instsAt (σ7.insert (.br (σ.blocks.length + 2))).blocks m := by
    intro m hm hcase
    exact visitElifs_insts el _ last _ _ _ h3 m (by rw [hl8]; exact hm)
      (fun p hp => by have := hids p hp; omega)
  have ifin : ∀ m, m < σ9.blocks.length → m ≠ σ.blocks.length + 1 →
      instsAt (σ11.setInsertPoint (σ.blocks.length + 2)).blocks m = instsAt σ9.blocks m := by
    intro m hm hne
    show instsAt σ11.blocks m = _
    rw [instsAt_insertInto h5]
    exact visitElse_insts elseBranch _ _ _ _ h4 m hm (by omega)
  refine ⟨c, σ1, h1, ?_,
    ⟨((ifBlocks σ1 el).insert (.condBr c σ.blocks.length next)).setInsertPoint σ.blocks.length,
      σ7, r, e, rfl, hi6o _ (Nat.le_refl _), h2, hipe, ?_⟩, ?_, ?_⟩
  · rw [ifin b (by omega) (by omega), i9 b (by omega) (Or.inl (by omega)),
      hk8 b (by omega) (by omega), hi6b]
  · rw [ifin e (by omega) (by omega), i9 e hel (by omega), instsAt_insert_at _ _ hipe hel]
  · refine elifs_wired el (σ.blocks.length + 3) last (σ.blocks.length + 2)
      (σ.blocks.length + 1) _ σ9 _ h3 (by rw [hl8]; exact hl7) ?_ (by omega) ifin
    intro m hm1 hm2
    rw [hk8 m hm2 (by omega)]
    exact hi6o m (by omega)
  · intro s hs
    subst hs
    obtain ⟨σa, r2, σb, ha, hbody, h10⟩ := visitElse_some_ok h4
    have hla := insertInto_length ha
    obtain ⟨e2, hipe2, hel2, _⟩ := body_end hbody rfl (by rw [setInsertPoint_length, hla]; omega)
    refine ⟨σa.setInsertPoint (σ.blocks.length + 1), σb, r2, e2, rfl, ?_, hbody, hipe2, ?_⟩
    · show instsAt σa.blocks (σ.blocks.length + 1) = []
      rw [instsAt_insertInto ha, i9 _ (by omega) (Or.inl (by omega)), hk8 _ (by omega) (by omega)]
      exact hi6o _ (by omega)
    · show instsAt σ11.blocks e2 = _
      rw [instsAt_insertInto h5, h10, instsAt_insert_at _ _ hipe2 hel2]

/-- Witness of C17: `if 2 < 1 { } elif 1 < 2 { print(1); } else { print(2); }` inside
`fn main() -> i32 { }`; the then block is block 2, the else block 3, the merge block 4, and the
test block and the body block of the `ElifStatement` are blocks 5 and 6. -/
theorem C17_if_wiring_witness :
    failureOf (visitStmt ifElifElse State.inMain) = none ∧
    State.inMain.insertPoint = some 1 ∧
    ∃ (c : Value) (σ1 : State), visitExpr ltTwoOne State.inMain = .ok (c, σ1) ∧
      instsAt (okOr (visitStmt ifElifElse State.inMain) (.null, State.start)).2.blocks 1 =
        instsAt σ1.blocks 1 ++ [.condBr c 2 5] ∧
      BodyWired (okOr (visitStmt ifElifElse State.inMain) (.null, State.start)).2.blocks
        (.BlockStatement .nil) 2 4 := by
  have hok : failureOf (visitStmt ifElifElse State.inMain) = none := by decide!
  obtain ⟨c, σ1, h1, h2, h3, _, _⟩ :=
    C17_if_wiring ltTwoOne (.BlockStatement .nil)
      (.cons ltOneTwo (.BlockStatement (.cons (.PrintStatement (.IntExpression 1)) .nil)) .nil)
      (.some (.BlockStatement (.cons (.PrintStatement (.IntExpression 2)) .nil)))
      State.inMain _ _ 1
      (ok_of_failureOf hok (.null, State.start)) rfl (by decide)
  exact ⟨hok, rfl, c, σ1, h1, h2, h3⟩

/-! ## C18: what a function definition leaves behind -/

theorem parentAt_appendCode (σ : State) (c : List Inst) (b : Nat) :
    parentAt (σ.appendCode c).blocks b = parentAt σ.blocks b := by
  unfold State.appendCode parentAt
  cases h : σ.insertPoint with
  | none => rfl
  | some i =>
    simp only [updateBlock_getElem?]
    split
    · cases σ.blocks[b]? <;> rfl
    · rfl

theorem Emits.owned_emits {σ σ1 : State} {c : List Inst} (h : Emits σ c σ1) (ho : Owned σ) :
    Owned σ1 := by
  obtain ⟨b, hb, hp⟩ := ho
  refine ⟨b, by rw [h.insertPoint_emits, hb], ?_⟩
  rw [h.blocks, parentAt_appendCode, h.mainFunction]
  exact hp

theorem ExprStep.owned_expr {σ σ1 : State} (h : ExprStep σ σ1) (ho : Owned σ) : Owned σ1 := by
  obtain ⟨c, hc, _⟩ := h
  exact hc.owned_emits ho

theorem Owned.of_eq_owned {σ σ1 : State} (ho : Owned σ) (h1 : σ1.blocks = σ.blocks)
    (h2 : σ1.insertPoint = σ.insertPoint) (h3 : σ1.mainFunction = σ.mainFunction) :
    Owned σ1 := by
  obtain ⟨b, hb, hp⟩ := ho
  exact ⟨b, by rw [h2, hb], by rw [h1, h3]; exact hp⟩

theorem owned_insertInto {σ σ1 : State} {b : Nat} (h : σ.insertInto b = .ok σ1)
    (hb : b < σ.blocks.length) : Owned (σ1.setInsertPoint b) := by
  obtain ⟨f, hf, rfl⟩ := insertInto_ok h
  refine ⟨b, rfl, ?_⟩
  show parentAt (updateBlock _ b σ.blocks) b = some σ.mainFunction
  unfold parentAt
  rw [updateBlock_getElem?, if_pos rfl, List.getElem?_eq_getElem hb, hf]
  rfl

theorem owned_insert {σ : State} (i : Inst) (ho : Owned σ) : Owned (σ.insert i) := by
  obtain ⟨b, hb, hp⟩ := ho
  refine ⟨b, by rw [insert_insertPoint, hb], ?_⟩
  show parentAt (σ.appendCode [i]).blocks b = some (σ.appendCode [i]).mainFunction
  rw [parentAt_appendCode, appendCode_mainFunction]
  exact hp

theorem bindArgs_owned (f : Nat) : ∀ (l : List (String × Ty)) (i : Nat) (σ σ1 : State),
    bindArgs f i l σ = .ok σ1 → Owned σ → Owned σ1
  | [], i, σ, σ1, h, ho => by
    simp only [bindArgs] at h
    cases h
    exact ho
  | (n, ty) :: rest, i, σ, σ1, h, ho => by
    obtain ⟨al, s1, st, s2, σ3, h1, h2, h3, h4⟩ := bindArgs_cons_ok h
    obtain ⟨fr, rs, _, rfl⟩ := define_ok h3
    refine bindArgs_owned f rest _ _ _ h4 ?_
    exact ((let_tail_step h1 h2).owned_expr ho).of_eq_owned rfl rfl rfl

mutual
theorem visitStmt_owned : ∀ (s : Statement) (σ σ' : State) (v : Value),
    visitStmt s σ = .ok (v, σ') → Owned σ → Owned σ'
  | .ExpressionStatement e, σ, σ', v, h, ho => by
    rw [visitStmt] at h
    exact (visitExpr_step e _ _ _ h).owned_expr ho
  | .PrintStatement e, σ, σ', v, h, ho => by
    obtain ⟨value, σ1, fmt, r, h1, _, h3, _⟩ := visitStmt_print_ok h
    exact ((visitExpr_step e _ _ _ h1).trans_expr (createCall_step h3)).owned_expr ho
  | .LetStatement name T e, σ, σ', v, h, ho => by
    obtain ⟨value, s1, ty, s2, al, s3, st, s4, h1, _, h3, h4, h5, h6⟩ := visitStmt_let_ok h
    have es : ExprStep (σ.typeOf T).2 s4 :=
      ((visitExpr_step e _ _ _ h1).trans_expr (createIntCast_step h3)).trans_expr
        (let_tail_step h4 h5)
    obtain ⟨f, rest, _, rfl⟩ := define_ok h6
    exact (es.owned_expr (ho.of_eq_owned rfl rfl rfl)).of_eq_owned rfl rfl rfl
  | .BlockStatement ss, σ, σ', v, h, ho => by
    obtain ⟨s1, h1, h2, _⟩ := visitStmt_block_ok h
    obtain ⟨f, rest, _, rfl⟩ := popEnv_ok h2
    exact (visitStmts_owned ss _ _ h1 (ho.of_eq_owned rfl rfl rfl)).of_eq_owned rfl rfl rfl
  | .IfStatement cond t el e, σ, σ', v, h, _ => by
    obtain ⟨c, σ1, r, σ7, σ9, σ10, σ11, h1, h2, h3, h4, h5, _, rfl⟩ := visitStmt_if_ok h
    have l7 := (visitStmt_step t _ _ _ h2).length_stmt
    rw [setInsertPoint_length, insert_length, ifBlocks_length] at l7
    obtain ⟨_, l9, _⟩ := visitElifs_keeps el _ _ _ _ _ h3
    rw [insert_length] at l9
    obtain ⟨_, l10, _⟩ := visitElse_keeps e _ _ _ _ h4
    exact owned_insertInto h5 (by omega)
  | .FnStatement name args R body, σ, σ', v, h, _ => by
    obtain ⟨argTypes, σ1, retTy, σ5, σ8, r, σ9, _, _, h3, h4, h5, h6, _⟩ := visitStmt_fn_ok h
    obtain ⟨f, rest, _, rfl⟩ := popEnv_ok h6
    obtain ⟨f5, rest5, _, rfl⟩ := define_ok h3
    refine (visitStmt_owned body _ _ _ h5 (bindArgs_owned _ _ _ _ _ h4 ?_)).of_eq_owned
      rfl rfl rfl
    refine ⟨_, rfl, ?_⟩
    simp [parentAt, State.createBlock, State.setInsertPoint, State.pushEnv, State.createFunction]
  | .ReturnStatement e, σ, σ', v, h, ho => by
    obtain ⟨value, σ1, h1, rfl, _⟩ := visitStmt_return_ok h
    exact owned_insert _ ((visitExpr_step e _ _ _ h1).owned_expr ho)
  | .WhileStatement cond branch, σ, σ', v, h, _ => by
    obtain ⟨c, σ5, σ7, r, σ8, σ10, h1, h2, h3, h4, _, rfl⟩ := visitStmt_while_ok h
    have l5 := (visitExpr_step cond _ _ _ h1).length_expr
    rw [whileHead_length] at l5
    have l7 := insertInto_length h2
    rw [insert_length] at l7
    have l8 := (visitStmt_step branch _ _ _ h3).length_stmt
    rw [setInsertPoint_length] at l8
    exact owned_insertInto h4 (by rw [insert_length]; omega)
theorem visitStmts_owned : ∀ (ss : StmtList) (σ σ' : State),
    visitStmts ss σ = .ok σ' → Owned σ → Owned σ'
  | .nil, σ, σ', h, ho => by
    rw [visitStmts] at h
    cases h
    exact ho
  | .cons s rest, σ, σ', h, ho => by
    obtain ⟨r, σ1, h1, h2⟩ := visitStmts_cons_ok h
    exact visitStmts_owned rest _ _ h2 (visitStmt_owned s _ _ _ h1 ho)
end

theorem SameFns.refl_fns (σ : State) : SameFns σ σ := ⟨rfl, rfl⟩

theorem SameFns.trans_fns {σ σ1 σ2 : State} (h1 : SameFns σ σ1) (h2 : SameFns σ1 σ2) :
    SameFns σ σ2 := ⟨h2.1.trans h1.1, h2.2.trans h1.2⟩

theorem ExprStep.sameFns {σ σ1 : State} (h : ExprStep σ σ1) : SameFns σ σ1 := by
  obtain ⟨c, hc, _⟩ := h
  exact ⟨hc.mainFunction, hc.functions⟩

theorem sameFns_insert (σ : State) (i : Inst) : SameFns σ (σ.insert i) :=
  ⟨appendCode_mainFunction σ [i], appendCode_functions σ [i]⟩

theorem sameFns_insertInto {σ σ1 : State} {b : Nat} (h : σ.insertInto b = .ok σ1) :
    SameFns σ σ1 := by
  obtain ⟨f, _, rfl⟩ := insertInto_ok h
  exact ⟨rfl, rfl⟩

theorem sameFns_createElifBlocks : ∀ (el : ElifList) (σ : State),
    SameFns σ (createElifBlocks el σ).2
  | .nil, σ => ⟨rfl, rfl⟩
  | .cons _ _ rest, σ => by
    simp only [createElifBlocks]
    exact SameFns.trans_fns ⟨rfl, rfl⟩ (sameFns_createElifBlocks rest _)

theorem sameFns_ifBlocks (σ1 : State) (el : ElifList) : SameFns σ1 (ifBlocks σ1 el) := by
  unfold ifBlocks
  exact SameFns.trans_fns ⟨rfl, rfl⟩ (sameFns_createElifBlocks el _)

theorem sameFns_whileHead (σ : State) : SameFns σ (whileHead σ) := by
  unfold whileHead
  exact @SameFns.trans_fns _ (((σ.createBlock "loop" σ.mainFunction).2.createBlock "loopBody"
    none).2.createBlock "afterloop" none).2 _ ⟨rfl, rfl⟩
    (SameFns.trans_fns (sameFns_insert _ _) ⟨rfl, rfl⟩)

mutual
theorem visitStmt_sameFns : ∀ (s : Statement) (σ σ' : State) (v : Value),
    visitStmt s σ = .ok (v, σ') → s.definesFn = false → SameFns σ σ'
  | .ExpressionStatement e, σ, σ', v, h, _ => by
    rw [visitStmt] at h
    exact (visitExpr_step e _ _ _ h).sameFns
  | .PrintStatement e, σ, σ', v, h, _ => by
    obtain ⟨value, σ1, fmt, r, h1, _, h3, _⟩ := visitStmt_print_ok h
    exact ((visitExpr_step e _ _ _ h1).trans_expr (createCall_step h3)).sameFns
  | .LetStatement name T e, σ, σ', v, h, _ => by
    obtain ⟨value, s1, ty, s2, al, s3, st, s4, h1, _, h3, h4, h5, h6⟩ := visitStmt_let_ok h
    have es : ExprStep (σ.typeOf T).2 s4 :=
      ((visitExpr_step e _ _ _ h1).trans_expr (createIntCast_step h3)).trans_expr
        (let_tail_step h4 h5)
    obtain ⟨f, rest, _, rfl⟩ := define_ok h6
    exact ⟨es.sameFns.1, es.sameFns.2⟩
  | .BlockStatement ss, σ, σ', v, h, hn => by
    obtain ⟨s1, h1, h2, _⟩ := visitStmt_block_ok h
    obtain ⟨f, rest, _, rfl⟩ := popEnv_ok h2
    have := visitStmts_sameFns ss _ _ h1 (by simpa [Statement.definesFn] using hn)
    exact ⟨this.1, this.2⟩
  | .IfStatement cond t el e, σ, σ', v, h, hn => by
    obtain ⟨c, σ1, r, σ7, σ9, σ10, σ11, h1, h2, h3, h4, h5, _, rfl⟩ := visitStmt_if_ok h
    simp only [Statement.definesFn, Bool.or_eq_false_iff] at hn
    have s1 := (visitExpr_step cond _ _ _ h1).sameFns
    have s7 := visitStmt_sameFns t _ _ _ h2 hn.1.1
    have s9 := visitElifs_sameFns el _ _ _ _ _ h3 hn.1.2
    have s10 := visitElse_sameFns e _ _ _ _ h4 hn.2
    have s11 := sameFns_insertInto h5
    have s6 : SameFns σ1 (((ifBlocks σ1 el).insert (.condBr c σ1.blocks.length
        (nextBlockOf (elifIds (σ1.blocks.length + 3) el.size)
          (lastBlockOf e (σ1.blocks.length + 1) (σ1.blocks.length + 2))))).setInsertPoint
            σ1.blocks.length) :=
      (sameFns_ifBlocks σ1 el).trans_fns (SameFns.trans_fns (sameFns_insert _ _) ⟨rfl, rfl⟩)
    have := ((((s1.trans_fns s6).trans_fns s7).trans_fns (sameFns_insert _ _)).trans_fns
      s9).trans_fns (s10.trans_fns s11)
    exact ⟨this.1, this.2⟩
  | .FnStatement name args R body, σ, σ', v, h, hn => by
    simp [Statement.definesFn] at hn
  | .ReturnStatement e, σ, σ', v, h, _ => by
    obtain ⟨value, σ1, h1, rfl, _⟩ := visitStmt_return_ok h
    exact (visitExpr_step e _ _ _ h1).sameFns.trans_fns (sameFns_insert _ _)
  | .WhileStatement cond branch, σ, σ', v, h, hn => by
    obtain ⟨c, σ5, σ7, r, σ8, σ10, h1, h2, h3, h4, _, rfl⟩ := visitStmt_while_ok h
    have s5 := (visitExpr_step cond _ _ _ h1).sameFns
    have s7 := sameFns_insertInto h2
    have s8 := visitStmt_sameFns branch _ _ _ h3 (by simpa [Statement.definesFn] using hn)
    have s10 := sameFns_insertInto h4
    have := ((((sameFns_whileHead σ).trans_fns s5).trans_fns (sameFns_insert _ _)).trans_fns
      s7).trans_fns ((@SameFns.trans_fns _ (σ7.setInsertPoint (σ.blocks.length + 1)) _
        ⟨rfl, rfl⟩ s8).trans_fns ((sameFns_insert _ _).trans_fns s10))
    exact ⟨this.1, this.2⟩
theorem visitStmts_sameFns : ∀ (ss : StmtList) (σ σ' : State),
    visitStmts ss σ = .ok σ' → ss.definesFn = false → SameFns σ σ'
  | .nil, σ, σ', h, _ => by
    rw [visitStmts] at h
    cases h
    exact SameFns.refl_fns _
  | .cons s rest, σ, σ', h, hn => by
    obtain ⟨r, σ1, h1, h2⟩ := visitStmts_cons_ok h
    simp only [StmtList.definesFn, Bool.or_eq_false_iff] at hn
    exact (visitStmt_sameFns s _ _ _ h1 hn.1).trans_fns (visitStmts_sameFns rest _ _ h2 hn.2)
theorem visitElifs_sameFns : ∀ (el : ElifList) (ids : List (Nat × Nat)) (last merge : Nat)
    (σ σ' : State), visitElifs el ids last merge σ = .ok σ' → el.definesFn = false →
    SameFns σ σ'
  | .nil, ids, last, merge, σ, σ', h, _ => by
    simp only [visitElifs] at h
    cases h
    exact SameFns.refl_fns _
  | .cons cond branch rest, [], last, merge, σ, σ', h, _ => by
    simp only [visitElifs] at h
    cases h
  | .cons cond branch rest, (t, c) :: ids, last, merge, σ, σ', h, hn => by
    obtain ⟨σ1, cv, σ2, σ4, r, σ5, h1, h2, h3, h4, h5⟩ := visitElifs_cons_ok h
    simp only [ElifList.definesFn, Bool.or_eq_false_iff] at hn
    have s1 := sameFns_insertInto h1
    have s2 := (visitExpr_step cond _ _ _ h2).sameFns
    have s4 := sameFns_insertInto h3
    have s5 := visitStmt_sameFns branch _ _ _ h4 hn.1
    have s6 := visitElifs_sameFns rest _ _ _ _ _ h5 hn.2
    exact (((s1.trans_fns (@SameFns.trans_fns _ (σ1.setInsertPoint t) _ ⟨rfl, rfl⟩
      s2)).trans_fns (sameFns_insert _ _)).trans_fns s4).trans_fns
      ((@SameFns.trans_fns _ (σ4.setInsertPoint c) _ ⟨rfl, rfl⟩ s5).trans_fns
        ((sameFns_insert _ _).trans_fns s6))
theorem visitElse_sameFns : ∀ (e : OptStatement) (elseBlock merge : Nat) (σ σ' : State),
    visitElse e elseBlock merge σ = .ok σ' → e.definesFn = false → SameFns σ σ'
  | .none, _, _, σ, σ', h, _ => by
    simp only [visitElse] at h
    cases h
    exact SameFns.refl_fns _
  | .some s, elseBlock, merge, σ, σ', h, hn => by
    obtain ⟨σ1, r, σ2, h1, h2, rfl⟩ := visitElse_some_ok h
    have s2 := visitStmt_sameFns s _ _ _ h2 (by simpa [OptStatement.definesFn] using hn)
    exact ((sameFns_insertInto h1).trans_fns (@SameFns.trans_fns _
      (σ1.setInsertPoint elseBlock) _ ⟨rfl, rfl⟩ s2)).trans_fns (sameFns_insert _ _)
end

theorem bindArgs_insertPoint (f : Nat) : ∀ (l : List (String × Ty)) (i : Nat) (σ σ1 : State),
    bindArgs f i l σ = .ok σ1 →
    σ1.insertPoint = σ.insertPoint ∧ σ1.blocks.length = σ.blocks.length ∧ SameFns σ σ1
  | [], i, σ, σ1, h => by
    simp only [bindArgs] at h
    cases h
    exact ⟨rfl, rfl, SameFns.refl_fns _⟩
  | (n, ty) :: rest, i, σ, σ1, h => by
    obtain ⟨al, s1, st, s2, σ3, h1, h2, h3, h4⟩ := bindArgs_cons_ok h
    obtain ⟨fr, rs, _, rfl⟩ := define_ok h3
    obtain ⟨i1, i2, i3⟩ := bindArgs_insertPoint f rest _ _ _ h4
    have es := let_tail_step h1 h2
    exact ⟨i1.trans es.insertPoint_expr, i2.trans es.length_expr,
      SameFns.trans_fns ⟨es.sameFns.1, es.sameFns.2⟩ i3⟩

theorem FrameKept.tail_kept {env env1 : List Frame} (h : FrameKept env env1) :
    env1.tail = env.tail := by
  rcases h with ⟨rfl, rfl⟩ | ⟨f, f1, rest, rfl, rfl, _⟩ <;> rfl

/-- C18 (amended). For every `FnStatement` whose body defines no function, visited with success
in any state: the module has one more function; the scope is the one before the visit, with the
name of the function bound in its current frame; the current function is the new function and
is what the visit returns; the insertion block is the block in which the generation of the body
ended, a block created by the visit that belongs to the new function; and what is generated
next, an instruction, the code of an expression or the `ret void` of `compile`, is appended to
that block. -/
theorem C18_fn_leaves_builder (name : String) (args : List (String × TokenTypes))
    (R : TokenTypes) (body : Statement) (σ σ' : State) (v : Value)
    (h : visitStmt (.FnStatement name args R body) σ = .ok (v, σ'))
    (hn : body.definesFn = false) :
    ∃ (retTy : Ty) (argTys : List Ty) (frame : Frame) (rest : List Frame) (σ8 σ9 : State)
      (r : Value) (e : Nat),
      σ'.functions = σ.functions ++
        [{ name := name, retTy := retTy, argTys := argTys, isVarArg := false }] ∧
      σ.env = frame :: rest ∧
      σ'.env = frame.define name (.func σ.functions.length) :: rest ∧
      σ'.mainFunction = some σ.functions.length ∧ v = .func σ.functions.length ∧
      σ8.insertPoint = some σ.blocks.length ∧ visitStmt body σ8 = .ok (r, σ9) ∧
      σ9.insertPoint = some e ∧ σ'.insertPoint = some e ∧
      σ.blocks.length ≤ e ∧ e < σ'.blocks.length ∧
      parentAt σ'.blocks e = some (some σ.functions.length) ∧
      (∀ i, instsAt (σ'.insert i).blocks e = instsAt σ'.blocks e ++ [i]) ∧
      (∀ ex v2 σ2, visitExpr ex σ' = .ok (v2, σ2) →
        ∃ code, instsAt σ2.blocks e = instsAt σ'.blocks e ++ code) ∧
      (∀ c prog, visitStmts prog (setup c) = .ok σ →
        compile c (prog.append (.cons (.FnStatement name args R body) .nil)) =
          .ok (σ'.insert .retVoid)) := by
  obtain ⟨argTypes, σ1, retTy, σ5, σ8, r, σ9, h1, _, h3, h4, h5, h6, hv⟩ := visitStmt_fn_ok h
  obtain ⟨e1, e2, e3, e4, e5, _⟩ := fnArgTypes_ok args σ σ1 argTypes h1
  obtain ⟨frame, rest, henv, rfl⟩ := define_ok h3
  have henv' : σ.env = frame :: rest := by rw [← e1]; exact henv
  obtain ⟨i8, l8, s8⟩ := bindArgs_insertPoint _ _ _ _ _ h4
  have k8 := (bindArgs_step _ _ _ _ _ h4).frames.tail_kept
  have s9 := visitStmt_sameFns body _ _ _ h5 hn
  have k9 := (visitStmt_step body _ _ _ h5).frames.tail_kept
  have hip8 : σ8.insertPoint = some σ.blocks.length := by rw [i8, ← e2]; rfl
  have hl8 : σ8.blocks.length = σ.blocks.length + 1 := by
    rw [l8, ← e2]
    simp [State.pushEnv, State.setInsertPoint, State.createBlock, State.createFunction,
      State.typeOf]
  obtain ⟨e, hipe, hel, hecase⟩ := body_end h5 hip8 (by omega)
  obtain ⟨f9, rest9, henv9, rfl⟩ := popEnv_ok h6
  have ho : Owned σ9 := by
    refine visitStmt_owned body _ _ _ h5 (bindArgs_owned _ _ _ _ _ h4 ⟨_, rfl, ?_⟩)
    simp [parentAt, State.createBlock, State.setInsertPoint, State.pushEnv, State.createFunction]
  have hmf : σ9.mainFunction = some σ.functions.length := by
    rw [s9.1, s8.1, ← e4]
    rfl
  have hfs : σ9.functions = σ.functions ++
      [{ name := name, retTy := retTy, argTys := argTypes, isVarArg := false }] := by
    rw [s9.2, s8.2, ← e4]
    rfl
  have hrest : rest9 = frame.define name (.func σ.functions.length) :: rest := by
    have : σ9.env.tail = frame.define name (.func σ1.functions.length) :: rest := by
      rw [k9, k8]
      rfl
    rw [henv9, e4] at this
    exact this
  refine ⟨retTy, argTypes, frame, rest, σ8, σ9, r, e, hfs, henv', hrest, hmf, ?_, hip8, h5, hipe,
    hipe, by omega, hel, ?_, ?_, ?_, ?_⟩
  · rw [hv]
    show State.currentFunction σ9 = _
    unfold State.currentFunction
    rw [hmf]
  · obtain ⟨b, hb, hp⟩ := ho
    rw [hipe] at hb
    cases hb
    rw [← hmf]
    exact hp
  · intro i
    exact instsAt_insert_at _ i hipe hel
  · intro ex v2 σ2 hex
    obtain ⟨code, hem, _⟩ := visitExpr_step ex _ _ _ hex
    exact ⟨code, hem.code_at hipe hel⟩
  · intro c prog hprog
    unfold compile
    rw [visitStmts_append, hprog, ok_bind]
    simp only [visitStmts, h, ok_bind]
    rfl

/-- C18 (counterexample). The definition `fn f() -> i32 { fn g() -> i32 { } }` at the start of
`compile`: after the visit of `f` the current function is not `f`, function 1 of the module,
but `g`, function 2, which the body defined, and the insertion block is the entry block of
`g`. -/
theorem C18_nested_fn_counterexample :
    failureOf (visitStmt nestedFn State.start) = none ∧
    (okOr (visitStmt nestedFn State.start) (.null, State.start)).2.getFunction "f" = some 1 ∧
    (okOr (visitStmt nestedFn State.start) (.null, State.start)).2.getFunction "g" = some 2 ∧
    (okOr (visitStmt nestedFn State.start) (.null, State.start)).2.mainFunction = some 2 ∧
    (okOr (visitStmt nestedFn State.start) (.null, State.start)).2.insertPoint = some 2 ∧
    parentAt (okOr (visitStmt nestedFn State.start) (.null, State.start)).2.blocks 2 =
      some (some 2) := by
  refine ⟨by decide!, by decide!, by decide!, by decide!, by decide!, by decide!⟩

/-- Witness of C18: `fn f(a: i8, b: i32) -> i32 { return a + b; }` at the start of `compile`;
`f` is function 1 and its entry block is block 1. -/
theorem C18_fn_leaves_builder_witness :
    failureOf (visitStmt fnAddAB State.start) = none ∧
    State.start.insertPoint = some 0 ∧
    (okOr (visitStmt fnAddAB State.start) (.null, State.start)).2.mainFunction = some 1 ∧
    (okOr (visitStmt fnAddAB State.start) (.null, State.start)).2.env = State.afterF.env ∧
    ∃ e, (okOr (visitStmt fnAddAB State.start) (.null, State.start)).2.insertPoint = some e ∧
      1 ≤ e ∧
      parentAt (okOr (visitStmt fnAddAB State.start) (.null, State.start)).2.blocks e =
        some (some 1) := by
  have hok : failureOf (visitStmt fnAddAB State.start) = none := by decide!
  obtain ⟨_, _, _, _, _, _, _, e, _, _, _, h4, _, _, _, _, h9, h10, _, h12, _⟩ :=
    C18_fn_leaves_builder "f" [("a", .I8), ("b", .I32)] .I32
      (.BlockStatement (.cons (.ReturnStatement
        (.BinaryExpression (.VarExpression "a") .PLUS (.VarExpression "b"))) .nil))
      State.start _ _ (ok_of_failureOf hok (.null, State.start)) rfl
  exact ⟨hok, rfl, h4, by decide!, e, h9, h10, h12⟩

/-! ## C19: a comparison as an operand -/

theorem toSigned_literal (a : Int) (h1 : -2 ^ 63 ≤ a) (h2 : a < 2 ^ 63) :
    toSigned 64 (a % 2 ^ 64).toNat = a := by
  unfold toSigned
  have hnn : (0 : Int) ≤ a % 2 ^ 64 := Int.emod_nonneg _ (by norm_num)
  have hlt : a % 2 ^ 64 < 2 ^ 64 := Int.emod_lt_of_pos _ (by norm_num)
  have hm : (a % 2 ^ 64).toNat % 2 ^ 64 = (a % 2 ^ 64).toNat := by
    apply Nat.mod_eq_of_lt
    have : ((a % 2 ^ 64).toNat : Int) < 2 ^ 64 := by rw [Int.toNat_of_nonneg hnn]; exact hlt
    exact_mod_cast this
  rw [hm]
  have hc : ((a % 2 ^ 64).toNat : Int) = a % 2 ^ 64 := Int.toNat_of_nonneg hnn
  by_cases hneg : 0 ≤ a
  · have e : a % 2 ^ 64 = a := Int.emod_eq_of_lt hneg (by omega)
    have hlt2 : 2 * (a % 2 ^ 64).toNat < 2 ^ 64 := by
      have : (2 * (a % 2 ^ 64).toNat : Int) < 2 ^ 64 := by rw [hc, e]; omega
      exact_mod_cast this
    rw [if_pos hlt2, hc, e]
  · have e : a % 2 ^ 64 = a + 2 ^ 64 := by
      rw [← Int.add_emod_self]
      exact Int.emod_eq_of_lt (by omega) (by omega)
    have hge : ¬ 2 * (a % 2 ^ 64).toNat < 2 ^ 64 := by
      intro hcon
      have : (2 * (a % 2 ^ 64).toNat : Int) < 2 ^ 64 := by exact_mod_cast hcon
      rw [hc, e] at this
      omega
    rw [if_neg hge, hc, e]
    push_cast
    ring

theorem minus_one_add (c : Int) :
    (2 ^ 64 - 1 + (c % 2 ^ 64).toNat) % 2 ^ 64 = ofInt 64 (c - 1) := by
  unfold ofInt
  have hnn : (0 : Int) ≤ c % 2 ^ 64 := Int.emod_nonneg _ (by norm_num)
  apply Int.ofNat.inj
  show (((2 ^ 64 - 1 + (c % 2 ^ 64).toNat) % 2 ^ 64 : Nat) : Int) = (((c - 1) % 2 ^ 64).toNat : Int)
  rw [Int.toNat_of_nonneg (Int.emod_nonneg _ (by norm_num))]
  have hc : ((c % 2 ^ 64).toNat : Int) = c % 2 ^ 64 := Int.toNat_of_nonneg hnn
  have e1 : (((2 ^ 64 - 1 + (c % 2 ^ 64).toNat) % 2 ^ 64 : Nat) : Int) =
      ((2 ^ 64 - 1 : Int) + c % 2 ^ 64) % 2 ^ 64 := by
    rw [Int.natCast_mod, Int.natCast_add, hc]
    norm_num
  rw [e1]
  have e2 : (2 ^ 64 - 1 : Int) + c % 2 ^ 64 = (c % 2 ^ 64 - 1) + 2 ^ 64 := by ring
  rw [e2, Int.add_emod_self, Int.sub_emod, Int.emod_emod_of_dvd _ (dvd_refl _), ← Int.sub_emod]

theorem visitExpr_ltLiterals (a b : Int) (σ : State)
    (ha : -2 ^ 63 ≤ a ∧ a < 2 ^ 63) (hb : -2 ^ 63 ≤ b ∧ b < 2 ^ 63) (hab : a < b) :
    visitExpr (.BinaryExpression (.IntExpression a) .LESS (.IntExpression b)) σ =
      .ok (.constInt 1 1, σ) := by
  have hlt : evalPred .SLT 64 (a % 2 ^ 64).toNat (b % 2 ^ 64).toNat = true := by
    simp only [evalPred, toSigned_literal a ha.1 ha.2, toSigned_literal b hb.1 hb.2]
    exact decide_eq_true hab
  rw [visitExpr_binary]
  simp only [visitExpr, ok_bind, CastValuesToBiggestType, Value.getType, if_true, emitOperator,
    createICmp, foldICmp, State.insertFolded, hlt]

theorem castValues_true (cv : Nat) (σ : State) :
    CastValuesToBiggestType (.constInt 1 1) (.constInt 64 cv) σ =
      .ok (.constInt 64 (ofInt 64 (-1)), .constInt 64 cv, σ) := by
  rw [castValues_int (.constInt 1 1) (.constInt 64 cv) σ 1 64 rfl rfl]
  rfl

theorem visitExpr_ltPlus (a b c : Int) (σ : State)
    (ha : -2 ^ 63 ≤ a ∧ a < 2 ^ 63) (hb : -2 ^ 63 ≤ b ∧ b < 2 ^ 63) (hab : a < b) :
    visitExpr (ltPlus a b c) σ = .ok (.constInt 64 (ofInt 64 (c - 1)), σ) := by
  have hm1 : ofInt 64 (-1) = 2 ^ 64 - 1 := by decide
  unfold ltPlus
  rw [visitExpr_binary, visitExpr_ltLiterals a b σ ha hb hab]
  simp only [visitExpr, ok_bind, castValues_true, emitOperator, createBinOp, Value.getType,
    foldBinOp, evalBinOp, State.insertFolded, hm1, minus_one_add]

/-- C19. For all integer literals `a`, `b`, `c` where `a` and `b` are 64 bit values with
`a < b`: the visit of `a < b` yields a value of width 1, the constant `true`; the promotion rule
sign-extends it as the narrower operand of the enclosing `+`, to all 64 bits set, which is `-1`;
and the visit of `(a < b) + c` yields `c - 1` at width 64, a constant for which no code is
generated. On operands that are not constants the same three steps are instructions: for
operand values `l`, `r` and `cv` of width 64, `l` not a constant, the comparison `l < r` is an
`icmp` of width 1, the promotion rule extends it with `sext` to 64 bits, and the add has width
64; running this code with `l < r`, the comparison yields 1, the sign extension yields all 64
bits set, and the add yields the value of `cv` plus `-1` at width 64. -/
theorem C19_true_comparison_is_minus_one (a b c : Int) (σ : State)
    (ha : -2 ^ 63 ≤ a ∧ a < 2 ^ 63) (hb : -2 ^ 63 ≤ b ∧ b < 2 ^ 63) (hab : a < b) :
    visitExpr (.BinaryExpression (.IntExpression a) .LESS (.IntExpression b)) σ =
      .ok (.constInt 1 1, σ) ∧
    CastValuesToBiggestType (.constInt 1 1) (.constInt 64 (c % 2 ^ 64).toNat) σ =
      .ok (.constInt 64 (ofInt 64 (-1)), .constInt 64 (c % 2 ^ 64).toNat, σ) ∧
    visitExpr (ltPlus a b c) σ = .ok (.constInt 64 (ofInt 64 (c - 1)), σ) ∧
    ∀ (l r cv : Value), l.getType = some (.int 64) → r.getType = some (.int 64) →
      cv.getType = some (.int 64) → l.isConstant = false →
      emitOperator .LESS l r σ = .ok (σ.emit (fun id => .icmp id .SLT l r) (.int 1)) ∧
      CastValuesToBiggestType (.inst σ.nextId (.int 1)) cv
          (σ.emit (fun id => .icmp id .SLT l r) (.int 1)).2 =
        .ok (.inst (σ.nextId + 1) (.int 64), cv,
          { σ.appendCode [.icmp σ.nextId .SLT l r,
              .cast (σ.nextId + 1) .SExt (.inst σ.nextId (.int 1)) (.int 64)]
            with nextId := σ.nextId + 2 }) ∧
      emitOperator .PLUS (.inst (σ.nextId + 1) (.int 64)) cv
          { σ.appendCode [.icmp σ.nextId .SLT l r,
              .cast (σ.nextId + 1) .SExt (.inst σ.nextId (.int 1)) (.int 64)]
            with nextId := σ.nextId + 2 } =
        .ok (.inst (σ.nextId + 2) (.int 64),
          { σ.appendCode (ltPlusCode l r cv σ.nextId) with nextId := σ.nextId + 3 }) ∧
      ∀ (m : Machine) (x y z : Nat), m.eval l = some x → m.eval r = some y →
        m.eval cv = some z → toSigned 64 x < toSigned 64 y →
        (∀ j ty, cv = .inst j ty → j < σ.nextId) →
        ∃ m1, execInsts (ltPlusCode l r cv σ.nextId) m = some m1 ∧
          m1.regs σ.nextId = some 1 ∧
          m1.regs (σ.nextId + 1) = some (ofInt 64 (-1)) ∧
          m1.regs (σ.nextId + 2) = some ((ofInt 64 (-1) + z) % 2 ^ 64) := by
  refine ⟨visitExpr_ltLiterals a b σ ha hb hab, castValues_true _ σ,
    visitExpr_ltPlus a b c σ ha hb hab, ?_⟩
  intro l r cv hl hr hcv hlc
  refine ⟨?_, ?_, ?_, ?_⟩
  · simp only [emitOperator, createICmp_typed _ σ hl hr, foldICmp_none_left _ _ hlc,
      State.insertFolded]
  · rw [castValues_int (.inst σ.nextId (.int 1)) cv _ 1 64 rfl hcv]
    simp only [show (1 : Nat) ≠ 64 by decide, show ¬ (64 : Nat) < 1 by decide, if_false]
    rw [insertCast_plain (v := .inst σ.nextId (.int 1)) .SExt (.int 64) _ rfl]
    simp only [State.emit, State.insert, appendCode_nextId, appendCode_append, List.singleton_append]
  · simp only [emitOperator, createBinOp_typed _ _ (getType_inst _ _) hcv,
      foldBinOp_none_left _ _ (show (Value.inst (σ.nextId + 1) (.int 64)).isConstant = false from rfl),
      State.insertFolded, State.emit, State.insert, appendCode_nextId, appendCode_append,
      ltPlusCode, List.cons_append, List.nil_append]
  · intro m x y z hx hy hz hlt hfresh
    have hp : evalPred .SLT 64 x y = true := by
      simp only [evalPred]
      exact decide_eq_true hlt
    have hsext : evalCast .SExt 1 64 1 = 2 ^ 64 - 1 := by decide
    have hm1 : ofInt 64 (-1) = 2 ^ 64 - 1 := by decide
    have hw : l.width = some 64 := by simp [Value.width, hl, Ty.intWidth]
    have hz1 : ∀ (m2 : Machine), m2.args = m.args →
        (∀ j, j < σ.nextId → m2.regs j = m.regs j) → m2.eval cv = some z := by
      intro m2 ha2 hr2
      cases cv with
      | inst j ty => simpa [Machine.eval, hr2 j (hfresh j ty rfl)] using hz
      | arg f i ty => simpa [Machine.eval, ha2] using hz
      | _ => exact hz
    have s1 := execInst_icmp σ.nextId .SLT hw hx hy
    rw [hp, if_pos rfl] at s1
    have s2 := @execInst_cast (Machine.mk (Function.update m.regs σ.nextId (some 1)) m.mem m.args)
      (.inst σ.nextId (.int 1)) 1 1 (σ.nextId + 1) 64 .SExt rfl (by simp [Machine.eval])
    rw [hsext] at s2
    have s3 := @execInst_binop
      (Machine.mk (Function.update (Function.update m.regs σ.nextId (some 1))
        (σ.nextId + 1) (some (2 ^ 64 - 1))) m.mem m.args)
      (.inst (σ.nextId + 1) (.int 64)) cv 64 (2 ^ 64 - 1) z
      ((2 ^ 64 - 1 + z) % 2 ^ 64) (σ.nextId + 2) .Add rfl (by simp [Machine.eval])
      (hz1 _ rfl (by
        intro j hj
        have h1 : j ≠ σ.nextId + 1 := by omega
        have h2 : j ≠ σ.nextId := by omega
        simp [Function.update, h1, h2])) rfl
    rw [ltPlusCode, execInsts_cons s1, execInsts_cons s2, execInsts_cons s3]
    refine ⟨_, rfl, ?_, ?_, ?_⟩
    · simp [Function.update]
    · rw [hm1]; simp [Function.update]
    · rw [hm1]; simp [Function.update]

/-- Witness of C19: `(1 < 2) + 5` evaluates to 4. -/
theorem C19_true_comparison_is_minus_one_witness :
    visitExpr (ltPlus 1 2 5) State.inMain = .ok (.constInt 64 4, State.inMain) :=
  (C19_true_comparison_is_minus_one 1 2 5 State.inMain (by decide) (by decide)
    (by decide)).2.2.1

/-! ## C20: the initialiser of a `let` is evaluated before the name is bound -/

mutual
theorem subVisits_env : ∀ (e : Expression) (σ : State) (p : Expression × State),
    p ∈ subVisits e σ → p.2.env = σ.env
  | .IntExpression value, σ, p, hp => by
    simp only [subVisits, List.mem_singleton] at hp
    rw [hp]
  | .VarExpression name, σ, p, hp => by
    simp only [subVisits, List.mem_singleton] at hp
    rw [hp]
  | .BinaryExpression l op r, σ, p, hp => by
    simp only [subVisits, List.mem_cons, List.mem_append] at hp
    rcases hp with rfl | hp | hp
    · rfl
    · exact subVisits_env l σ p hp
    · cases hl : visitExpr l σ with
      | error err => rw [hl] at hp; simp at hp
      | ok q =>
        rw [hl] at hp
        rw [subVisits_env r q.2 p hp]
        exact (visitExpr_step l σ q.2 q.1 hl).env_expr
  | .AssignmentExpression name e, σ, p, hp => by
    simp only [subVisits, List.mem_cons] at hp
    rcases hp with rfl | hp
    · rfl
    · exact subVisits_env e σ p hp
  | .CallExpression name args, σ, p, hp => by
    simp only [subVisits, List.mem_cons] at hp
    rcases hp with rfl | hp
    · rfl
    · exact subVisitsArgs_env args σ p hp
theorem subVisitsArgs_env : ∀ (es : ExprList) (σ : State) (p : Expression × State),
    p ∈ subVisitsArgs es σ → p.2.env = σ.env
  | .nil, σ, p, hp => by simp [subVisitsArgs] at hp
  | .cons e rest, σ, p, hp => by
    simp only [subVisitsArgs, List.mem_append] at hp
    rcases hp with hp | hp
    · exact subVisits_env e σ p hp
    · cases hl : visitExpr e σ with
      | error err => rw [hl] at hp; simp at hp
      | ok q =>
        rw [hl] at hp
        rw [subVisitsArgs_env rest q.2 p hp]
        exact (visitExpr_step e σ q.2 q.1 hl).env_expr
end

mutual
theorem subVisits_ok : ∀ (e : Expression) (σ σ1 : State) (v : Value),
    visitExpr e σ = .ok (v, σ1) → ∀ p ∈ subVisits e σ, ∃ w σb, visitExpr p.1 p.2 = .ok (w, σb)
  | .IntExpression value, σ, σ1, v, h, p, hp => by
    simp only [subVisits, List.mem_singleton] at hp
    rw [hp]
    exact ⟨v, σ1, h⟩
  | .VarExpression name, σ, σ1, v, h, p, hp => by
    simp only [subVisits, List.mem_singleton] at hp
    rw [hp]
    exact ⟨v, σ1, h⟩
  | .BinaryExpression l op r, σ, σ1, v, h, p, hp => by
    simp only [subVisits, List.mem_cons, List.mem_append] at hp
    have h' := h
    rw [visitExpr_binary] at h'
    simp only [bind_ok] at h'
    obtain ⟨⟨lv, s1⟩, h1, ⟨rv, s2⟩, h2, _⟩ := h'
    rcases hp with rfl | hp | hp
    · exact ⟨v, σ1, h⟩
    · exact subVisits_ok l σ s1 lv h1 p hp
    · rw [h1] at hp
      exact subVisits_ok r s1 s2 rv h2 p hp
  | .AssignmentExpression name e, σ, σ1, v, h, p, hp => by
    simp only [subVisits, List.mem_cons] at hp
    have h' := h
    rw [visitExpr] at h'
    simp only [bind_ok] at h'
    obtain ⟨⟨ev, s1⟩, h1, _⟩ := h'
    rcases hp with rfl | hp
    · exact ⟨v, σ1, h⟩
    · exact subVisits_ok e σ s1 ev h1 p hp
  | .CallExpression name args, σ, σ1, v, h, p, hp => by
    simp only [subVisits, List.mem_cons] at hp
    have h' := h
    rw [visitExpr_call, bind_ok] at h'
    obtain ⟨⟨vals, s1⟩, h1, _⟩ := h'
    rcases hp with rfl | hp
    · exact ⟨v, σ1, h⟩
    · exact subVisitsArgs_ok args σ s1 vals h1 p hp
theorem subVisitsArgs_ok : ∀ (es : ExprList) (σ σ1 : State) (vs : List Value),
    visitArgs es σ = .ok (vs, σ1) →
    ∀ p ∈ subVisitsArgs es σ, ∃ w σb, visitExpr p.1 p.2 = .ok (w, σb)
  | .nil, σ, σ1, vs, h, p, hp => by simp [subVisitsArgs] at hp
  | .cons e rest, σ, σ1, vs, h, p, hp => by
    simp only [subVisitsArgs, List.mem_append] at hp
    simp only [visitArgs, bind_ok] at h
    obtain ⟨⟨ev, s1⟩, h1, ⟨rvs, s2⟩, h2, _⟩ := h
    rcases hp with hp | hp
    · exact subVisits_ok e σ s1 ev h1 p hp
    · rw [h1] at hp
      exact subVisitsArgs_ok rest s1 s2 rvs h2 p hp
end

theorem count_define (f : Frame) (name : String) (x : Value) :
    (f.define name x).count name = 1 := by
  simp [Frame.count, Frame.define, List.filter_filter]

theorem emit_emit (σ : State) (mk1 mk2 : Nat → Inst) (t1 t2 : Ty) :
    ((σ.emit mk1 t1).2.emit mk2 t2).2 =
      { σ.appendCode [mk1 σ.nextId, mk2 (σ.nextId + 1)] with nextId := σ.nextId + 2 } := by
  simp only [State.emit, State.insert, appendCode_nextId, appendCode_append, List.singleton_append]

/-- C20. For every `let x: T = e` visited with success: the scope before the visit has a current
frame; the initialiser is visited in the state before the `let`, with value `value` and
resulting state `σ1`, and its value is cast to the declared type in `σ1`, with result `v`, the
value of the statement, and resulting state `σ2`; the state after the `let` is `σ2` with the
`alloca`, instruction `a`, and the store of `v` into it appended to the code, in which `x` is
bound to that `alloca` in the current frame. So the `alloca` is created, and `x` bound to it,
after everything the initialiser generated. Every visit of `VarExpression x` inside that visit
of `e` starts in the scope as it was before the `let` and loads from the binding of `x` found
there (innermost frame first), which is not the new `alloca` when it is an instruction created
earlier. After the visit a lookup of `x` yields the new `alloca`; the frame holds exactly one
binding of `x`, so a binding of `x` that the frame held before, from an earlier `let`, is
replaced; the bindings of the other names are as before. -/
theorem C20_let_binds_after_initializer (x : String) (T : TokenTypes) (e : Expression)
    (σ σ' : State) (v : Value)
    (h : visitStmt (.LetStatement x T e) σ = .ok (v, σ')) :
    ∃ (frame : Frame) (rest : List Frame) (a : Nat) (ty : Ty) (value : Value) (σ1 σ2 : State),
      σ.env = frame :: rest ∧
      ty = getIntNTy (σ.typeOf T).1.1 ∧
      visitExpr e (σ.typeOf T).2 = .ok (value, σ1) ∧
      createIntCast value ty (σ.typeOf T).1.2 σ1 = .ok (v, σ2) ∧
      a = σ2.nextId ∧ σ.nextId ≤ σ1.nextId ∧ σ1.nextId ≤ a ∧
      σ' = { σ2.appendCode [.alloca a ty x, .store (a + 1) v (.inst a (.ptr ty))] with
              nextId := a + 2, env := frame.define x (.inst a (.ptr ty)) :: rest } ∧
      σ'.env = frame.define x (.inst a (.ptr ty)) :: rest ∧
      (∀ σa, (Expression.VarExpression x, σa) ∈ subVisits e (σ.typeOf T).2 →
        σa.env = σ.env ∧
        ∃ old, Environment.get σ.env x = .ok old ∧
          visitExpr (.VarExpression x) σa = createLoad old σa ∧
          ((∀ k t, old = .inst k t → k < σ.nextId) → old ≠ .inst a (.ptr ty))) ∧
      Environment.get σ'.env x = .ok (.inst a (.ptr ty)) ∧
      (frame.define x (.inst a (.ptr ty))).count x = 1 ∧
      (∀ first, frame.find x = some first → (∀ k t, first = .inst k t → k < σ.nextId) →
        Environment.get σ'.env x ≠ .ok first) ∧
      (∀ y, y ≠ x → (frame.define x (.inst a (.ptr ty))).find y = frame.find y) := by
  obtain ⟨value, s1, ty, s2, al, s3, st, s4, h1, hty, h3, h4, h5, h6⟩ := visitStmt_let_ok h
  have e1 := visitExpr_step e _ _ _ h1
  have e2 := createIntCast_step h3
  obtain ⟨_, hal⟩ := createAlloca_ok h4
  obtain ⟨hal1, hal2⟩ := Prod.mk.inj hal
  obtain ⟨_, _, hst⟩ := createStore_ok h5
  have hst2 : s4 = (s3.emit (fun id => .store id v al) .void).2 := congrArg Prod.snd hst
  have hs4 : s4 = { s2.appendCode [.alloca s2.nextId ty x,
      .store (s2.nextId + 1) v (.inst s2.nextId (.ptr ty))] with nextId := s2.nextId + 2 } := by
    rw [hst2, hal2, hal1]
    exact emit_emit s2 (fun id => .alloca id ty x)
      (fun id => .store id v (.inst s2.nextId (.ptr ty))) (.ptr ty) .void
  have hal3 : al = .inst s2.nextId (.ptr ty) := hal1
  subst hal3
  obtain ⟨f, rest, he, rfl⟩ := define_ok h6
  have hen : s2.env = σ.env := by rw [e2.env_expr, e1.env_expr]; rfl
  have hn1 : σ.nextId ≤ s1.nextId := e1.ids
  have hn : σ.nextId ≤ s2.nextId := Nat.le_trans e1.ids e2.ids
  have henv : σ.env = f :: rest := by
    rw [← hen, ← (let_tail_step h4 h5).env_expr]
    exact he
  have hnew : ∀ old : Value, (∀ k t, old = .inst k t → k < σ.nextId) →
      old ≠ .inst s2.nextId (.ptr ty) := by
    intro old hold hc
    have := hold _ _ hc
    omega
  refine ⟨f, rest, s2.nextId, ty, value, s1, s2, henv, hty.symm, h1, h3, rfl, hn1, e2.ids, ?_,
    rfl, ?_, get_define _ _ _ _, count_define _ _ _, ?_, fun y hy => find_define_other f x y _ hy⟩
  · rw [hs4]
  · intro σa hσa
    have henva : σa.env = σ.env := subVisits_env e _ _ hσa
    obtain ⟨w, σb, hw⟩ := subVisits_ok e _ _ _ h1 _ hσa
    simp only at hw
    rw [visitExpr_var, bind_ok] at hw
    obtain ⟨old, hget, hload⟩ := hw
    rw [henva] at hget
    refine ⟨henva, old, hget, ?_, hnew old⟩
    rw [visitExpr_var, henva, hget, ok_bind]
  · intro first _ hfresh hc
    have hg : Environment.get (f.define x (.inst s2.nextId (.ptr ty)) :: rest) x =
        .ok (.inst s2.nextId (.ptr ty)) := get_define _ _ _ _
    have : Except.ok (Value.inst s2.nextId (.ptr ty)) = (Except.ok first : Except Err Value) :=
      hg.symm.trans hc
    exact hnew first hfresh (Except.ok.inj this).symm

/-- Witness of C20: `let x: i32 = x + 1;` after `fn main() -> i32 { }` and `let x: i64 = 1;`,
in the same frame and with the builder in the entry block of `main`. The `x` of the initialiser
is loaded from the first `alloca`, instruction 0, and afterwards `x` is bound to a later
instruction. -/
theorem C20_let_binds_after_initializer_witness :
    failureOf (visitStmt letXPlusOne State.withOuterX) = none ∧
    Environment.get State.withOuterX.env "x" = .ok (.inst 0 (.ptr (.int 64))) ∧
    (Expression.VarExpression "x", State.withOuterX) ∈
      subVisits (.BinaryExpression (.VarExpression "x") .PLUS (.IntExpression 1))
        State.withOuterX ∧
    visitExpr (.VarExpression "x") State.withOuterX =
      createLoad (.inst 0 (.ptr (.int 64))) State.withOuterX ∧
    ∃ a ty, 2 ≤ a ∧
      Environment.get (okOr (visitStmt letXPlusOne State.withOuterX) (.null, State.inMain)).2.env
        "x" = .ok (.inst a (.ptr ty)) := by
  have hok : failureOf (visitStmt letXPlusOne State.withOuterX) = none := by decide!
  have hget : Environment.get State.withOuterX.env "x" = .ok (.inst 0 (.ptr (.int 64))) := rfl
  have hmem : (Expression.VarExpression "x", State.withOuterX) ∈
      subVisits (.BinaryExpression (.VarExpression "x") .PLUS (.IntExpression 1))
        State.withOuterX := by
    simp [subVisits]
  obtain ⟨frame, rest, a, ty, value, σ1, σ2, _, _, _, _, _, ha1, ha2, _, _, hsub, hafter, _⟩ :=
    C20_let_binds_after_initializer "x" .I32
      (.BinaryExpression (.VarExpression "x") .PLUS (.IntExpression 1)) State.withOuterX _ _
      (ok_of_failureOf hok (.null, State.inMain))
  obtain ⟨_, old, hold, hload, _⟩ := hsub State.withOuterX hmem
  rw [hget] at hold
  cases hold
  have hn : State.withOuterX.nextId = 2 := by decide
  exact ⟨hok, hget, hmem, hload, a, ty, by omega, hafter⟩

/-! ## C11: the lookup `typeMap[tag]` -/

theorem createIntCast_total {v : Value} {t : Ty} (dest : Ty) (sg : Bool) (σ : State)
    (hv : v.getType = some t) :
    ∃ nv σ1, createIntCast v dest sg σ = .ok (nv, σ1) ∧ nv.getType = some dest := by
  by_cases h : t = dest
  · subst h
    exact ⟨v, σ, by simp [createIntCast, hv], hv⟩
  · exact ⟨_, _, by simp only [createIntCast, hv, h, if_false]; rfl, insertCast_type _ _ _ _⟩

theorem FnsGrow.of_eq_fns {σ σ1 : State} (h : σ1.functions = σ.functions) : FnsGrow σ σ1 :=
  ⟨[], by simp [h]⟩

theorem FnsGrow.trans_grow {σ σ1 σ2 : State} (h1 : FnsGrow σ σ1) (h2 : FnsGrow σ1 σ2) :
    FnsGrow σ σ2 := by
  obtain ⟨m1, e1⟩ := h1
  obtain ⟨m2, e2⟩ := h2
  exact ⟨m1 ++ m2, by rw [e2, e1, List.append_assoc]⟩

theorem SameFns.fnsGrow {σ σ1 : State} (h : SameFns σ σ1) : FnsGrow σ σ1 :=
  FnsGrow.of_eq_fns h.2

mutual
theorem visitStmt_fnsGrow : ∀ (s : Statement) (σ σ' : State) (v : Value),
    visitStmt s σ = .ok (v, σ') → FnsGrow σ σ'
  | .ExpressionStatement e, σ, σ', v, h => by
    rw [visitStmt] at h
    exact (visitExpr_step e _ _ _ h).sameFns.fnsGrow
  | .PrintStatement e, σ, σ', v, h => by
    obtain ⟨value, σ1, fmt, r, h1, _, h3, _⟩ := visitStmt_print_ok h
    exact ((visitExpr_step e _ _ _ h1).trans_expr (createCall_step h3)).sameFns.fnsGrow
  | .LetStatement name T e, σ, σ', v, h => by
    obtain ⟨value, s1, ty, s2, al, s3, st, s4, h1, _, h3, h4, h5, h6⟩ := visitStmt_let_ok h
    have es : ExprStep (σ.typeOf T).2 s4 :=
      ((visitExpr_step e _ _ _ h1).trans_expr (createIntCast_step h3)).trans_expr
        (let_tail_step h4 h5)
    obtain ⟨f, rest, _, rfl⟩ := define_ok h6
    exact FnsGrow.of_eq_fns es.sameFns.2
  | .BlockStatement ss, σ, σ', v, h => by
    obtain ⟨s1, h1, h2, _⟩ := visitStmt_block_ok h
    obtain ⟨f, rest, _, rfl⟩ := popEnv_ok h2
    obtain ⟨m, hm⟩ := visitStmts_fnsGrow ss _ _ h1
    exact ⟨m, hm⟩
  | .IfStatement cond t el e, σ, σ', v, h => by
    obtain ⟨c, σ1, r, σ7, σ9, σ10, σ11, h1, h2, h3, h4, h5, _, rfl⟩ := visitStmt_if_ok h
    have s1 := (visitExpr_step cond _ _ _ h1).sameFns.fnsGrow
    have s7 := visitStmt_fnsGrow t _ _ _ h2
    have s9 := visitElifs_fnsGrow el _ _ _ _ _ h3
    have s10 := visitElse_fnsGrow e _ _ _ _ h4
    have s11 := (sameFns_insertInto h5).fnsGrow
    have s6 : FnsGrow σ1 (((ifBlocks σ1 el).insert (.condBr c σ1.blocks.length
        (nextBlockOf (elifIds (σ1.blocks.length + 3) el.size)
          (lastBlockOf e (σ1.blocks.length + 1) (σ1.blocks.length + 2))))).setInsertPoint
            σ1.blocks.length) :=
      ((sameFns_ifBlocks σ1 el).trans_fns
        (SameFns.trans_fns (sameFns_insert _ _) ⟨rfl, rfl⟩)).fnsGrow
    obtain ⟨m, hm⟩ := ((((s1.trans_grow s6).trans_grow s7).trans_grow
      (sameFns_insert _ _).fnsGrow).trans_grow s9).trans_grow (s10.trans_grow s11)
    exact ⟨m, hm⟩
  | .FnStatement name args R body, σ, σ', v, h => by
    obtain ⟨argTypes, σ1, retTy, σ5, σ8, r, σ9, h1, h2, h3, h4, h5, h6, _⟩ := visitStmt_fn_ok h
    obtain ⟨_, _, _, e4, _, _⟩ := fnArgTypes_ok args σ σ1 argTypes h1
    obtain ⟨frame, rest, _, rfl⟩ := define_ok h3
    obtain ⟨_, _, s8⟩ := bindArgs_insertPoint _ _ _ _ _ h4
    obtain ⟨m9, hm9⟩ := visitStmt_fnsGrow body _ _ _ h5
    obtain ⟨f9, rest9, _, rfl⟩ := popEnv_ok h6
    refine ⟨{ name := name, retTy := retTy, argTys := argTypes, isVarArg := false } :: m9, ?_⟩
    show σ9.functions = _
    rw [hm9, s8.2, ← e4]
    simp [State.createFunction, State.createBlock, State.setInsertPoint, State.pushEnv,
      State.typeOf]
  | .ReturnStatement e, σ, σ', v, h => by
    obtain ⟨value, σ1, h1, rfl, _⟩ := visitStmt_return_ok h
    exact ((visitExpr_step e _ _ _ h1).sameFns.trans_fns (sameFns_insert _ _)).fnsGrow
  | .WhileStatement cond branch, σ, σ', v, h => by
    obtain ⟨c, σ5, σ7, r, σ8, σ10, h1, h2, h3, h4, _, rfl⟩ := visitStmt_while_ok h
    have s5 := (visitExpr_step cond _ _ _ h1).sameFns
    have s7 := sameFns_insertInto h2
    have s8 := visitStmt_fnsGrow branch _ _ _ h3
    have s10 := sameFns_insertInto h4
    have a1 : FnsGrow σ (σ7.setInsertPoint (σ.blocks.length + 1)) :=
      (((((sameFns_whileHead σ).trans_fns s5).trans_fns (sameFns_insert _ _)).trans_fns
        s7).trans_fns (⟨rfl, rfl⟩ : SameFns σ7 (σ7.setInsertPoint (σ.blocks.length + 1)))).fnsGrow
    obtain ⟨m, hm⟩ := (a1.trans_grow s8).trans_grow
      ((sameFns_insert _ _).trans_fns s10).fnsGrow
    exact ⟨m, hm⟩
theorem visitStmts_fnsGrow : ∀ (ss : StmtList) (σ σ' : State),
    visitStmts ss σ = .ok σ' → FnsGrow σ σ'
  | .nil, σ, σ', h => by
    rw [visitStmts] at h
    cases h
    exact FnsGrow.of_eq_fns rfl
  | .cons s rest, σ, σ', h => by
    obtain ⟨r, σ1, h1, h2⟩ := visitStmts_cons_ok h
    exact (visitStmt_fnsGrow s _ _ _ h1).trans_grow (visitStmts_fnsGrow rest _ _ h2)
theorem visitElifs_fnsGrow : ∀ (el : ElifList) (ids : List (Nat × Nat)) (last merge : Nat)
    (σ σ' : State), visitElifs el ids last merge σ = .ok σ' → FnsGrow σ σ'
  | .nil, ids, last, merge, σ, σ', h => by
    simp only [visitElifs] at h
    cases h
    exact FnsGrow.of_eq_fns rfl
  | .cons cond branch rest, [], last, merge, σ, σ', h => by
    simp only [visitElifs] at h
    cases h
  | .cons cond branch rest, (t, c) :: ids, last, merge, σ, σ', h => by
    obtain ⟨σ1, cv, σ2, σ4, r, σ5, h1, h2, h3, h4, h5⟩ := visitElifs_cons_ok h
    have s1 := sameFns_insertInto h1
    have s2 := (visitExpr_step cond _ _ _ h2).sameFns
    have s4 := sameFns_insertInto h3
    have s5 := visitStmt_fnsGrow branch _ _ _ h4
    have s6 := visitElifs_fnsGrow rest _ _ _ _ _ h5
    have a1 : FnsGrow σ (σ4.setInsertPoint c) :=
      ((((s1.trans_fns (@SameFns.trans_fns _ (σ1.setInsertPoint t) _ ⟨rfl, rfl⟩
        s2)).trans_fns (sameFns_insert _ _)).trans_fns s4).trans_fns
        (⟨rfl, rfl⟩ : SameFns σ4 (σ4.setInsertPoint c))).fnsGrow
    exact ((a1.trans_grow s5).trans_grow (sameFns_insert _ _).fnsGrow).trans_grow s6
theorem visitElse_fnsGrow : ∀ (e : OptStatement) (elseBlock merge : Nat) (σ σ' : State),
    visitElse e elseBlock merge σ = .ok σ' → FnsGrow σ σ'
  | .none, _, _, σ, σ', h => by
    simp only [visitElse] at h
    cases h
    exact FnsGrow.of_eq_fns rfl
  | .some s, elseBlock, merge, σ, σ', h => by
    obtain ⟨σ1, r, σ2, h1, h2, rfl⟩ := visitElse_some_ok h
    have s2 := visitStmt_fnsGrow s _ _ _ h2
    have a1 : FnsGrow σ (σ1.setInsertPoint elseBlock) :=
      ((sameFns_insertInto h1).trans_fns
        (⟨rfl, rfl⟩ : SameFns σ1 (σ1.setInsertPoint elseBlock))).fnsGrow
    exact (a1.trans_grow s2).trans_grow (sameFns_insert _ _).fnsGrow
end

theorem fn_function {name : String} {args : List (String × TokenTypes)} {R : TokenTypes}
    {body : Statement} {σ σ' : State} {v : Value}
    (h : visitStmt (.FnStatement name args R body) σ = .ok (v, σ')) :
    σ'.functions[σ.functions.length]? =
      some { name := name, retTy := getIntNTy ((fnArgTypes args σ).2.typeOf R).1.1,
             argTys := (fnArgTypes args σ).1, isVarArg := false } := by
  obtain ⟨argTypes, σ1, retTy, σ5, σ8, r, σ9, h1, h2, h3, h4, h5, h6, _⟩ := visitStmt_fn_ok h
  obtain ⟨_, _, _, e4, _, _⟩ := fnArgTypes_ok args σ σ1 argTypes h1
  obtain ⟨frame, rest, _, rfl⟩ := define_ok h3
  obtain ⟨_, _, s8⟩ := bindArgs_insertPoint _ _ _ _ _ h4
  obtain ⟨m9, hm9⟩ := visitStmt_fnsGrow body _ _ _ h5
  obtain ⟨f9, rest9, _, rfl⟩ := popEnv_ok h6
  have hf : σ9.functions = σ1.functions ++
      ({ name := name, retTy := retTy, argTys := argTypes, isVarArg := false } :: m9) := by
    rw [hm9, s8.2]
    simp [State.createFunction, State.createBlock, State.setInsertPoint, State.pushEnv,
      State.typeOf]
  show σ9.functions[σ.functions.length]? = _
  rw [hf, ← e4, List.getElem?_append_right (Nat.le_refl _), Nat.sub_self, h1, ← h2]
  simp

/-- C11 (counterexample). The lookup of a tag that is not one of the eight, `typeMap[OTHER 0]`, in
the state in which `compile` starts: it does not fail but yields width 0, and it leaves a ninth
entry in the table. Nor does the statement fail that asked for the width: the generation of
`fn main() -> i32 { let x: T = 1; }` and of `fn g(a: T) -> T { }` with such a tag `T` succeeds;
the `let` allocates and stores an integer of width 0, and `g` gets a parameter and a return
type of width 0. -/
theorem C11_unknown_tag_counterexample :
    (State.start.typeOf (.OTHER 0)).1 = (0, false) ∧
    (State.start.typeOf (.OTHER 0)).2.typeMap = typeMap ++ [(.OTHER 0, (0, false))] ∧
    State.start.typeMap.length = 8 ∧
    (State.start.typeOf (.OTHER 0)).2.typeMap.length = 9 ∧
    failureOf (visitStmts (.cons (mainWith (.cons letOther .nil)) .nil) State.start) = none ∧
    codeAfter (.cons (mainWith (.cons letOther .nil)) .nil) State.start 1 =
      [.alloca 0 (.int 0) "x", .store 1 (.constInt 0 0) (.inst 0 (.ptr (.int 0)))] ∧
    failureOf (visitStmts (.cons fnOther .nil) State.start) = none ∧
    (okOr (visitStmts (.cons fnOther .nil) State.start) State.start).functions[1]? =
      some { name := "g", retTy := .int 0, argTys := [.int 0], isVarArg := false } := by
  refine ⟨by decide!, by decide!, by decide!, by decide!, by decide!, by decide!, by decide!,
    by decide!⟩

/-- C11 (amended). In every state whose table is `typeMap` as initialised, possibly with entries
that earlier lookups of other tags left behind: the lookup of one of the eight tags yields the
pair of the table and changes nothing; the lookup of any other tag does not fail: it yields
width 0 and signedness false, and it adds an entry for the tag to the table when there is
none. The statement then goes on with the integer type of width 0: a `LetStatement` whose
initialiser has a value, visited in a block of a function, succeeds with a value of width 0 and
binds the name to an `alloca` of width 0; a parameter of that tag gets the type of width 0; and
a `FnStatement` with that return type, once visited, has added a function with return type of
width 0 to the module. -/
theorem C11_type_width_lookup (σ : State) (T : TokenTypes) (hs : TableSound σ.typeMap) :
    (∀ p, widthOf T = some p → σ.typeOf T = (p, σ)) ∧
    (widthOf T = none →
      (σ.typeOf T).1 = (0, false) ∧
      (List.lookup T σ.typeMap = none →
        (σ.typeOf T).2.typeMap = σ.typeMap ++ [(T, (0, false))]) ∧
      (∀ name e v σ1 t frame rest, visitExpr e (σ.typeOf T).2 = .ok (v, σ1) →
        v.getType = some t → σ.getModule = .ok () → σ.env = frame :: rest →
        ∃ nv a σ', visitStmt (.LetStatement name T e) σ = .ok (nv, σ') ∧
          nv.getType = some (.int 0) ∧
          Environment.get σ'.env name = .ok (.inst a (.ptr (.int 0)))) ∧
      (∀ n rest, (fnArgTypes ((n, T) :: rest) σ).1 =
        .int 0 :: (fnArgTypes rest (σ.typeOf T).2).1) ∧
      (∀ name args body v σ',
        visitStmt (.FnStatement name args T body) σ = .ok (v, σ') →
        σ'.functions[σ.functions.length]? =
          some { name := name, retTy := .int 0, argTys := (fnArgTypes args σ).1,
                 isVarArg := false })) := by
  refine ⟨fun p hp => typeOf_known hs hp, fun hT => ⟨typeOf_unknown hs hT, ?_, ?_, ?_, ?_⟩⟩
  · intro hl
    simp [State.typeOf, TypeMap.index, hl]
  · intro name e v σ1 t frame rest he hv hm henv
    have h0 := typeOf_unknown hs hT
    obtain ⟨nv, σ2, hc, hnv⟩ := createIntCast_total (.int 0) false σ1 hv
    have e1 := visitExpr_step e _ _ _ he
    have e2 := createIntCast_step hc
    have hm2 : σ2.getModule = .ok () := by
      obtain ⟨c1, hc1, _⟩ := e1
      obtain ⟨c2, hc2, _⟩ := e2
      rw [hc2.getModule_emits, hc1.getModule_emits]
      exact hm
    obtain ⟨b, _, hb, hbl, _⟩ := getModule_ok hm2
    have henv2 : σ2.env = frame :: rest := by rw [e2.env_expr, e1.env_expr]; exact henv
    obtain ⟨σ3, σ4, h1, _, h3, _, _⟩ :=
      let_after_cast_any name T e σ σ1 σ2 v nv 0 b false frame rest h0 he hc hnv hm2 hb hbl
        henv2
    exact ⟨nv, σ2.nextId, σ3, h1, hnv, by rw [h3]; exact get_define _ _ _ _⟩
  · intro n rest
    rw [fnArgTypes_cons, typeOf_unknown hs hT]
    rfl
  · intro name args body v σ' h
    have h0 := typeOf_unknown (fnArgTypes_sound args σ _ _ rfl hs) hT
    rw [fn_function h, h0]
    rfl

/-- Witness of C11: the lookup of `U16` and of a tag that is not one of the eight, in the state
in which `compile` starts. -/
theorem C11_type_width_lookup_witness :
    State.start.typeOf .U16 = ((16, false), State.start) ∧
    (State.start.typeOf (.OTHER 7)).1 = (0, false) ∧
    (fnArgTypes [("a", .OTHER 7), ("b", .I8)] State.start).1 = [.int 0, .int 8] :=
  ⟨(C11_type_width_lookup State.start .U16 tableSound_typeMap).1 (16, false) rfl,
   ((C11_type_width_lookup State.start (.OTHER 7) tableSound_typeMap).2 rfl).1,
   (((C11_type_width_lookup State.start (.OTHER 7) tableSound_typeMap).2 rfl).2.2.2.1
      "a" [("b", .I8)]).trans (by decide)⟩

end Flare
